import Mathlib

/-! bufreadat: a block cache in front of a positioned reader

Shallow embedding of `bufreadat.go`.

* Go's `int64` values (offsets, block indices, `blockSize`, `numBlocks`) are mathematical
  integers; `/` and `%` are Go's truncating division (`Int.tdiv`, `Int.tmod`).  The `uint64`
  counters and the clock are natural numbers.
* `blockRangeToRange`, which multiplies, is given with the wrap-around of `int64` (`wrap64`).
  Inside `ReadAt` the embedding describes runs in which no intermediate value leaves the
  `int64` range, and calls `blockRangeToRangeExact`, the same function with exact products.
* The embedding covers `blockSize ≥ 1` (with `blockSize = 0` Go stops with a division by
  zero in `rangeToBlockRange`).
* `r.cache`, a Go map, is an association list with pairwise distinct keys.  Go leaves the
  iteration order of `range r.cache` unspecified: every function that ranges over the map takes
  the order as a parameter `ord`, and the theorems hold for every `ord` that permutes its input.
* A run-time panic of the Go code is the outcome `panic`; the second eviction loop has no
  bound in the source and is run with fuel.
* The locks of `ReadAt` are not modelled (one caller at a time), and the graph is disabled
  (`prevLine == ""`), so `drawGraph` is never called.
-/

namespace Bufreadat

/-- Go `error` values met by this package: `nil` is `none`, otherwise `io.EOF` or any other
error, identified by a code. -/
inductive GoError where
  | EOF
  | other (code : Nat)
  deriving DecidableEq, Repr

/-- Result of running Go code: a normal return, a run-time panic, or fuel exhausted. -/
inductive Outcome (α : Type) where
  | ok (a : α)
  | panic
  | outOfFuel
  deriving DecidableEq, Repr

/-- Go: `type cacheEntry struct { lastAccessed atomic.Uint64; data []byte }`. -/
structure cacheEntry where
  lastAccessed : Nat
  data : List UInt8
  deriving DecidableEq, Repr

/-- Go: `map[int64]*cacheEntry`. -/
abbrev Cache := List (Int × cacheEntry)

/-- The `io.ReaderAt` collaborator as a state machine: from its state, the length of the
destination buffer and the offset, it gives the bytes it wrote (their number is Go's `n`), the
error, and its next state. -/
structure Underlying (σ : Type) where
  ReadAt : σ → Nat → Int → (List UInt8 × Option GoError) × σ

/-- Go: `type ReaderAt struct`; `underlying` holds the state of the wrapped source, the
mutex and the two graph fields are left out. -/
structure ReaderAt (σ : Type) where
  underlying : σ
  blockSize : Int
  numBlocks : Int
  cache : Cache
  clock : Nat
  overlayBytes : Nat
  underlayBytes : Nat
  overlayReqs : Nat
  underlayReqs : Nat
  deriving DecidableEq, Repr

/-- Go: `type readRequest struct { buffer []byte; offset int64; err error }`. -/
structure readRequest where
  buffer : List UInt8
  offset : Int
  err : Option GoError
  deriving DecidableEq, Repr

/-- What a caller of `ReadAt(p, off)` observes: `n`, `err` and the contents of `p`. -/
structure ReadResult where
  n : Nat
  err : Option GoError
  p : List UInt8
  deriving DecidableEq, Repr

/-- Go: `New`. -/
def New {σ : Type} (underlying : σ) (blockSize numBlocks : Int) : ReaderAt σ :=
  { underlying := underlying, blockSize := blockSize, numBlocks := numBlocks, cache := [],
    clock := 0, overlayBytes := 0, underlayBytes := 0, overlayReqs := 0, underlayReqs := 0 }

/-- Go: `_, inCache := r.cache[i]`. -/
def cacheHas (c : Cache) (i : Int) : Bool :=
  c.any (fun kv => kv.1 == i)

/-- Go: `r.cache[i]` read as a pointer; `none` is the nil pointer of a missing key. -/
def cacheGet (c : Cache) (i : Int) : Option cacheEntry :=
  (c.find? (fun kv => kv.1 == i)).map (fun kv => kv.2)

/-- Go: `delete(r.cache, i)`. -/
def cacheDelete (c : Cache) (i : Int) : Cache :=
  c.filter (fun kv => kv.1 != i)

/-- Go: `r.cache[i] = e` (also the store through the entry pointer). -/
def cacheSet (c : Cache) (i : Int) (e : cacheEntry) : Cache :=
  (i, e) :: cacheDelete c i

/-- The indices visited by `for i := startBlock; i < endBlock; i++`. -/
def blockIndices (startBlock endBlock : Int) : List Int :=
  (List.range (endBlock - startBlock).toNat).map (fun (k : Nat) => startBlock + (k : Int))

/-- Go: `rangeToBlockRange` (half-open range). -/
def ReaderAt.rangeToBlockRange {σ : Type} (r : ReaderAt σ) (start end_ : Int) : Int × Int :=
  let startBlock := start.tdiv r.blockSize
  if start = end_ then (startBlock, startBlock)
  else
    let endLocation := end_.tdiv r.blockSize
    if end_.tmod r.blockSize = 0 then (startBlock, endLocation)
    else (startBlock, endLocation + 1)

/-- The `int64` value that Go computes where exact arithmetic gives `x`: `x` wrapped around
modulo `2 ^ 64` into `[-2 ^ 63, 2 ^ 63)`. -/
def wrap64 (x : Int) : Int :=
  (x + 2 ^ 63) % 2 ^ 64 - 2 ^ 63

/-- Go: `blockRangeToRange`; both products are `int64` products and wrap around. -/
def ReaderAt.blockRangeToRange {σ : Type} (r : ReaderAt σ) (start end_ : Int) : Int × Int :=
  (wrap64 (start * r.blockSize), wrap64 (end_ * r.blockSize))

/-- Go: `blockRangeToRange` with exact products, as called inside `ReadAt`: there the start
`start * blockSize` lies below the end of the request, and the end is used only in the
difference `mrEnd - mrStart`; the exact values are the ones of Go as long as the request
itself stays inside the `int64` range. -/
def ReaderAt.blockRangeToRangeExact {σ : Type} (r : ReaderAt σ) (start end_ : Int) :
    Int × Int :=
  (start * r.blockSize, end_ * r.blockSize)

/-- Go: `canBeServedFromCache`. -/
def ReaderAt.canBeServedFromCache {σ : Type} (r : ReaderAt σ) (rr : readRequest) : Bool :=
  let se := r.rangeToBlockRange rr.offset (rr.offset + (rr.buffer.length : Int))
  (blockIndices se.1 se.2).all (fun i => cacheHas r.cache i)

/-- Number of blocks of the range missing from the cache: the first loop of
`processReadRequest` (`numNewBlocks`). -/
def countNewBlocks (c : Cache) (blocks : List Int) : Int :=
  ((blocks.filter (fun i => !cacheHas c i)).length : Int)

/-- The victim search shared by both eviction loops: starting from `(0, clock)` and
visiting the entries in the given order, keep the first entry strictly older than everything
seen before.  The result is `(oldestBlock, oldestTime)`. -/
def oldestScan (clock : Nat) (entries : Cache) : Int × Nat :=
  entries.foldl
    (fun acc kv => if kv.2.lastAccessed < acc.2 then (kv.1, kv.2.lastAccessed) else acc)
    (0, clock)

/-- One round of either eviction loop: search the victim, `delete(r.cache, oldestBlock)`. -/
def evictOne (ord : Cache → Cache) (clock : Nat) (c : Cache) : Cache :=
  cacheDelete c (oldestScan clock (ord c)).1

/-- Go: `for numToEvict > 0 { ...; numToEvict-- }`, as the number of rounds left. -/
def evictLoop (ord : Cache → Cache) (clock : Nat) : Nat → Cache → Cache
  | 0, c => c
  | k + 1, c => evictLoop ord clock k (evictOne ord clock c)

/-- Go: `missingRanges[len(missingRanges)-1][1] = i`.  The Go index is in range whenever this
is reached (a range was appended when `prevInCache` became false). -/
def setLastEnd : List (Int × Int) → Int → List (Int × Int)
  | [], _ => []
  | [mr], i => [(mr.1, i)]
  | mr :: rest, i => mr :: setLastEnd rest i

/-- The body of the loop grouping the missing blocks, on the state
`(missingRanges, prevInCache)`. -/
def groupStep (c : Cache) (st : List (Int × Int) × Bool) (i : Int) : List (Int × Int) × Bool :=
  let inCache := cacheHas c i
  if inCache = st.2 then st
  else if inCache then (setLastEnd st.1 i, inCache)
  else (st.1 ++ [(i, i)], inCache)

/-- Go: the computation of `missingRanges` in `processReadRequest`. -/
def missingRanges (c : Cache) (startBlock endBlock : Int) : List (Int × Int) :=
  let st := (blockIndices startBlock endBlock).foldl (groupStep c) ([], true)
  if !st.2 then setLastEnd st.1 endBlock else st.1

/-- Go: the loop "save blocks to cache" over one fetched run; `mbBufferPtr` starts at 0.  The
slice `mrBuffer[mbBufferPtr : mbBufferPtr+blockLen]` is in range for `blockSize ≥ 0`. -/
def saveBlocks (blockSize : Int) (mrBuffer : List UInt8) : List Int → Nat → Cache → Cache
  | [], _, c => c
  | i :: rest, mbBufferPtr, c =>
    let remaining : Int := (mrBuffer.length : Int) - (mbBufferPtr : Int)
    let blockLen : Int := if remaining < blockSize then remaining else blockSize
    let blockBuffer := (mrBuffer.drop mbBufferPtr).take blockLen.toNat
    saveBlocks blockSize mrBuffer rest (mbBufferPtr + blockLen.toNat)
      (cacheSet c i { lastAccessed := 0, data := blockBuffer })

/-- Go: `for _, missingRange := range missingRanges { ... }`.  The result carries the error
of an aborted request (`some e`: the Go code returns at once), or `none` when every run was
read and saved. -/
def fetchLoop {σ : Type} (U : Underlying σ) :
    List (Int × Int) → ReaderAt σ → Outcome (ReaderAt σ × Option GoError)
  | [], r => .ok (r, none)
  | mr :: rest, r =>
    let se := r.blockRangeToRangeExact mr.1 mr.2
    let mrLen := se.2 - se.1
    if mrLen < 0 then .panic
    else
      let res := U.ReadAt r.underlying mrLen.toNat se.1
      let n := res.1.1.length
      let r1 : ReaderAt σ :=
        { r with underlying := res.2, underlayBytes := r.underlayBytes + n,
                 underlayReqs := r.underlayReqs + 1 }
      match res.1.2 with
      | some (GoError.other code) => .ok (r1, some (GoError.other code))
      | _ =>
        if mrLen.toNat < n then .panic
        else
          fetchLoop U rest
            { r1 with cache := saveBlocks r.blockSize res.1.1 (blockIndices mr.1 mr.2) 0 r1.cache }

/-- Go: `copy(dst[bufferPtr:], src)` on the contents of `dst`; the second component is the
number of bytes copied. -/
def copyInto (buffer : List UInt8) (bufferPtr : Nat) (src : List UInt8) : List UInt8 × Nat :=
  let n := min (buffer.length - bufferPtr) src.length
  (buffer.take bufferPtr ++ src.take n ++ buffer.drop (bufferPtr + n), n)

/-- State of the copy loop. -/
structure CopyState where
  cache : Cache
  clock : Nat
  buffer : List UInt8
  bufferPtr : Nat
  deriving DecidableEq, Repr

/-- Go: the loop "copy data from cache to buffer".  `r.cache[i]` of a missing key is a nil
pointer, and `entry.data[waste:]` needs `0 ≤ waste ≤ len(entry.data)`: both panic otherwise. -/
def copyLoop : List Int → Int → CopyState → Outcome CopyState
  | [], _, st => .ok st
  | i :: rest, waste, st =>
    match cacheGet st.cache i with
    | none => .panic
    | some entry =>
      let clock := st.clock + 1
      let cache := cacheSet st.cache i { entry with lastAccessed := clock }
      if waste < 0 ∨ (entry.data.length : Int) < waste then .panic
      else
        let cp := copyInto st.buffer st.bufferPtr (entry.data.drop waste.toNat)
        copyLoop rest 0
          { cache := cache, clock := clock, buffer := cp.1, bufferPtr := st.bufferPtr + cp.2 }

/-- Go: `for int64(len(r.cache)) > r.numBlocks { ... }`, the second eviction loop. -/
def trimLoop (ord : Cache → Cache) (clock : Nat) (numBlocks : Int) : Nat → Cache → Outcome Cache
  | 0, _ => .outOfFuel
  | fuel + 1, c =>
    if numBlocks < (c.length : Int) then trimLoop ord clock numBlocks fuel (evictOne ord clock c)
    else .ok c

/-- Go: the first part of `processReadRequest`, up to the end of the first eviction loop:
count the new blocks, compute `numToEvict`, evict. -/
def ReaderAt.makeRoom {σ : Type} (ord : Cache → Cache) (r : ReaderAt σ)
    (startBlock endBlock : Int) : ReaderAt σ :=
  let numNewBlocks := countNewBlocks r.cache (blockIndices startBlock endBlock)
  let numOldBlocks : Int := (r.cache.length : Int)
  let numToEvict := numOldBlocks + numNewBlocks - r.numBlocks
  { r with cache := evictLoop ord r.clock numToEvict.toNat r.cache }

/-- Go: `processReadRequest`.  Returns the request as the Go code leaves it, the contents of
the caller's array (which `rr.buffer` aliases) and the new state. -/
def ReaderAt.processReadRequest {σ : Type} (U : Underlying σ) (ord : Cache → Cache) (fuel : Nat)
    (r : ReaderAt σ) (rr : readRequest) : Outcome (readRequest × List UInt8 × ReaderAt σ) :=
  let se := r.rangeToBlockRange rr.offset (rr.offset + (rr.buffer.length : Int))
  let startBlock := se.1
  let endBlock := se.2
  let blocks := blockIndices startBlock endBlock
  let r1 : ReaderAt σ := r.makeRoom ord startBlock endBlock
  match fetchLoop U (missingRanges r1.cache startBlock endBlock) r1 with
  | .panic => .panic
  | .outOfFuel => .outOfFuel
  | .ok (r2, some e) => .ok ({ rr with buffer := [], err := some e }, rr.buffer, r2)
  | .ok (r2, none) =>
    let brStart := (r.blockRangeToRangeExact startBlock endBlock).1
    let waste := rr.offset - brStart
    match copyLoop blocks waste
        { cache := r2.cache, clock := r2.clock, buffer := rr.buffer, bufferPtr := 0 } with
    | .panic => .panic
    | .outOfFuel => .outOfFuel
    | .ok st =>
      let rr1 : readRequest :=
        if st.bufferPtr < rr.buffer.length then
          { rr with buffer := st.buffer.take st.bufferPtr, err := some GoError.EOF }
        else { rr with buffer := st.buffer }
      match trimLoop ord st.clock r.numBlocks fuel st.cache with
      | .panic => .panic
      | .outOfFuel => .outOfFuel
      | .ok c =>
        .ok (rr1, st.buffer,
          { r2 with cache := c, clock := st.clock,
                    overlayBytes := r2.overlayBytes + rr1.buffer.length,
                    overlayReqs := r2.overlayReqs + 1 })

/-- Go: `ReadAt`.  Both branches run `processReadRequest`; they differ in the lock held. -/
def ReaderAt.ReadAt {σ : Type} (U : Underlying σ) (ord : Cache → Cache) (fuel : Nat)
    (r : ReaderAt σ) (p : List UInt8) (off : Int) : Outcome (ReadResult × ReaderAt σ) :=
  let rr : readRequest := { buffer := p, offset := off, err := none }
  let inCache := r.canBeServedFromCache rr
  let res :=
    if inCache then r.processReadRequest U ord fuel rr
    else r.processReadRequest U ord fuel rr
  match res with
  | .panic => .panic
  | .outOfFuel => .outOfFuel
  | .ok (rr1, p1, r1) => .ok ({ n := rr1.buffer.length, err := rr1.err, p := p1 }, r1)

/-- Go: `Stats`. -/
def ReaderAt.Stats {σ : Type} (r : ReaderAt σ) : Nat × Nat × Nat × Nat :=
  (r.overlayBytes, r.underlayBytes, r.overlayReqs, r.underlayReqs)

/-- A positioned source over static content, after `bytes.Reader.ReadAt` (the source used by
the tests).  Its state is the list of the calls it has received, `(offset, len(p))`. -/
def contentSource (content : List UInt8) : Underlying (List (Int × Nat)) where
  ReadAt := fun calls len off =>
    if off < 0 then (([], some (GoError.other 0)), calls ++ [(off, len)])
    else if (content.length : Int) ≤ off then (([], some GoError.EOF), calls ++ [(off, len)])
    else
      let d := (content.drop off.toNat).take len
      ((d, if d.length < len then some GoError.EOF else none), calls ++ [(off, len)])

/-- The composition `blockRangeToRange(rangeToBlockRange(s, e))`, in `int64` arithmetic. -/
def ReaderAt.alignedRange {σ : Type} (r : ReaderAt σ) (s e : Int) : Int × Int :=
  r.blockRangeToRange (r.rangeToBlockRange s e).1 (r.rangeToBlockRange s e).2

/-- The block range of the specification, over the rationals: `(⌊start/B⌋, ⌊start/B⌋)` for an
empty range and `(⌊start/B⌋, ⌈end/B⌉)` otherwise. -/
def rangeToBlockRangeRef (blockSize start end_ : Int) : Int × Int :=
  if start = end_ then (⌊(start : ℚ) / (blockSize : ℚ)⌋, ⌊(start : ℚ) / (blockSize : ℚ)⌋)
  else (⌊(start : ℚ) / (blockSize : ℚ)⌋, ⌈(end_ : ℚ) / (blockSize : ℚ)⌉)

/-- The keys of the map are pairwise distinct. -/
def keysNodup (c : Cache) : Prop :=
  (c.map Prod.fst).Nodup

/-- No recency stamp is ahead of the clock. -/
def stampsLe (c : Cache) (clock : Nat) : Prop :=
  ∀ kv ∈ c, kv.2.lastAccessed ≤ clock

/-- At most one entry carries a stamp that is not below the clock. -/
def oneRecent (c : Cache) (clock : Nat) : Prop :=
  ∀ x ∈ c, ∀ y ∈ c, clock ≤ x.2.lastAccessed → clock ≤ y.2.lastAccessed → x = y

/-- Every entry of `c` missing from `d` is at most as recent as every entry of `d`. -/
def olderOut (d c : Cache) : Prop :=
  ∀ x ∈ c, x ∉ d → ∀ y ∈ d, x.2.lastAccessed ≤ y.2.lastAccessed

/-- The block indices covered by a list of runs, in order. -/
def runBlocks : List (Int × Int) → List Int
  | [] => []
  | mr :: rest => blockIndices mr.1 mr.2 ++ runBlocks rest

/-- The blocks of `[startBlock, endBlock)` that the cache lacks, in order. -/
def missingBlocks (c : Cache) (startBlock endBlock : Int) : List Int :=
  (blockIndices startBlock endBlock).filter (fun i => !cacheHas c i)

/-- State of the grouping loop before index `i`: the closed runs are well formed, and the
runs, with the open one (if any) closed at `i`, cover the missing blocks of `[bs, i)`. -/
def GroupInv (c : Cache) (bs i : Int) (st : List (Int × Int) × Bool) : Prop :=
  (st.2 = true →
      runBlocks st.1 = missingBlocks c bs i ∧ ∀ mr ∈ st.1, bs ≤ mr.1 ∧ mr.1 < mr.2 ∧ mr.2 ≤ i) ∧
    (st.2 = false → ∃ init a x, st.1 = init ++ [(a, x)] ∧ bs ≤ a ∧ a < i ∧
      runBlocks init ++ blockIndices a i = missingBlocks c bs i ∧
      ∀ mr ∈ init, bs ≤ mr.1 ∧ mr.1 < mr.2 ∧ mr.2 ≤ i)

/-- The bytes of block `i` of static content: `content[i*B .. min((i+1)*B, F))`. -/
def blockData (content : List UInt8) (blockSize i : Int) : List UInt8 :=
  (content.drop (i * blockSize).toNat).take blockSize.toNat

/-- The calls `(offset, len(p))` that the fetch loop sends to the source for a list of runs. -/
def runCalls (blockSize : Int) (runs : List (Int × Int)) : List (Int × Nat) :=
  runs.map (fun mr => (mr.1 * blockSize, ((mr.2 - mr.1) * blockSize).toNat))

/-- The cached bytes of a list of blocks, concatenated in order (nothing for a missing
block). -/
def cachedBytes (c : Cache) : List Int → List UInt8
  | [] => []
  | i :: rest =>
    (match cacheGet c i with
      | some e => e.data
      | none => []) ++ cachedBytes c rest

/-- The entry with a new stamp: `entry.lastAccessed.Store(t)`. -/
def cacheEntry.touch (e : cacheEntry) (t : Nat) : cacheEntry :=
  { e with lastAccessed := t }

/-- What `ReadAt` reports once the copy loop has ended in state `st`: the count, the
end-of-stream error of a short read, and the caller's array. -/
def copyResult (p : List UInt8) (st : CopyState) : ReadResult :=
  if st.bufferPtr < p.length then
    { n := (st.buffer.take st.bufferPtr).length, err := some GoError.EOF, p := st.buffer }
  else { n := st.buffer.length, err := none, p := st.buffer }

/-- The state in which the copy loop of a request starts. -/
def copyStart {σ : Type} (r2 : ReaderAt σ) (p : List UInt8) : CopyState :=
  { cache := r2.cache, clock := r2.clock, buffer := p, bufferPtr := 0 }

/-- The state at the end of a request that was not aborted. -/
def finishRead {σ : Type} (r2 : ReaderAt σ) (st : CopyState) (c : Cache) (n : Nat) : ReaderAt σ :=
  { r2 with cache := c, clock := st.clock, overlayBytes := r2.overlayBytes + n,
            overlayReqs := r2.overlayReqs + 1 }

/-- Every cached block holds the bytes of its block of the static content. -/
def coherent (content : List UInt8) (blockSize : Int) (c : Cache) : Prop :=
  ∀ kv ∈ c, kv.2.data = blockData content blockSize kv.1

/-- Invariant of the states met over static content with block size `B` and capacity `N`. -/
structure StaticInv (content : List UInt8) (B N : Int) (s : ReaderAt (List (Int × Nat))) :
    Prop where
  blockSize_eq : s.blockSize = B
  numBlocks_eq : s.numBlocks = N
  nodup : keysNodup s.cache
  stamps : stampsLe s.cache s.clock
  coh : coherent content B s.cache
  size : (s.cache.length : Int) ≤ N

/-- First block of the request `(off, len)`. -/
def ReaderAt.startBlock {σ : Type} (s : ReaderAt σ) (off : Int) (len : Nat) : Int :=
  (s.rangeToBlockRange off (off + (len : Int))).1

/-- End block (exclusive) of the request `(off, len)`. -/
def ReaderAt.endBlock {σ : Type} (s : ReaderAt σ) (off : Int) (len : Nat) : Int :=
  (s.rangeToBlockRange off (off + (len : Int))).2

/-- What `ReadAt(p, off)` must report over static content: the count `min(len(p), F - off)`,
end-of-stream exactly for a short read, and `p` with `content[off .. off+n)` in front. -/
def staticResult (content p : List UInt8) (off : Int) : ReadResult :=
  { n := min p.length (content.length - off.toNat),
    err := if content.length - off.toNat < p.length then some GoError.EOF else none,
    p := (content.drop off.toNat).take p.length
      ++ p.drop (min p.length (content.length - off.toNat)) }

/-- How one request `(p, off)` over static content moves the state `s` to `s'`; `c3` is the
cache between the copy loop and the second eviction loop. -/
structure StepFacts (content : List UInt8) (B N : Int) (ord : Cache → Cache) (fuel : Nat)
    (s : ReaderAt (List (Int × Nat))) (p : List UInt8) (off : Int)
    (s' : ReaderAt (List (Int × Nat))) (c3 : Cache) : Prop where
  inv : StaticInv content B N s'
  clock_eq : s'.clock = s.clock + (s.endBlock off p.length - s.startBlock off p.length).toNat
  calls_eq : s'.underlying = s.underlying ++ runCalls B
    (missingRanges (s.makeRoom ord (s.startBlock off p.length) (s.endBlock off p.length)).cache
      (s.startBlock off p.length) (s.endBlock off p.length))
  ureqs_eq : s'.underlayReqs = s.underlayReqs +
    (missingRanges (s.makeRoom ord (s.startBlock off p.length) (s.endBlock off p.length)).cache
      (s.startBlock off p.length) (s.endBlock off p.length)).length
  ubytes_eq : s'.underlayBytes = s.underlayBytes +
    ((missingBlocks (s.makeRoom ord (s.startBlock off p.length) (s.endBlock off p.length)).cache
      (s.startBlock off p.length) (s.endBlock off p.length)).map
        (fun i => (blockData content B i).length)).sum
  obytes_eq : s'.overlayBytes = s.overlayBytes + (staticResult content p off).n
  oreqs_eq : s'.overlayReqs = s.overlayReqs + 1
  touched : ∀ i, cacheGet c3 i =
    if s.startBlock off p.length ≤ i ∧ i < s.endBlock off p.length then
      some { lastAccessed := s.clock + (i - s.startBlock off p.length).toNat + 1,
             data := blockData content B i }
    else
      cacheGet (s.makeRoom ord (s.startBlock off p.length) (s.endBlock off p.length)).cache i
  touched_nodup : keysNodup c3
  trim : trimLoop ord s'.clock N fuel c3 = .ok s'.cache

/-- The states a reader over the source `U` can be in: the state made by `New`, and every
state left by a call of `ReadAt` that returned (with or without error), for any iteration
order of the map. -/
inductive Reachable {σ : Type} (U : Underlying σ) (B N : Int) : ReaderAt σ → Prop where
  | init (u : σ) : Reachable U B N (New u B N)
  | step {s s' : ReaderAt σ} {ord : Cache → Cache} {fuel : Nat} {p : List UInt8} {off : Int}
      {out : ReadResult} :
      Reachable U B N s → (∀ l, (ord l).Perm l) →
      s.ReadAt U ord fuel p off = .ok (out, s') → Reachable U B N s'

/-- The states a reader over static content can be in after calls of `ReadAt` at offsets
`off ≥ 0` (at which the static source does not fail). -/
inductive StaticReachable (content : List UInt8) (B N : Int) :
    ReaderAt (List (Int × Nat)) → Prop where
  | init : StaticReachable content B N (New [] B N)
  | step {s s' : ReaderAt (List (Int × Nat))} {ord : Cache → Cache} {fuel : Nat}
      {p : List UInt8} {off : Int} {out : ReadResult} :
      StaticReachable content B N s → (∀ l, (ord l).Perm l) → 0 ≤ off →
      s.ReadAt (contentSource content) ord fuel p off = .ok (out, s') →
      StaticReachable content B N s'

/-- A source over static content whose call number `failAt` (counted from 0) fails with an
error that is not end-of-stream; its state is the number of calls received. -/
def flakySource (content : List UInt8) (failAt : Nat) : Underlying Nat where
  ReadAt := fun calls len off =>
    if calls = failAt then (([], some (GoError.other 1)), calls + 1)
    else (((contentSource content).ReadAt [] len off).1, calls + 1)

/-- Facts that hold in every reachable state, whatever the source does. -/
structure GenInv {σ : Type} (B N : Int) (s : ReaderAt σ) : Prop where
  blockSize_eq : s.blockSize = B
  numBlocks_eq : s.numBlocks = N
  nodup : keysNodup s.cache
  stamps : stampsLe s.cache s.clock

/-- The 16 bytes `"0123456789abcdef"`. -/
def sampleContent : List UInt8 :=
  [48, 49, 50, 51, 52, 53, 54, 55, 56, 57, 97, 98, 99, 100, 101, 102]

/-- A reader with `B = 4`, `N = 4` over a source that has received one call, holding block 1
of `sampleContent`: the state after one read of 4 bytes at offset 4. -/
def sampleState : ReaderAt Nat :=
  { underlying := 1, blockSize := 4, numBlocks := 4,
    cache := [(1, { lastAccessed := 1, data := [52, 53, 54, 55] })], clock := 1,
    overlayBytes := 4, underlayBytes := 4, overlayReqs := 1, underlayReqs := 1 }

/-- One call of `ReadAt`: the buffer, the offset, and the order in which this call ranges
over the map. -/
structure Request where
  ord : Cache → Cache
  p : List UInt8
  off : Int

/-- A sequence of calls of `ReadAt`, each with the same fuel; the result is the last state. -/
def readAll {σ : Type} (U : Underlying σ) (fuel : Nat) :
    ReaderAt σ → List Request → Outcome (ReaderAt σ)
  | s, [] => .ok s
  | s, r :: rest =>
    match s.ReadAt U r.ord fuel r.p r.off with
    | .ok res => readAll U fuel res.2 rest
    | .panic => .panic
    | .outOfFuel => .outOfFuel

/-- Block index of a byte offset: `off / blockSize`. -/
def blockOf (blockSize off : Int) : Int :=
  off.tdiv blockSize

/-- The entries are listed from least to most recently stamped, with distinct stamps. -/
def stampSorted (L : Cache) : Prop :=
  L.Pairwise (fun x y => x.2.lastAccessed < y.2.lastAccessed)

/-- State after single-block reads of the pairwise distinct blocks `h` (oldest first): the
cache, listed by recency, holds the last `N` of them. -/
def LruInv (content : List UInt8) (B N : Int) (h : List Int)
    (s : ReaderAt (List (Int × Nat))) : Prop :=
  StaticInv content B N s ∧
    ∃ L : Cache, L.Perm s.cache ∧ stampSorted L ∧
      L.map Prod.fst = h.drop (h.length - N.toNat)

/-- A request that returns over static content of length `F` and lies inside one block: its
order permutes the map, `0 ≤ off ≤ F`, it is not empty, it ends before the end of the block
of `off`, and the fuel covers the second eviction loop. -/
def Request.singleBlock (F : Nat) (B N : Int) (fuel : Nat) (r : Request) : Prop :=
  (∀ l, (r.ord l).Perm l) ∧ 0 ≤ r.off ∧ r.off ≤ (F : Int) ∧ 1 ≤ r.p.length ∧
    r.off + r.p.length ≤ (blockOf B r.off + 1) * B ∧ N.toNat + r.p.length + 2 ≤ fuel

/-- 256 bytes of content, all `'0'`. -/
def longContent : List UInt8 :=
  List.replicate 256 48

/-- The block indices asked from the source by the calls `(offset, len(p))`, in order: the
call at offset `o` with a buffer of `n` bytes asks for the blocks from `o / B` up to
`(o + n) / B` rounded up. -/
def fetchedBlocks (B : Int) : List (Int × Nat) → List Int
  | [] => []
  | call :: rest =>
    blockIndices (call.1.tdiv B) ((call.1 + (call.2 : Int) + B - 1).tdiv B)
      ++ fetchedBlocks B rest

/-- The entries are listed by increasing block index. -/
def keySorted (L : Cache) : Prop :=
  L.Pairwise (fun x y => x.1 < y.1)

/-- State during a scan with non-decreasing offsets, after a request over the blocks
`[ps, pe)`: the cache, listed by recency, is also listed by block index; the blocks of the
last request are cached; every cached block lies below `pe` and was asked from the source;
no block was asked twice; and `underlayBytes` is the total length of the blocks asked. -/
structure ScanInv (content : List UInt8) (B N : Int) (ps pe : Int)
    (s : ReaderAt (List (Int × Nat))) : Prop where
  inv : StaticInv content B N s
  sorted : ∃ L : Cache, L.Perm s.cache ∧ stampSorted L ∧ keySorted L
  window : ∀ i, ps ≤ i → i < pe → cacheHas s.cache i = true
  below : ∀ kv ∈ s.cache, kv.1 < pe
  asked : ∀ kv ∈ s.cache, kv.1 ∈ fetchedBlocks B s.underlying
  once : (fetchedBlocks B s.underlying).Nodup
  range : ∀ i ∈ fetchedBlocks B s.underlying, 0 ≤ i ∧ i < pe
  bytes : s.underlayBytes
    = ((fetchedBlocks B s.underlying).map (fun i => (blockData content B i).length)).sum
  bounds : 0 ≤ ps ∧ ps ≤ pe

/-- A request of a scan of reads of `len` bytes over static content of length `F`: its order
permutes the map, its buffer has `len` bytes, `0 ≤ off ≤ F`, and the fuel covers the second
eviction loop. -/
def Request.inScan (F : Nat) (N : Int) (len fuel : Nat) (r : Request) : Prop :=
  (∀ l, (r.ord l).Perm l) ∧ r.p.length = len ∧ 0 ≤ r.off ∧ r.off ≤ (F : Int) ∧
    N.toNat + len + 2 ≤ fuel


/-- The source `U` with a record of its calls: the state also lists, for every call received,
the offset, the length of the buffer and the number of bytes `n` that the source reported. -/
def loggedSource {σ : Type} (U : Underlying σ) : Underlying (σ × List (Int × Nat × Nat)) where
  ReadAt := fun st len off =>
    ((U.ReadAt st.1 len off).1,
      ((U.ReadAt st.1 len off).2, st.2 ++ [(off, len, (U.ReadAt st.1 len off).1.1.length)]))

/-- In the grouping loop every closed run ends at a cached block: all the runs when no run is
open, all but the last when one is. -/
def GroupEnds (c : Cache) (st : List (Int × Int) × Bool) : Prop :=
  (st.2 = true → ∀ mr ∈ st.1, cacheHas c mr.2 = true) ∧
    (st.2 = false → ∃ init a x, st.1 = init ++ [(a, x)] ∧ ∀ mr ∈ init, cacheHas c mr.2 = true)

/-- No two entries share a recency stamp other than 0 (the stamp of a block never touched). -/
def stampsDistinct (c : Cache) : Prop :=
  ∀ x ∈ c, ∀ y ∈ c, x.2.lastAccessed = y.2.lastAccessed → x.2.lastAccessed ≠ 0 → x = y

/-- The cache before and after each round of the first eviction loop, run for `k` rounds. -/
def evictRounds (ord : Cache → Cache) (clock : Nat) : Nat → Cache → List (Cache × Cache)
  | 0, _ => []
  | k + 1, c =>
    (c, evictOne ord clock c) :: evictRounds ord clock k (evictOne ord clock c)

/-- The cache before and after each round of the second eviction loop. -/
def trimRounds (ord : Cache → Cache) (clock : Nat) (numBlocks : Int) :
    Nat → Cache → List (Cache × Cache)
  | 0, _ => []
  | fuel + 1, c =>
    if numBlocks < (c.length : Int) then
      (c, evictOne ord clock c) :: trimRounds ord clock numBlocks fuel (evictOne ord clock c)
    else []

/-- Facts on the recency stamps of every reachable state, whatever the source does: no two
entries share a non-zero stamp, and while the clock is 0 the cache is empty. -/
structure StampInv {σ : Type} (s : ReaderAt σ) : Prop where
  distinct : stampsDistinct s.cache
  fresh : s.clock = 0 → s.cache = []

/-- Every cached key is a non-negative block index. -/
def keysNonneg (c : Cache) : Prop :=
  ∀ kv ∈ c, 0 ≤ kv.1

/-- The call `ReadAt(make([]byte, n), off)`, with the map ranged over in the order it is
listed. -/
def Request.plain (off : Int) (n : Nat) : Request :=
  { ord := id, p := List.replicate n 0, off := off }

/-- The state after a sequence of calls of `ReadAt` (the starting state itself when one of the
calls does not return). -/
def stateAfter {σ : Type} (U : Underlying σ) (fuel : Nat) (s : ReaderAt σ)
    (reads : List Request) : ReaderAt σ :=
  match readAll U fuel s reads with
  | .ok s' => s'
  | _ => s

/-- The state with `B = 4` and `N = 2` over `sampleContent` after reads of 2 bytes at offsets
0 and 4: blocks 0 and 1 are cached, with stamps 1 and 2. -/
def twoBlockState : ReaderAt (List (Int × Nat)) :=
  stateAfter (contentSource sampleContent) 5 (New [] 4 2)
    ([(0, 2), (4, 2)].map (fun x => Request.plain x.1 x.2))

/-- The state with `B = 2` and `N = 3` over `sampleContent` after reads of 2 bytes at offsets
0, 2 and 10: blocks 0, 1 and 5 are cached, with stamps 1, 2 and 3. -/
def threeBlockState : ReaderAt (List (Int × Nat)) :=
  stateAfter (contentSource sampleContent) 9 (New [] 2 3)
    ([(0, 2), (2, 2), (10, 2)].map (fun x => Request.plain x.1 x.2))

/-- The state with `B = 2` and `N = 1` over `sampleContent` after a read of 2 bytes at offset
2: block 1 is cached, and its stamp 1 is the value of the clock. -/
def oneBlockState : ReaderAt (List (Int × Nat)) :=
  stateAfter (contentSource sampleContent) 9 (New [] 2 1)
    ([(2, 2)].map (fun x => Request.plain x.1 x.2))

/-- The state with `B = 2` and `N = 3` over a source that fails at its fifth call, after reads
of 2 bytes at offsets 0, 2 and 6 (blocks 0, 1 and 3) and a read of 10 bytes at offset 0
(blocks 0 to 4): the first eviction loop of the last read deletes blocks 0 and 1, its first
run `[0, 3)` is fetched and inserted, and the call for its second run `[4, 5)` fails. -/
def overfullState : ReaderAt Nat :=
  stateAfter (flakySource sampleContent 4) 9 (New 0 2 3)
    ([(0, 2), (2, 2), (6, 2), (0, 10)].map (fun x => Request.plain x.1 x.2))

/-- The source `U` with a record of its answers: the state also lists, for every call
received, the offset, the length of the buffer and the error that the source returned. -/
def tracedSource {σ : Type} (U : Underlying σ) :
    Underlying (σ × List (Int × Nat × Option GoError)) where
  ReadAt := fun st len off =>
    ((U.ReadAt st.1 len off).1,
      ((U.ReadAt st.1 len off).2, st.2 ++ [(off, len, (U.ReadAt st.1 len off).1.2)]))

/-- A reader with `B = 4` and `N = 4` in front of a traced source that has received no call,
holding block 1 of `sampleContent`. -/
def tracedGapState (σ : Type) (u : σ) : ReaderAt (σ × List (Int × Nat × Option GoError)) :=
  { underlying := (u, []), blockSize := 4, numBlocks := 4,
    cache := [(1, { lastAccessed := 1, data := [52, 53, 54, 55] })], clock := 1,
    overlayBytes := 4, underlayBytes := 4, overlayReqs := 1, underlayReqs := 1 }
/-! ## Block arithmetic -/

theorem tdiv_eq_floor (a b : Int) (ha : 0 ≤ a) (hb : 0 < b) :
    a.tdiv b = ⌊(a : ℚ) / (b : ℚ)⌋ := by
  rw [Int.tdiv_eq_ediv ha hb.le]
  symm
  rw [Int.floor_eq_iff]
  have hbq : (0 : ℚ) < (b : ℚ) := by exact_mod_cast hb
  have h1 := Int.emod_add_ediv a b
  have h2 := Int.emod_nonneg a hb.ne'
  have h3 := Int.emod_lt_of_pos a hb
  constructor
  · rw [le_div_iff₀ hbq]
    have : (a / b) * b ≤ a := by nlinarith
    exact_mod_cast this
  · rw [div_lt_iff₀ hbq]
    have : a < (a / b + 1) * b := by nlinarith
    exact_mod_cast this

theorem tdiv_tmod_facts (a b : Int) (ha : 0 ≤ a) (hb : 0 < b) :
    a.tdiv b * b + a.tmod b = a ∧ 0 ≤ a.tmod b ∧ a.tmod b < b ∧ 0 ≤ a.tdiv b := by
  have h1 := Int.tdiv_add_tmod a b
  rw [Int.tdiv_eq_ediv ha hb.le, Int.tmod_eq_emod ha hb.le] at *
  refine ⟨by rw [mul_comm]; exact h1, Int.emod_nonneg a hb.ne', Int.emod_lt_of_pos a hb,
    Int.ediv_nonneg ha hb.le⟩

theorem rangeToBlockRange_fst {σ : Type} (r : ReaderAt σ) (s e : Int) :
    (r.rangeToBlockRange s e).1 = s.tdiv r.blockSize := by
  unfold ReaderAt.rangeToBlockRange
  split_ifs <;> rfl

theorem rangeToBlockRange_empty {σ : Type} (r : ReaderAt σ) (s : Int) :
    r.rangeToBlockRange s s = (s.tdiv r.blockSize, s.tdiv r.blockSize) := by
  simp [ReaderAt.rangeToBlockRange]

/-- For `0 ≤ s < e` and `B > 0` the end block `be` satisfies `e ≤ be * B < e + B`. -/
theorem rangeToBlockRange_snd_bounds {σ : Type} (r : ReaderAt σ) (s e : Int)
    (hB : 0 < r.blockSize) (hs : 0 ≤ s) (hse : s < e) :
    e ≤ (r.rangeToBlockRange s e).2 * r.blockSize ∧
      (r.rangeToBlockRange s e).2 * r.blockSize < e + r.blockSize := by
  obtain ⟨h1, h2, h3, -⟩ := tdiv_tmod_facts e r.blockSize (by omega) hB
  unfold ReaderAt.rangeToBlockRange
  rw [if_neg (by omega)]
  split_ifs with h
  · simp only
    constructor <;> omega
  · simp only
    rw [add_mul, one_mul]
    constructor <;> omega

/-! ## C9 -/

/-- A value inside the `int64` range is not changed by the wrap-around. -/
theorem wrap64_of_fits (x : Int) (h1 : -2 ^ 63 ≤ x) (h2 : x < 2 ^ 63) : wrap64 x = x := by
  unfold wrap64
  omega

/-- While the end product fits in `int64`, `blockRangeToRange` gives the exact products. -/
theorem blockRangeToRange_of_fits {σ : Type} (r : ReaderAt σ) (bs be : Int)
    (hB : 0 < r.blockSize) (hbs : 0 ≤ bs) (hbe : bs ≤ be)
    (hfit : be * r.blockSize < 2 ^ 63) :
    r.blockRangeToRange bs be = r.blockRangeToRangeExact bs be := by
  have h1 : 0 ≤ bs * r.blockSize := Int.mul_nonneg hbs hB.le
  have h2 : bs * r.blockSize ≤ be * r.blockSize := Int.mul_le_mul_of_nonneg_right hbe hB.le
  unfold ReaderAt.blockRangeToRange ReaderAt.blockRangeToRangeExact
  rw [wrap64_of_fits _ (by omega) (by omega), wrap64_of_fits _ (by omega) hfit]

/-- The block range of a range with `0 ≤ s ≤ e` starts at a block `≥ 0` and is not
reversed. -/
theorem rangeToBlockRange_ordered {σ : Type} (r : ReaderAt σ) (s e : Int)
    (hB : 0 < r.blockSize) (hs : 0 ≤ s) (hse : s ≤ e) :
    0 ≤ (r.rangeToBlockRange s e).1 ∧
      (r.rangeToBlockRange s e).1 ≤ (r.rangeToBlockRange s e).2 := by
  obtain ⟨h1, h2, h3, h4⟩ := tdiv_tmod_facts s r.blockSize hs hB
  rw [rangeToBlockRange_fst]
  refine ⟨h4, ?_⟩
  rcases eq_or_lt_of_le hse with h | h
  · subst h
    rw [rangeToBlockRange_empty]
  · obtain ⟨h5, -⟩ := rangeToBlockRange_snd_bounds r s e hB hs h
    by_contra hc
    have : ((r.rangeToBlockRange s e).2 + 1) * r.blockSize
        ≤ s.tdiv r.blockSize * r.blockSize :=
      Int.mul_le_mul_of_nonneg_right (by omega) hB.le
    rw [add_mul, one_mul] at this
    omega

/-- C9 (amended): for `B > 0` and `0 ≤ s ≤ e` such that the aligned end `be * B` of the block
range `(bs, be)` of `[s, e)` is below `2 ^ 63` (it fits in `int64`), the byte range recovered
from the block range contains every position of `[s, e)`, is block-aligned at both ends, and
is longer than `e - s` by less than `2 * B`. -/
theorem rangeToBlockRange_covering {σ : Type} (r : ReaderAt σ) (s e : Int)
    (hB : 0 < r.blockSize) (hs : 0 ≤ s) (hse : s ≤ e)
    (hfit : (r.rangeToBlockRange s e).2 * r.blockSize < 2 ^ 63) :
    (∀ p : Int, s ≤ p → p < e → (r.alignedRange s e).1 ≤ p ∧ p < (r.alignedRange s e).2) ∧
      r.blockSize ∣ (r.alignedRange s e).1 ∧ r.blockSize ∣ (r.alignedRange s e).2 ∧
      ((r.alignedRange s e).2 - (r.alignedRange s e).1) - (e - s) < 2 * r.blockSize := by
  obtain ⟨h1, h2, h3, -⟩ := tdiv_tmod_facts s r.blockSize hs hB
  obtain ⟨o1, o2⟩ := rangeToBlockRange_ordered r s e hB hs hse
  have hal : r.alignedRange s e
      = r.blockRangeToRangeExact (r.rangeToBlockRange s e).1 (r.rangeToBlockRange s e).2 :=
    blockRangeToRange_of_fits r _ _ hB o1 o2 hfit
  rw [hal]
  simp only [ReaderAt.blockRangeToRangeExact, rangeToBlockRange_fst]
  refine ⟨?_, Dvd.intro_left _ rfl, Dvd.intro_left _ rfl, ?_⟩
  · intro p hp1 hp2
    obtain ⟨h4, -⟩ := rangeToBlockRange_snd_bounds r s e hB hs (by omega)
    constructor <;> omega
  · rcases eq_or_lt_of_le hse with h | h
    · subst h
      rw [rangeToBlockRange_empty]
      dsimp only
      omega
    · obtain ⟨-, h5⟩ := rangeToBlockRange_snd_bounds r s e hB hs h
      omega

/-- Witness of C9 (amended) at `B = 100`, `[s, e) = [1, 201)` and the position 150: the
recovered range is `[0, 300)`. -/
theorem rangeToBlockRange_covering_witness :
    (0 : Int) < (New () 100 2).blockSize ∧ (0 : Int) ≤ 1 ∧ (1 : Int) ≤ 201 ∧
      ((New () 100 2).rangeToBlockRange 1 201).2 * (New () 100 2).blockSize < 2 ^ 63 ∧
      ((New () 100 2).alignedRange 1 201).1 ≤ 150 ∧
      150 < ((New () 100 2).alignedRange 1 201).2 ∧
      (((New () 100 2).alignedRange 1 201).2 - ((New () 100 2).alignedRange 1 201).1) -
        (201 - 1) < 2 * (New () 100 2).blockSize :=
  ⟨by decide, by decide, by decide, by decide,
    ((rangeToBlockRange_covering (New () 100 2) 1 201 (by decide) (by decide) (by decide)
      (by decide)).1 150 (by decide) (by decide)).1,
    ((rangeToBlockRange_covering (New () 100 2) 1 201 (by decide) (by decide) (by decide)
      (by decide)).1 150 (by decide) (by decide)).2,
    (rangeToBlockRange_covering (New () 100 2) 1 201 (by decide) (by decide) (by decide)
      (by decide)).2.2.2⟩

/-- C9 as stated fails where the aligned end leaves the `int64` range: with `B = 4`, `s = 0`
and `e = 2 ^ 63 - 1` the block range is `(0, 2 ^ 61)`, the product `2 ^ 61 * 4` wraps around to
`-2 ^ 63`, and the recovered range `(0, -2 ^ 63)` does not contain the position 1 of
`[s, e)`. -/
theorem rangeToBlockRange_covering_overflow :
    (New () 4 2).rangeToBlockRange 0 (2 ^ 63 - 1) = (0, 2 ^ 61) ∧
      (New () 4 2).alignedRange 0 (2 ^ 63 - 1) = (0, -2 ^ 63) ∧
      (0 : Int) ≤ 1 ∧ (1 : Int) < 2 ^ 63 - 1 ∧
      ¬ ((1 : Int) < ((New () 4 2).alignedRange 0 (2 ^ 63 - 1)).2) := by
  refine ⟨by decide, by decide, by decide, by decide, by decide⟩

/-! ## C10 -/

theorem rangeToBlockRange_snd_eq_ceil {σ : Type} (r : ReaderAt σ) (s e : Int)
    (hB : 0 < r.blockSize) (hs : 0 ≤ s) (hse : s < e) :
    (r.rangeToBlockRange s e).2 = ⌈(e : ℚ) / (r.blockSize : ℚ)⌉ := by
  obtain ⟨h1, h2⟩ := rangeToBlockRange_snd_bounds r s e hB hs hse
  have hbq : (0 : ℚ) < (r.blockSize : ℚ) := by exact_mod_cast hB
  symm
  rw [Int.ceil_eq_iff]
  constructor
  · rw [lt_div_iff₀ hbq]
    have : ((r.rangeToBlockRange s e).2 - 1) * r.blockSize < e := by
      rw [sub_mul, one_mul]; omega
    exact_mod_cast this
  · rw [div_le_iff₀ hbq]
    exact_mod_cast h1

/-- C10 (amended): for `B > 0` and `0 ≤ s ≤ e`, `rangeToBlockRange(s, e)` is the block range
of the specification, `(⌊s/B⌋, ⌊s/B⌋)` when `s = e` and `(⌊s/B⌋, ⌈e/B⌉)` when `s < e`; for
`s < e` it lies inside every block range `(a, b)` whose bytes cover `[s, e)`; and for
`0 ≤ bs ≤ be` with `be * B` below `2 ^ 63` (the products fit in `int64`) it inverts
`blockRangeToRange`. -/
theorem rangeToBlockRange_eq_ref {σ : Type} (r : ReaderAt σ) (s e bs be : Int)
    (hB : 0 < r.blockSize) (hs : 0 ≤ s) (hse : s ≤ e) (hbs : 0 ≤ bs) (hbe : bs ≤ be)
    (hfit : be * r.blockSize < 2 ^ 63) :
    r.rangeToBlockRange s e = rangeToBlockRangeRef r.blockSize s e ∧
      (s < e → ∀ a b : Int, a * r.blockSize ≤ s → e ≤ b * r.blockSize →
        a ≤ (r.rangeToBlockRange s e).1 ∧ (r.rangeToBlockRange s e).2 ≤ b) ∧
      r.rangeToBlockRange (r.blockRangeToRange bs be).1 (r.blockRangeToRange bs be).2
        = (bs, be) := by
  refine ⟨?_, ?_, ?_⟩
  · unfold rangeToBlockRangeRef
    split_ifs with h
    · subst h
      rw [rangeToBlockRange_empty, tdiv_eq_floor s _ hs hB]
    · have hlt : s < e := lt_of_le_of_ne hse h
      apply Prod.ext
      · rw [rangeToBlockRange_fst, tdiv_eq_floor s _ hs hB]
      · exact rangeToBlockRange_snd_eq_ceil r s e hB hs hlt
  · intro hlt a b ha hb
    obtain ⟨h1, h2, h3, -⟩ := tdiv_tmod_facts s r.blockSize hs hB
    obtain ⟨h4, h5⟩ := rangeToBlockRange_snd_bounds r s e hB hs hlt
    rw [rangeToBlockRange_fst]
    constructor
    · by_contra hc
      have : (s.tdiv r.blockSize + 1) * r.blockSize ≤ a * r.blockSize :=
        Int.mul_le_mul_of_nonneg_right (by omega) hB.le
      rw [add_mul, one_mul] at this
      omega
    · by_contra hc
      have : (b + 1) * r.blockSize ≤ (r.rangeToBlockRange s e).2 * r.blockSize :=
        Int.mul_le_mul_of_nonneg_right (by omega) hB.le
      rw [add_mul, one_mul] at this
      omega
  · rw [blockRangeToRange_of_fits r bs be hB hbs hbe hfit]
    simp only [ReaderAt.blockRangeToRangeExact]
    rcases eq_or_lt_of_le hbe with h | h
    · subst h
      rw [rangeToBlockRange_empty, Int.mul_tdiv_cancel _ hB.ne']
    · have hne : bs * r.blockSize ≠ be * r.blockSize := by
        intro hc
        have := Int.eq_of_mul_eq_mul_right hB.ne' hc
        omega
      unfold ReaderAt.rangeToBlockRange
      rw [if_neg hne, if_pos (Int.mul_tmod_left _ _), Int.mul_tdiv_cancel _ hB.ne',
        Int.mul_tdiv_cancel _ hB.ne']

/-- Witness of C10 (amended) at `B = 100`, `[s, e) = [1, 201)` and the block range
`(1, 2)`. -/
theorem rangeToBlockRange_eq_ref_witness :
    (0 : Int) < (New () 100 2).blockSize ∧ (0 : Int) ≤ 1 ∧ (1 : Int) ≤ 201 ∧
      (2 : Int) * (New () 100 2).blockSize < 2 ^ 63 ∧
      (New () 100 2).rangeToBlockRange 1 201 = rangeToBlockRangeRef 100 1 201 ∧
      (New () 100 2).rangeToBlockRange
        ((New () 100 2).blockRangeToRange 1 2).1 ((New () 100 2).blockRangeToRange 1 2).2
        = (1, 2) :=
  ⟨by decide, by decide, by decide, by decide,
    (rangeToBlockRange_eq_ref (New () 100 2) 1 201 1 2 (by decide) (by decide) (by decide)
      (by decide) (by decide) (by decide)).1,
    (rangeToBlockRange_eq_ref (New () 100 2) 1 201 1 2 (by decide) (by decide) (by decide)
      (by decide) (by decide) (by decide)).2.2⟩

/-- C10 as stated fails where a product leaves the `int64` range: with `B = 4`,
`blockRangeToRange(2 ^ 62, 2 ^ 62 + 1)` wraps around to `(0, 4)`, whose block range is `(0, 1)`
and not `(2 ^ 62, 2 ^ 62 + 1)`. -/
theorem blockRangeToRange_round_trip_overflow :
    (0 : Int) ≤ 2 ^ 62 ∧ (2 : Int) ^ 62 ≤ 2 ^ 62 + 1 ∧
      (New () 4 2).blockRangeToRange (2 ^ 62) (2 ^ 62 + 1) = (0, 4) ∧
      (New () 4 2).rangeToBlockRange
          ((New () 4 2).blockRangeToRange (2 ^ 62) (2 ^ 62 + 1)).1
          ((New () 4 2).blockRangeToRange (2 ^ 62) (2 ^ 62 + 1)).2 = (0, 1) ∧
      (New () 4 2).rangeToBlockRange
          ((New () 4 2).blockRangeToRange (2 ^ 62) (2 ^ 62 + 1)).1
          ((New () 4 2).blockRangeToRange (2 ^ 62) (2 ^ 62 + 1)).2 ≠ (2 ^ 62, 2 ^ 62 + 1) := by
  refine ⟨by decide, by decide, by decide, by decide, by decide⟩
/-! ## The cache as a map -/

theorem cacheHas_eq_isSome (c : Cache) (i : Int) : cacheHas c i = (cacheGet c i).isSome := by
  induction c with
  | nil => rfl
  | cons kv rest ih =>
    unfold cacheHas cacheGet at *
    rw [List.any_cons, List.find?_cons]
    by_cases h : (kv.1 == i) = true
    · simp [h]
    · simp only [Bool.not_eq_true] at h
      simp only [h, Bool.false_or]
      exact ih

theorem cacheHas_iff (c : Cache) (i : Int) : cacheHas c i = true ↔ ∃ e, cacheGet c i = some e := by
  rw [cacheHas_eq_isSome, Option.isSome_iff_exists]

theorem cacheHas_false_iff (c : Cache) (i : Int) : cacheHas c i = false ↔ cacheGet c i = none := by
  rw [cacheHas_eq_isSome]
  cases cacheGet c i <;> simp

theorem cacheGet_cons (kv : Int × cacheEntry) (c : Cache) (i : Int) :
    cacheGet (kv :: c) i = if kv.1 = i then some kv.2 else cacheGet c i := by
  unfold cacheGet
  rw [List.find?_cons]
  by_cases h : kv.1 = i
  · simp [h]
  · have : (kv.1 == i) = false := by simpa using h
    simp [this, h]

theorem cacheGet_delete (c : Cache) (i j : Int) :
    cacheGet (cacheDelete c j) i = if i = j then none else cacheGet c i := by
  induction c with
  | nil => simp [cacheDelete, cacheGet]
  | cons kv rest ih =>
    unfold cacheDelete at *
    rw [List.filter_cons]
    by_cases h : kv.1 = j
    · have : (kv.1 != j) = false := by simp [h]
      rw [this]
      simp only [Bool.false_eq_true, if_false]
      rw [ih, cacheGet_cons]
      by_cases h2 : i = j
      · simp [h2]
      · have : ¬ kv.1 = i := by rw [h]; exact fun hc => h2 hc.symm
        simp [h2, this]
    · have : (kv.1 != j) = true := by simp [h]
      rw [this]
      simp only [if_true]
      rw [cacheGet_cons, cacheGet_cons, ih]
      by_cases h2 : i = j
      · have : ¬ kv.1 = i := by rw [h2]; exact h
        simp [h2, h]
      · simp [h2]

theorem cacheGet_set (c : Cache) (i j : Int) (e : cacheEntry) :
    cacheGet (cacheSet c j e) i = if i = j then some e else cacheGet c i := by
  unfold cacheSet
  rw [cacheGet_cons, cacheGet_delete]
  by_cases h : i = j
  · simp [h]
  · have : ¬ j = i := fun hc => h hc.symm
    simp [h, this]

theorem mem_of_cacheGet {c : Cache} {i : Int} {e : cacheEntry} (h : cacheGet c i = some e) :
    (i, e) ∈ c := by
  induction c with
  | nil => simp [cacheGet] at h
  | cons kv rest ih =>
    rw [cacheGet_cons] at h
    by_cases hk : kv.1 = i
    · rw [if_pos hk] at h
      have : kv = (i, e) := Prod.ext hk (Option.some.inj h)
      rw [this]
      exact List.mem_cons_self _ _
    · rw [if_neg hk] at h
      exact List.mem_cons_of_mem _ (ih h)

theorem cacheGet_of_mem {c : Cache} {i : Int} {e : cacheEntry} (hn : keysNodup c)
    (h : (i, e) ∈ c) : cacheGet c i = some e := by
  induction c with
  | nil => simp at h
  | cons kv rest ih =>
    unfold keysNodup at hn
    rw [List.map_cons, List.nodup_cons] at hn
    rw [cacheGet_cons]
    rcases List.mem_cons.1 h with h1 | h1
    · rw [← h1]
      simp
    · have hk : ¬ kv.1 = i := by
        intro hc
        apply hn.1
        rw [hc]
        exact List.mem_map_of_mem Prod.fst h1
      rw [if_neg hk]
      exact ih hn.2 h1

theorem cacheDelete_sublist (c : Cache) (j : Int) : (cacheDelete c j).Sublist c :=
  List.filter_sublist c

theorem keysNodup_sublist {c d : Cache} (h : d.Sublist c) (hn : keysNodup c) : keysNodup d :=
  List.Nodup.sublist (h.map Prod.fst) hn

theorem keysNodup_delete {c : Cache} (j : Int) (hn : keysNodup c) : keysNodup (cacheDelete c j) :=
  keysNodup_sublist (cacheDelete_sublist c j) hn

theorem not_mem_keys_delete (c : Cache) (j : Int) : j ∉ (cacheDelete c j).map Prod.fst := by
  intro h
  obtain ⟨kv, hkv, hj⟩ := List.mem_map.1 h
  unfold cacheDelete at hkv
  rw [List.mem_filter] at hkv
  simp [hj] at hkv

theorem keysNodup_set {c : Cache} (j : Int) (e : cacheEntry) (hn : keysNodup c) :
    keysNodup (cacheSet c j e) := by
  unfold keysNodup cacheSet
  rw [List.map_cons, List.nodup_cons]
  exact ⟨not_mem_keys_delete c j, keysNodup_delete j hn⟩

theorem keysNodup_nodup {c : Cache} (hn : keysNodup c) : c.Nodup :=
  List.Nodup.of_map _ hn

/-- Deleting a key that is present removes exactly one entry. -/
theorem length_delete_of_has {c : Cache} {j : Int} (hn : keysNodup c)
    (h : cacheHas c j = true) : (cacheDelete c j).length + 1 = c.length := by
  induction c with
  | nil => simp [cacheHas] at h
  | cons kv rest ih =>
    unfold keysNodup at hn
    rw [List.map_cons, List.nodup_cons] at hn
    unfold cacheDelete
    rw [List.filter_cons]
    by_cases hk : kv.1 = j
    · have h1 : (kv.1 != j) = false := by simp [hk]
      rw [h1]
      simp only [Bool.false_eq_true, if_false, List.length_cons, add_left_inj]
      rw [List.filter_eq_self.2]
      intro a ha
      have : a.1 ≠ j := by
        intro hc
        apply hn.1
        rw [hk, ← hc]
        exact List.mem_map_of_mem Prod.fst ha
      simpa using this
    · have h1 : (kv.1 != j) = true := by simp [hk]
      rw [h1]
      simp only [if_true, List.length_cons, add_left_inj]
      apply ih hn.2
      unfold cacheHas at h ⊢
      rw [List.any_cons] at h
      have h2 : (kv.1 == j) = false := by simpa using hk
      simpa [h2] using h

/-- Deleting a key that is absent changes nothing. -/
theorem delete_of_not_has {c : Cache} {j : Int} (h : cacheHas c j = false) :
    cacheDelete c j = c := by
  unfold cacheDelete
  rw [List.filter_eq_self]
  intro a ha
  unfold cacheHas at h
  rw [List.any_eq_false] at h
  have := h a ha
  simpa using this

theorem length_set_of_has {c : Cache} {j : Int} (e : cacheEntry) (hn : keysNodup c)
    (h : cacheHas c j = true) : (cacheSet c j e).length = c.length := by
  unfold cacheSet
  rw [List.length_cons]
  exact length_delete_of_has hn h

theorem length_set_of_not_has {c : Cache} {j : Int} (e : cacheEntry)
    (h : cacheHas c j = false) : (cacheSet c j e).length = c.length + 1 := by
  unfold cacheSet
  rw [List.length_cons, delete_of_not_has h]

theorem stampsLe_sublist {c d : Cache} {clock : Nat} (h : d.Sublist c) (hs : stampsLe c clock) :
    stampsLe d clock :=
  fun kv hkv => hs kv (h.subset hkv)

theorem stampsLe_mono {c : Cache} {a b : Nat} (hab : a ≤ b) (hs : stampsLe c a) :
    stampsLe c b :=
  fun kv hkv => le_trans (hs kv hkv) hab

theorem stampsLe_set {c : Cache} {clock : Nat} (j : Int) (e : cacheEntry)
    (he : e.lastAccessed ≤ clock) (hs : stampsLe c clock) : stampsLe (cacheSet c j e) clock := by
  intro kv hkv
  unfold cacheSet at hkv
  rcases List.mem_cons.1 hkv with h | h
  · rw [h]; exact he
  · exact hs kv ((cacheDelete_sublist c j).subset h)

/-! ## The victim search and the eviction loops -/

theorem oldestScan_fold (l : Cache) (b0 : Int) (t0 : Nat) :
    (l.foldl (fun acc kv => if kv.2.lastAccessed < acc.2 then (kv.1, kv.2.lastAccessed) else acc)
        (b0, t0)).2 ≤ t0 ∧
      (∀ kv ∈ l, (l.foldl
        (fun acc kv => if kv.2.lastAccessed < acc.2 then (kv.1, kv.2.lastAccessed) else acc)
        (b0, t0)).2 ≤ kv.2.lastAccessed) ∧
      ((l.foldl (fun acc kv => if kv.2.lastAccessed < acc.2 then (kv.1, kv.2.lastAccessed) else acc)
          (b0, t0)) = (b0, t0) ∨
        ((l.foldl
          (fun acc kv => if kv.2.lastAccessed < acc.2 then (kv.1, kv.2.lastAccessed) else acc)
          (b0, t0)).2 < t0 ∧
          ∃ kv ∈ l, kv.1 = (l.foldl
            (fun acc kv => if kv.2.lastAccessed < acc.2 then (kv.1, kv.2.lastAccessed) else acc)
            (b0, t0)).1 ∧
            kv.2.lastAccessed = (l.foldl
              (fun acc kv => if kv.2.lastAccessed < acc.2 then (kv.1, kv.2.lastAccessed) else acc)
              (b0, t0)).2)) := by
  induction l generalizing b0 t0 with
  | nil => simp
  | cons kv rest ih =>
    rw [List.foldl_cons]
    by_cases h : kv.2.lastAccessed < t0
    · simp only [h, if_true]
      obtain ⟨h1, h2, h3⟩ := ih kv.1 kv.2.lastAccessed
      refine ⟨by omega, ?_, ?_⟩
      · intro x hx
        rcases List.mem_cons.1 hx with hx | hx
        · rw [hx]; exact h1
        · exact h2 x hx
      · right
        rcases h3 with h3 | ⟨h3, y, hy, hy1, hy2⟩
        · rw [h3]
          exact ⟨h, kv, List.mem_cons_self _ _, rfl, rfl⟩
        · exact ⟨by omega, y, List.mem_cons_of_mem _ hy, hy1, hy2⟩
    · simp only [h, if_false]
      obtain ⟨h1, h2, h3⟩ := ih b0 t0
      refine ⟨h1, ?_, ?_⟩
      · intro x hx
        rcases List.mem_cons.1 hx with hx | hx
        · rw [hx]; omega
        · exact h2 x hx
      · rcases h3 with h3 | ⟨h3, y, hy, hy1, hy2⟩
        · left; exact h3
        · right; exact ⟨h3, y, List.mem_cons_of_mem _ hy, hy1, hy2⟩

/-- The victim of one search: an entry of minimal stamp, if some stamp is below the clock;
otherwise the default block 0. -/
theorem oldestScan_spec (ord : Cache → Cache) (clock : Nat) (c : Cache)
    (hord : (ord c).Perm c) :
    (∃ e, ((oldestScan clock (ord c)).1, e) ∈ c ∧ e.lastAccessed < clock ∧
        ∀ kv ∈ c, e.lastAccessed ≤ kv.2.lastAccessed) ∨
      ((oldestScan clock (ord c)).1 = 0 ∧ ∀ kv ∈ c, clock ≤ kv.2.lastAccessed) := by
  obtain ⟨h1, h2, h3⟩ := oldestScan_fold (ord c) 0 clock
  unfold oldestScan
  rcases h3 with h3 | ⟨h3, y, hy, hy1, hy2⟩
  · right
    rw [h3] at h2 ⊢
    exact ⟨rfl, fun kv hkv => h2 kv (hord.mem_iff.2 hkv)⟩
  · left
    refine ⟨y.2, ?_, ?_, ?_⟩
    · rw [← hy1]
      exact hord.mem_iff.1 hy
    · omega
    · intro kv hkv
      rw [hy2]
      exact h2 kv (hord.mem_iff.2 hkv)

theorem evictOne_sublist (ord : Cache → Cache) (clock : Nat) (c : Cache) :
    (evictOne ord clock c).Sublist c :=
  cacheDelete_sublist c _

theorem evictLoop_sublist (ord : Cache → Cache) (clock : Nat) (k : Nat) (c : Cache) :
    (evictLoop ord clock k c).Sublist c := by
  induction k generalizing c with
  | zero => exact List.Sublist.refl c
  | succ k ih => exact (ih _).trans (evictOne_sublist ord clock c)

theorem mem_delete_iff (c : Cache) (j : Int) (x : Int × cacheEntry) :
    x ∈ cacheDelete c j ↔ x ∈ c ∧ x.1 ≠ j := by
  unfold cacheDelete
  rw [List.mem_filter]
  simp

theorem olderOut_refl (c : Cache) : olderOut c c :=
  fun _ hx hnx => absurd hx hnx

theorem olderOut_trans {c d e : Cache} (_hd : d.Sublist c) (h1 : olderOut d c)
    (h2 : olderOut e d) (he : e.Sublist d) : olderOut e c := by
  intro x hx hxe y hy
  by_cases hxd : x ∈ d
  · exact h2 x hxd hxe y hy
  · exact h1 x hx hxd y (he.subset hy)

/-- One round of eviction removes an entry that is at most as recent as all that stay. -/
theorem evictOne_olderOut (ord : Cache → Cache) (clock : Nat) (c : Cache)
    (hord : (ord c).Perm c) (hn : keysNodup c) (hs : stampsLe c clock) :
    olderOut (evictOne ord clock c) c := by
  intro x hx hxd y hy
  unfold evictOne at hxd hy
  rw [mem_delete_iff] at hxd hy
  have hxk : x.1 = (oldestScan clock (ord c)).1 := by
    by_contra hc
    exact hxd ⟨hx, hc⟩
  rcases oldestScan_spec ord clock c hord with ⟨e, he, -, hmin⟩ | ⟨-, hall⟩
  · have hxe : x.2 = e := by
      have h1 := cacheGet_of_mem hn he
      have h2 : cacheGet c x.1 = some x.2 := cacheGet_of_mem hn hx
      rw [hxk, h1] at h2
      exact (Option.some.inj h2).symm
    rw [hxe]
    exact hmin y hy.1
  · exact le_trans (hs x hx) (hall y hy.1)

theorem evictLoop_olderOut (ord : Cache → Cache) (clock : Nat) (k : Nat) (c : Cache)
    (hord : ∀ l, (ord l).Perm l) (hn : keysNodup c) (hs : stampsLe c clock) :
    olderOut (evictLoop ord clock k c) c := by
  induction k generalizing c with
  | zero => exact olderOut_refl c
  | succ k ih =>
    have hsub := evictOne_sublist ord clock c
    exact olderOut_trans hsub (evictOne_olderOut ord clock c (hord c) hn hs)
      (ih _ (keysNodup_sublist hsub hn) (stampsLe_sublist hsub hs))
      (evictLoop_sublist ord clock k _)

theorem evictOne_length_le (ord : Cache → Cache) (clock : Nat) (c : Cache) (hn : keysNodup c) :
    c.length ≤ (evictOne ord clock c).length + 1 := by
  unfold evictOne
  by_cases h : cacheHas c (oldestScan clock (ord c)).1 = true
  · rw [length_delete_of_has hn h]
  · rw [delete_of_not_has (by simpa using h)]
    omega

theorem evictLoop_length_ge (ord : Cache → Cache) (clock : Nat) (k : Nat) (c : Cache)
    (hn : keysNodup c) : c.length ≤ (evictLoop ord clock k c).length + k := by
  induction k generalizing c with
  | zero => exact le_refl _
  | succ k ih =>
    have h1 := evictOne_length_le ord clock c hn
    have h2 := ih (evictOne ord clock c) (keysNodup_sublist (evictOne_sublist ord clock c) hn)
    unfold evictLoop
    omega

theorem oneRecent_sublist {c d : Cache} {clock : Nat} (h : d.Sublist c)
    (ho : oneRecent c clock) : oneRecent d clock :=
  fun x hx y hy => ho x (h.subset hx) y (h.subset hy)

/-- When some stamp is below the clock, one round of eviction removes exactly one entry. -/
theorem evictOne_length_of_old (ord : Cache → Cache) (clock : Nat) (c : Cache)
    (hord : (ord c).Perm c) (hn : keysNodup c)
    (hold : ∃ kv ∈ c, kv.2.lastAccessed < clock) :
    (evictOne ord clock c).length + 1 = c.length := by
  unfold evictOne
  apply length_delete_of_has hn
  rcases oldestScan_spec ord clock c hord with ⟨e, he, -, -⟩ | ⟨-, hall⟩
  · rw [cacheHas_iff]
    exact ⟨e, cacheGet_of_mem hn he⟩
  · obtain ⟨kv, hkv, hlt⟩ := hold
    have := hall kv hkv
    omega

/-- With pairwise distinct keys and at most one entry as recent as the clock, a cache of two
or more entries has an entry older than the clock. -/
theorem exists_old_of_oneRecent {c : Cache} {clock : Nat} (hn : keysNodup c)
    (ho : oneRecent c clock) (hlen : 2 ≤ c.length) : ∃ kv ∈ c, kv.2.lastAccessed < clock := by
  by_contra hc
  push_neg at hc
  match c, hn, ho, hlen, hc with
  | x :: y :: rest, hn, ho, _, hc =>
    have hxy : x = y :=
      ho x (List.mem_cons_self _ _) y (List.mem_cons_of_mem _ (List.mem_cons_self _ _))
        (hc x (List.mem_cons_self _ _))
        (hc y (List.mem_cons_of_mem _ (List.mem_cons_self _ _)))
    have hnd := keysNodup_nodup hn
    rw [List.nodup_cons] at hnd
    exact hnd.1 (by rw [hxy]; exact List.mem_cons_self _ _)

/-- What the second eviction loop returns, when it returns. -/
theorem trimLoop_ok (ord : Cache → Cache) (clock : Nat) (numBlocks : Int) (fuel : Nat)
    (c d : Cache) (h : trimLoop ord clock numBlocks fuel c = .ok d) :
    d.Sublist c ∧ (d.length : Int) ≤ numBlocks ∧ ((c.length : Int) ≤ numBlocks → d = c) := by
  induction fuel generalizing c with
  | zero => simp [trimLoop] at h
  | succ fuel ih =>
    unfold trimLoop at h
    by_cases hlt : numBlocks < (c.length : Int)
    · rw [if_pos hlt] at h
      obtain ⟨h1, h2, -⟩ := ih _ h
      exact ⟨h1.trans (evictOne_sublist ord clock c), h2, fun hc => absurd hc (by omega)⟩
    · rw [if_neg hlt] at h
      cases h
      exact ⟨List.Sublist.refl _, by omega, fun _ => rfl⟩

theorem trimLoop_olderOut (ord : Cache → Cache) (clock : Nat) (numBlocks : Int) (fuel : Nat)
    (c d : Cache) (hord : ∀ l, (ord l).Perm l) (hn : keysNodup c) (hs : stampsLe c clock)
    (h : trimLoop ord clock numBlocks fuel c = .ok d) : olderOut d c := by
  induction fuel generalizing c with
  | zero => simp [trimLoop] at h
  | succ fuel ih =>
    unfold trimLoop at h
    by_cases hlt : numBlocks < (c.length : Int)
    · rw [if_pos hlt] at h
      have hsub := evictOne_sublist ord clock c
      exact olderOut_trans hsub (evictOne_olderOut ord clock c (hord c) hn hs)
        (ih _ (keysNodup_sublist hsub hn) (stampsLe_sublist hsub hs) h)
        (trimLoop_ok ord clock numBlocks fuel _ d h).1
    · rw [if_neg hlt] at h
      cases h
      exact olderOut_refl _

/-- The loop stops as soon as the size is `numBlocks`: it never removes more than needed. -/
theorem trimLoop_length (ord : Cache → Cache) (clock : Nat) (numBlocks : Int) (fuel : Nat)
    (c d : Cache) (hn : keysNodup c) (hN : numBlocks ≤ (c.length : Int))
    (h : trimLoop ord clock numBlocks fuel c = .ok d) : (d.length : Int) = numBlocks := by
  induction fuel generalizing c with
  | zero => simp [trimLoop] at h
  | succ fuel ih =>
    unfold trimLoop at h
    by_cases hlt : numBlocks < (c.length : Int)
    · rw [if_pos hlt] at h
      have hsub := evictOne_sublist ord clock c
      have := evictOne_length_le ord clock c hn
      exact ih _ (keysNodup_sublist hsub hn) (by omega) h
    · rw [if_neg hlt] at h
      cases h
      omega

/-- Termination of the second eviction loop: with `numBlocks ≥ 1`, distinct keys and at most
one entry as recent as the clock, the loop returns within `len(cache)` rounds. -/
theorem trimLoop_terminates (ord : Cache → Cache) (clock : Nat) (numBlocks : Int) (fuel : Nat)
    (c : Cache) (hord : ∀ l, (ord l).Perm l) (hn : keysNodup c) (ho : oneRecent c clock)
    (hN : 1 ≤ numBlocks) (hfuel : c.length < fuel) :
    ∃ d, trimLoop ord clock numBlocks fuel c = .ok d := by
  induction fuel generalizing c with
  | zero => omega
  | succ fuel ih =>
    unfold trimLoop
    by_cases hlt : numBlocks < (c.length : Int)
    · rw [if_pos hlt]
      have hsub := evictOne_sublist ord clock c
      have hold := exists_old_of_oneRecent hn ho (by omega)
      have hlen := evictOne_length_of_old ord clock c (hord c) hn hold
      exact ih _ (keysNodup_sublist hsub hn) (oneRecent_sublist hsub ho) (by omega)
    · rw [if_neg hlt]
      exact ⟨c, rfl⟩
/-! ## Block index lists and the grouping of missing blocks -/

theorem blockIndices_nil {s e : Int} (h : e ≤ s) : blockIndices s e = [] := by
  unfold blockIndices
  have : (e - s).toNat = 0 := by omega
  rw [this]
  rfl

theorem mem_blockIndices {s e i : Int} : i ∈ blockIndices s e ↔ s ≤ i ∧ i < e := by
  unfold blockIndices
  rw [List.mem_map]
  constructor
  · rintro ⟨k, hk, rfl⟩
    rw [List.mem_range] at hk
    omega
  · rintro ⟨h1, h2⟩
    refine ⟨(i - s).toNat, ?_, ?_⟩
    · rw [List.mem_range]; omega
    · omega

theorem blockIndices_length (s e : Int) : (blockIndices s e).length = (e - s).toNat := by
  simp [blockIndices]

theorem blockIndices_snoc {s e : Int} (h : s ≤ e) :
    blockIndices s (e + 1) = blockIndices s e ++ [e] := by
  unfold blockIndices
  have : (e + 1 - s).toNat = (e - s).toNat + 1 := by omega
  rw [this, List.range_succ, List.map_append]
  congr 1
  simp only [List.map_cons, List.map_nil, List.cons.injEq, and_true]
  omega

theorem blockIndices_cons {s e : Int} (h : s < e) :
    blockIndices s e = s :: blockIndices (s + 1) e := by
  unfold blockIndices
  have : (e - s).toNat = (e - (s + 1)).toNat + 1 := by omega
  rw [this, List.range_succ_eq_map, List.map_cons, List.map_map]
  congr 1
  · simp
  · apply List.map_congr_left
    intro k _
    simp only [Function.comp, Nat.cast_succ]
    omega

theorem blockIndices_nodup (s e : Int) : (blockIndices s e).Nodup := by
  unfold blockIndices
  apply List.Nodup.map _ (List.nodup_range _)
  intro a b hab
  simp only at hab
  omega

theorem blockIndices_append {s m e : Int} (h1 : s ≤ m) (h2 : m ≤ e) :
    blockIndices s m ++ blockIndices m e = blockIndices s e := by
  obtain ⟨k, hk⟩ : ∃ k : Nat, e = m + k := ⟨(e - m).toNat, by omega⟩
  subst hk
  clear h2
  induction k with
  | zero => simp [blockIndices_nil]
  | succ k ih =>
    have e1 : m + ((k + 1 : Nat) : Int) = (m + k) + 1 := by push_cast; ring
    rw [e1, blockIndices_snoc (by omega), blockIndices_snoc (by omega), ← List.append_assoc, ih]

theorem runBlocks_append (a b : List (Int × Int)) :
    runBlocks (a ++ b) = runBlocks a ++ runBlocks b := by
  induction a with
  | nil => rfl
  | cons mr rest ih => simp [runBlocks, ih]

theorem setLastEnd_append (init : List (Int × Int)) (a x i : Int) :
    setLastEnd (init ++ [(a, x)]) i = init ++ [(a, i)] := by
  induction init with
  | nil => rfl
  | cons mr rest ih =>
    cases rest with
    | nil => rfl
    | cons m2 r2 =>
      have : setLastEnd (mr :: m2 :: r2 ++ [(a, x)]) i
          = mr :: setLastEnd (m2 :: r2 ++ [(a, x)]) i := rfl
      rw [this, ih]
      rfl

theorem missingBlocks_snoc (c : Cache) {bs i : Int} (h : bs ≤ i) :
    missingBlocks c bs (i + 1)
      = missingBlocks c bs i ++ (if cacheHas c i then [] else [i]) := by
  unfold missingBlocks
  rw [blockIndices_snoc h, List.filter_append]
  congr 1
  by_cases hc : cacheHas c i = true <;> simp [hc]

theorem groupInv_step (c : Cache) (bs i : Int) (st : List (Int × Int) × Bool) (h : bs ≤ i)
    (hinv : GroupInv c bs i st) : GroupInv c bs (i + 1) (groupStep c st i) := by
  obtain ⟨mr, prev⟩ := st
  obtain ⟨h1, h2⟩ := hinv
  unfold groupStep
  cases prev with
  | true =>
    obtain ⟨h3, h4⟩ := h1 rfl
    by_cases hc : cacheHas c i = true
    · simp only [hc, if_true]
      refine ⟨fun _ => ⟨?_, fun m hm => ?_⟩, fun hf => by simp at hf⟩
      · rw [missingBlocks_snoc c h, hc]; simpa using h3
      · have := h4 m hm; omega
    · have hc' : cacheHas c i = false := by simpa using hc
      simp only [hc', Bool.false_eq_true, if_false]
      refine ⟨fun hf => by simp at hf, fun _ => ⟨mr, i, i, rfl, h, by omega, ?_, fun m hm => ?_⟩⟩
      · rw [missingBlocks_snoc c h, hc', ← h3, blockIndices_snoc (le_refl i),
          blockIndices_nil (le_refl i)]
        simp
      · have := h4 m hm; omega
  | false =>
    obtain ⟨init, a, x, h3, h4, h5, h6, h7⟩ := h2 rfl
    simp only at h3
    subst h3
    by_cases hc : cacheHas c i = true
    · simp only [hc, if_true, Bool.true_eq_false, if_false]
      refine ⟨fun _ => ⟨?_, fun m hm => ?_⟩, fun hf => by simp at hf⟩
      · rw [setLastEnd_append, runBlocks_append, missingBlocks_snoc c h, hc, ← h6]
        simp [runBlocks]
      · rw [setLastEnd_append, List.mem_append] at hm
        rcases hm with hm | hm
        · have := h7 m hm; omega
        · simp only [List.mem_singleton] at hm
          subst hm
          simp only
          omega
    · have hc' : cacheHas c i = false := by simpa using hc
      simp only [hc', if_true]
      refine ⟨fun hf => by simp at hf,
        fun _ => ⟨init, a, x, rfl, h4, by omega, ?_, fun m hm => ?_⟩⟩
      · rw [missingBlocks_snoc c h, hc', ← h6, blockIndices_snoc (by omega)]
        simp
      · have := h7 m hm; omega

theorem groupInv_fold (c : Cache) (bs : Int) (k : Nat) (i : Int)
    (st : List (Int × Int) × Bool) (h : bs ≤ i) (hinv : GroupInv c bs i st) :
    GroupInv c bs (i + k) ((blockIndices i (i + k)).foldl (groupStep c) st) := by
  induction k generalizing i st with
  | zero => simpa [blockIndices_nil] using hinv
  | succ k ih =>
    rw [blockIndices_cons (by push_cast; omega), List.foldl_cons]
    have e1 : i + ((k + 1 : Nat) : Int) = (i + 1) + k := by push_cast; ring
    rw [e1]
    exact ih (i + 1) _ (by omega) (groupInv_step c bs i st h hinv)

/-- The runs computed by `processReadRequest` cover, in order, exactly the blocks of the
range that the cache lacks; every run is non-empty and lies inside the range. -/
theorem missingRanges_spec (c : Cache) (bs be : Int) :
    runBlocks (missingRanges c bs be) = missingBlocks c bs be ∧
      ∀ mr ∈ missingRanges c bs be, bs ≤ mr.1 ∧ mr.1 < mr.2 ∧ mr.2 ≤ be := by
  by_cases hle : be ≤ bs
  · unfold missingRanges missingBlocks
    rw [blockIndices_nil hle]
    simp [runBlocks]
  · have hinit : GroupInv c bs bs ([], true) := by
      refine ⟨fun _ => ⟨?_, fun m hm => by simp at hm⟩, fun hf => by simp at hf⟩
      simp [runBlocks, missingBlocks, blockIndices_nil]
    have hfold := groupInv_fold c bs (be - bs).toNat bs ([], true) (le_refl _) hinit
    have e1 : bs + ((be - bs).toNat : Int) = be := by omega
    rw [e1] at hfold
    unfold missingRanges
    obtain ⟨h1, h2⟩ := hfold
    cases hst : ((blockIndices bs be).foldl (groupStep c) ([], true)).2 with
    | true =>
      simp only [hst, Bool.not_true, Bool.false_eq_true, if_false]
      exact h1 hst
    | false =>
      simp only [hst, Bool.not_false, if_true]
      obtain ⟨init, a, x, h3, h4, h5, h6, h7⟩ := h2 hst
      rw [h3, setLastEnd_append, runBlocks_append]
      refine ⟨by simpa [runBlocks] using h6, fun m hm => ?_⟩
      rw [List.mem_append] at hm
      rcases hm with hm | hm
      · exact h7 m hm
      · simp only [List.mem_singleton] at hm
        subst hm
        exact ⟨h4, h5, le_refl _⟩
/-! ## Saving fetched blocks -/

theorem take_min_length {α : Type} (l : List α) (n : Nat) :
    l.take (min l.length n) = l.take n := by
  rcases Nat.le_total n l.length with h | h
  · rw [Nat.min_eq_right h]
  · rw [Nat.min_eq_left h, List.take_of_length_le h, List.take_of_length_le (le_refl _)]

/-- One round of the save loop, with `mbBufferPtr = min(k*B, len(mrBuffer))`: the block is
`mrBuffer[k*B .. (k+1)*B)` cut at the end of the buffer. -/
theorem saveBlocks_cons (b : Nat) (hb : 1 ≤ b) (data : List UInt8) (k : Nat) (i : Int)
    (rest : List Int) (c : Cache) :
    saveBlocks (b : Int) data (i :: rest) (min (k * b) data.length) c
      = saveBlocks (b : Int) data rest (min ((k + 1) * b) data.length)
          (cacheSet c i { lastAccessed := 0, data := (data.drop (k * b)).take b }) := by
  have hmul : (k + 1) * b = k * b + b := by ring
  rw [saveBlocks]
  rcases Nat.le_total (k * b) data.length with h | h
  · have e1 : min (k * b) data.length = k * b := Nat.min_eq_left h
    rw [e1]
    by_cases hlt : ((data.length : Int) - ((k * b : Nat) : Int)) < (b : Int)
    · simp only [hlt, if_true]
      have e2 : ((data.length : Int) - ((k * b : Nat) : Int)).toNat = data.length - k * b := by
        omega
      rw [e2]
      have e3 : k * b + (data.length - k * b) = min ((k + 1) * b) data.length := by
        rw [hmul]; omega
      rw [e3]
      have e4 : (data.drop (k * b)).take (data.length - k * b) = (data.drop (k * b)).take b := by
        have := take_min_length (data.drop (k * b)) b
        rw [List.length_drop] at this
        rw [← this]
        congr 1
        omega
      rw [e4]
    · simp only [hlt, if_false, Int.toNat_ofNat]
      have e3 : k * b + b = min ((k + 1) * b) data.length := by
        rw [hmul]; omega
      rw [e3]
  · have e1 : min (k * b) data.length = data.length := Nat.min_eq_right h
    rw [e1]
    have hlt : ((data.length : Int) - ((data.length : Nat) : Int)) < (b : Int) := by omega
    simp only [hlt, if_true]
    have e2 : ((data.length : Int) - ((data.length : Nat) : Int)).toNat = 0 := by omega
    rw [e2]
    have e3 : data.length + 0 = min ((k + 1) * b) data.length := by
      rw [hmul]; omega
    rw [e3, List.drop_of_length_le (le_refl _), List.drop_of_length_le h]
    simp

/-- The cache after the save loop over the consecutive blocks `a, a+1, ..., a+m-1`, started
with `mbBufferPtr = min(k*B, len(mrBuffer))`. -/
theorem cacheGet_saveBlocks (b : Nat) (hb : 1 ≤ b) (data : List UInt8) (m k : Nat) (a : Int)
    (c : Cache) (i : Int) :
    cacheGet (saveBlocks (b : Int) data (blockIndices a (a + m)) (min (k * b) data.length) c) i
      = if a ≤ i ∧ i < a + m then
          some { lastAccessed := 0, data := (data.drop ((k + (i - a).toNat) * b)).take b }
        else cacheGet c i := by
  induction m generalizing k a c with
  | zero =>
    rw [blockIndices_nil (by simp), saveBlocks]
    rw [if_neg (by push_cast; omega)]
  | succ m ih =>
    rw [blockIndices_cons (by push_cast; omega), saveBlocks_cons b hb]
    have e1 : a + ((m + 1 : Nat) : Int) = (a + 1) + m := by push_cast; ring
    rw [e1, ih, cacheGet_set]
    by_cases h1 : a + 1 ≤ i ∧ i < a + 1 + m
    · rw [if_pos h1, if_pos (by omega)]
      have : k + 1 + (i - (a + 1)).toNat = k + (i - a).toNat := by omega
      rw [this]
    · rw [if_neg h1]
      by_cases h2 : i = a
      · rw [if_pos h2, if_pos (by omega)]
        subst h2
        simp
      · rw [if_neg h2, if_neg (by omega)]

theorem cacheGet_saveBlocks_zero (b : Nat) (hb : 1 ≤ b) (data : List UInt8) (m : Nat) (a : Int)
    (c : Cache) (i : Int) :
    cacheGet (saveBlocks (b : Int) data (blockIndices a (a + m)) 0 c) i
      = if a ≤ i ∧ i < a + m then
          some { lastAccessed := 0, data := (data.drop ((i - a).toNat * b)).take b }
        else cacheGet c i := by
  have h := cacheGet_saveBlocks b hb data m 0 a c i
  simp only [Nat.zero_mul, Nat.zero_add, Nat.zero_min] at h
  exact h

theorem keysNodup_saveBlocks (B : Int) (data : List UInt8) (blocks : List Int) (ptr : Nat)
    (c : Cache) (hn : keysNodup c) : keysNodup (saveBlocks B data blocks ptr c) := by
  induction blocks generalizing ptr c with
  | nil => exact hn
  | cons i rest ih =>
    rw [saveBlocks]
    exact ih _ _ (keysNodup_set _ _ hn)

theorem stampsLe_saveBlocks (B : Int) (data : List UInt8) (blocks : List Int) (ptr : Nat)
    (c : Cache) (clock : Nat) (hs : stampsLe c clock) :
    stampsLe (saveBlocks B data blocks ptr c) clock := by
  induction blocks generalizing ptr c with
  | nil => exact hs
  | cons i rest ih =>
    rw [saveBlocks]
    exact ih _ _ (stampsLe_set _ _ (Nat.zero_le _) hs)

theorem cacheHas_set (c : Cache) (i j : Int) (e : cacheEntry) :
    cacheHas (cacheSet c j e) i = (decide (i = j) || cacheHas c i) := by
  rw [cacheHas_eq_isSome, cacheHas_eq_isSome, cacheGet_set]
  by_cases h : i = j <;> simp [h]

/-- The save loop stores every block of its range and keeps all other keys. -/
theorem cacheHas_saveBlocks (B : Int) (data : List UInt8) (blocks : List Int) (ptr : Nat)
    (c : Cache) (i : Int) :
    cacheHas (saveBlocks B data blocks ptr c) i = (decide (i ∈ blocks) || cacheHas c i) := by
  induction blocks generalizing ptr c with
  | nil => simp [saveBlocks]
  | cons j rest ih =>
    rw [saveBlocks, ih, cacheHas_set]
    by_cases h1 : i ∈ rest <;> by_cases h2 : i = j <;> simp [h1, h2]

/-- The stored entry of a block outside the range is untouched by the save loop. -/
theorem cacheGet_saveBlocks_of_not_mem (B : Int) (data : List UInt8) (blocks : List Int)
    (ptr : Nat) (c : Cache) (i : Int) (h : i ∉ blocks) :
    cacheGet (saveBlocks B data blocks ptr c) i = cacheGet c i := by
  induction blocks generalizing ptr c with
  | nil => rfl
  | cons j rest ih =>
    rw [saveBlocks, ih _ _ (fun hc => h (List.mem_cons_of_mem _ hc)), cacheGet_set,
      if_neg (fun hc => h (by rw [hc]; exact List.mem_cons_self _ _))]

theorem length_saveBlocks (B : Int) (data : List UInt8) (blocks : List Int) (ptr : Nat)
    (c : Cache) (hnd : blocks.Nodup) (hmiss : ∀ i ∈ blocks, cacheHas c i = false) :
    (saveBlocks B data blocks ptr c).length = c.length + blocks.length := by
  induction blocks generalizing ptr c with
  | nil => rfl
  | cons j rest ih =>
    rw [List.nodup_cons] at hnd
    rw [saveBlocks, ih _ _ hnd.2, length_set_of_not_has _ (hmiss j (List.mem_cons_self _ _)),
      List.length_cons]
    · omega
    · intro i hi
      rw [cacheHas_set, hmiss i (List.mem_cons_of_mem _ hi)]
      have : i ≠ j := fun hc => hnd.1 (hc ▸ hi)
      simp [this]

/-! ## The fetch loop, for any source -/

/-- What the fetch loop leaves alone, and what it can only add. -/
theorem fetchLoop_frame {σ : Type} (U : Underlying σ) (runs : List (Int × Int))
    (r r' : ReaderAt σ) (err : Option GoError) (h : fetchLoop U runs r = .ok (r', err)) :
    r'.blockSize = r.blockSize ∧ r'.numBlocks = r.numBlocks ∧ r'.clock = r.clock ∧
      r'.overlayBytes = r.overlayBytes ∧ r'.overlayReqs = r.overlayReqs ∧
      (keysNodup r.cache → keysNodup r'.cache) ∧
      (∀ clock, stampsLe r.cache clock → stampsLe r'.cache clock) ∧
      (∀ i, cacheHas r.cache i = true → cacheHas r'.cache i = true) ∧
      r.underlayReqs ≤ r'.underlayReqs ∧ r.underlayBytes ≤ r'.underlayBytes := by
  induction runs generalizing r with
  | nil =>
    simp only [fetchLoop, Outcome.ok.injEq, Prod.mk.injEq] at h
    obtain ⟨rfl, -⟩ := h
    exact ⟨rfl, rfl, rfl, rfl, rfl, id, fun _ => id, fun _ => id, le_refl _, le_refl _⟩
  | cons mr rest ih =>
    rw [fetchLoop] at h
    split_ifs at h with h1
    dsimp only at h
    split at h
    · simp only [Outcome.ok.injEq, Prod.mk.injEq] at h
      obtain ⟨rfl, -⟩ := h
      exact ⟨rfl, rfl, rfl, rfl, rfl, id, fun _ => id, fun _ => id, by simp, by simp⟩
    · split_ifs at h with h2
      obtain ⟨e1, e2, e3, e4, e5, e6, e7, e8, e9, e10⟩ := ih _ h
      refine ⟨e1, e2, e3, e4, e5, fun hn => e6 (keysNodup_saveBlocks _ _ _ _ _ hn),
        fun clock hs => e7 clock (stampsLe_saveBlocks _ _ _ _ _ _ hs), fun i hi => e8 i ?_,
        ?_, ?_⟩
      · simp only [cacheHas_saveBlocks, hi, Bool.or_true]
      · simp only at e9; omega
      · simp only at e10; omega

/-- After a run of the fetch loop that was not aborted, every block of every run is cached,
the blocks outside the runs are untouched, and one call per run was made. -/
theorem fetchLoop_done {σ : Type} (U : Underlying σ) (runs : List (Int × Int))
    (r r' : ReaderAt σ) (h : fetchLoop U runs r = .ok (r', none)) :
    (∀ i ∈ runBlocks runs, cacheHas r'.cache i = true) ∧
      (∀ i, i ∉ runBlocks runs → cacheGet r'.cache i = cacheGet r.cache i) ∧
      r'.underlayReqs = r.underlayReqs + runs.length := by
  induction runs generalizing r with
  | nil =>
    simp only [fetchLoop, Outcome.ok.injEq, Prod.mk.injEq] at h
    obtain ⟨rfl, -⟩ := h
    exact ⟨fun i hi => by simp [runBlocks] at hi, fun _ _ => rfl, rfl⟩
  | cons mr rest ih =>
    rw [fetchLoop] at h
    split_ifs at h with h1
    dsimp only at h
    split at h
    · simp at h
    · split_ifs at h with h2
      obtain ⟨e1, e2, e3⟩ := ih _ h
      have hfr := fetchLoop_frame U rest _ r' none h
      refine ⟨fun i hi => ?_, fun i hi => ?_, ?_⟩
      · rw [runBlocks, List.mem_append] at hi
        rcases hi with hi | hi
        · apply hfr.2.2.2.2.2.2.2.1
          simp only [cacheHas_saveBlocks, hi, decide_True, Bool.true_or]
        · exact e1 i hi
      · rw [runBlocks, List.mem_append] at hi
        push_neg at hi
        rw [e2 i hi.2]
        exact cacheGet_saveBlocks_of_not_mem _ _ _ _ _ _ hi.1
      · rw [e3, List.length_cons]
        simp only
        omega

theorem fetchLoop_append {σ : Type} (U : Underlying σ) (pre rest : List (Int × Int))
    (r r2 : ReaderAt σ) (h : fetchLoop U pre r = .ok (r2, none)) :
    fetchLoop U (pre ++ rest) r = fetchLoop U rest r2 := by
  induction pre generalizing r with
  | nil =>
    simp only [fetchLoop, Outcome.ok.injEq, Prod.mk.injEq] at h
    obtain ⟨rfl, -⟩ := h
    rfl
  | cons mr pre ih =>
    rw [fetchLoop] at h
    rw [List.cons_append, fetchLoop]
    split_ifs at h with h1
    rw [if_neg h1]
    dsimp only at h ⊢
    generalize U.ReadAt r.underlying _ _ = res at h ⊢
    obtain ⟨⟨data, err⟩, u⟩ := res
    rcases err with _ | _ | code
    · dsimp only at h ⊢
      split_ifs at h with h2
      rw [if_neg h2]
      exact ih _ h
    · dsimp only at h ⊢
      split_ifs at h with h2
      rw [if_neg h2]
      exact ih _ h
    · simp at h
/-! ## The fetch loop over static content -/

theorem blockData_natCast (content : List UInt8) (b n : Nat) :
    blockData content (b : Int) (n : Int) = (content.drop (n * b)).take b := by
  unfold blockData
  have : ((n : Int) * (b : Int)).toNat = n * b := by
    rw [← Nat.cast_mul, Int.toNat_natCast]
  rw [this, Int.toNat_natCast]

theorem blockData_length (content : List UInt8) (b n : Nat) :
    (blockData content (b : Int) (n : Int)).length = min b (content.length - n * b) := by
  rw [blockData_natCast, List.length_take, List.length_drop]

/-- The static source never fails at a non-negative offset: it returns the bytes of the
content from the offset on, cut at the buffer length. -/
theorem contentSource_read (content : List UInt8) (calls : List (Int × Nat)) (len : Nat)
    (off : Int) (h : 0 ≤ off) :
    ∃ err, (contentSource content).ReadAt calls len off
        = (((content.drop off.toNat).take len, err), calls ++ [(off, len)]) ∧
      (err = none ∨ err = some GoError.EOF) := by
  unfold contentSource
  dsimp only
  rw [if_neg (by omega)]
  by_cases h2 : (content.length : Int) ≤ off
  · rw [if_pos h2]
    refine ⟨some GoError.EOF, ?_, Or.inr rfl⟩
    rw [List.drop_of_length_le (by omega)]
    simp
  · rw [if_neg h2]
    by_cases h3 : ((content.drop off.toNat).take len).length < len
    · rw [if_pos h3]
      exact ⟨_, rfl, Or.inr rfl⟩
    · rw [if_neg h3]
      exact ⟨_, rfl, Or.inl rfl⟩

/-- Slicing the bytes fetched for a run gives the blocks of the content. -/
theorem run_slice (content : List UInt8) (a m k b : Nat) (hk : k < m) :
    (((content.drop (a * b)).take (m * b)).drop (k * b)).take b
      = (content.drop ((a + k) * b)).take b := by
  rw [List.drop_take, List.take_take, List.drop_drop]
  have h1 : (k + 1) * b ≤ m * b := Nat.mul_le_mul_right b hk
  have h2 : min b (m * b - k * b) = b := by
    rw [Nat.add_mul, Nat.one_mul] at h1
    omega
  have h3 : a * b + k * b = (a + k) * b := by ring
  rw [h2, h3]

theorem sum_blockData_length (content : List UInt8) (a m b : Nat) :
    ((blockIndices (a : Int) ((a : Int) + m)).map
        (fun i => (blockData content (b : Int) i).length)).sum
      = min (m * b) (content.length - a * b) := by
  induction m with
  | zero => simp [blockIndices_nil]
  | succ m ih =>
    have e1 : (a : Int) + ((m + 1 : Nat) : Int) = ((a : Int) + m) + 1 := by push_cast; ring
    rw [e1, blockIndices_snoc (by omega), List.map_append, List.sum_append, ih]
    have e2 : (a : Int) + (m : Int) = ((a + m : Nat) : Int) := by push_cast; rfl
    simp only [List.map_cons, List.map_nil, List.sum_cons, List.sum_nil, add_zero]
    rw [e2, blockData_length]
    have h3 : (a + m) * b = a * b + m * b := by ring
    have h4 : (m + 1) * b = m * b + b := by ring
    rw [h3, h4]
    omega

/-- Over static content the fetch loop never aborts: it sends one call per run, stores the
bytes of every block of every run, and counts the bytes it received. -/
theorem fetchLoop_content (content : List UInt8) (b : Nat) (hb : 1 ≤ b)
    (runs : List (Int × Int)) (r : ReaderAt (List (Int × Nat))) (hB : r.blockSize = (b : Int))
    (hruns : ∀ mr ∈ runs, 0 ≤ mr.1 ∧ mr.1 < mr.2) :
    ∃ r', fetchLoop (contentSource content) runs r = .ok (r', none) ∧
      r'.underlying = r.underlying ++ runCalls (b : Int) runs ∧
      r'.underlayBytes = r.underlayBytes +
        ((runBlocks runs).map (fun i => (blockData content (b : Int) i).length)).sum ∧
      ∀ i, cacheGet r'.cache i =
        if i ∈ runBlocks runs then some { lastAccessed := 0, data := blockData content (b : Int) i }
        else cacheGet r.cache i := by
  induction runs generalizing r with
  | nil =>
    exact ⟨r, rfl, by simp [runCalls], by simp [runBlocks], fun i => by simp [runBlocks]⟩
  | cons mr rest ih =>
    obtain ⟨h0, hlt⟩ := hruns mr (List.mem_cons_self _ _)
    obtain ⟨a, ha⟩ : ∃ a : Nat, mr.1 = a := ⟨mr.1.toNat, by omega⟩
    obtain ⟨m, hm⟩ : ∃ m : Nat, mr.2 = (a : Int) + m := ⟨(mr.2 - mr.1).toNat, by omega⟩
    have hm1 : 1 ≤ m := by omega
    have hlen : ((mr.2 - mr.1) * (b : Int)).toNat = m * b := by
      rw [hm, ha]
      have : ((a : Int) + m - a) * (b : Int) = ((m * b : Nat) : Int) := by push_cast; ring
      rw [this, Int.toNat_natCast]
    have hoff : (mr.1 * (b : Int)).toNat = a * b := by
      rw [ha, ← Nat.cast_mul, Int.toNat_natCast]
    obtain ⟨err, hread, herr⟩ := contentSource_read content r.underlying (m * b)
      (mr.1 * (b : Int)) (by rw [ha]; positivity)
    rw [hoff] at hread
    have hdlen : ((content.drop (a * b)).take (m * b)).length ≤ m * b := by
      rw [List.length_take]; omega
    obtain ⟨r1, hr1⟩ : ∃ r1 : ReaderAt (List (Int × Nat)), r1 =
        { r with underlying := r.underlying ++ [(mr.1 * (b : Int), m * b)],
                 underlayBytes := r.underlayBytes + ((content.drop (a * b)).take (m * b)).length,
                 underlayReqs := r.underlayReqs + 1,
                 cache := saveBlocks (b : Int) ((content.drop (a * b)).take (m * b))
                   (blockIndices mr.1 mr.2) 0 r.cache } := ⟨_, rfl⟩
    have hstep : fetchLoop (contentSource content) (mr :: rest) r
        = fetchLoop (contentSource content) rest r1 := by
      rw [fetchLoop, hr1]
      simp only [ReaderAt.blockRangeToRangeExact, hB]
      have e0 : mr.2 * (b : Int) - mr.1 * (b : Int) = (mr.2 - mr.1) * (b : Int) := by ring
      rw [e0, if_neg (by rw [hm, ha]; nlinarith), hlen, hread]
      rcases herr with herr | herr <;> subst herr <;> dsimp only <;> rw [if_neg (by omega)]
    obtain ⟨r', h1, h2, h3, h4⟩ := ih r1 (by rw [hr1]; exact hB)
      (fun x hx => hruns x (List.mem_cons_of_mem _ hx))
    rw [hr1] at h2 h3 h4
    dsimp only at h2 h3 h4
    refine ⟨r', by rw [hstep]; exact h1, ?_, ?_, ?_⟩
    · rw [h2]
      simp only [runCalls, List.map_cons, hlen, List.append_assoc, List.singleton_append]
    · rw [h3]
      simp only [runBlocks, List.map_append, List.sum_append]
      rw [hm, ha, sum_blockData_length, List.length_take, List.length_drop]
      omega
    · intro i
      rw [h4 i]
      simp only [runBlocks, List.mem_append]
      by_cases hi : i ∈ runBlocks rest
      · simp [hi]
      · simp only [hi, if_false, or_false]
        rw [hm, ha, cacheGet_saveBlocks_zero b hb]
        simp only [mem_blockIndices]
        by_cases hin : (a : Int) ≤ i ∧ i < (a : Int) + m
        · rw [if_pos hin, if_pos hin]
          obtain ⟨k, hk⟩ : ∃ k : Nat, i = (a : Int) + k := ⟨(i - a).toNat, by omega⟩
          subst hk
          have e5 : ((a : Int) + (k : Int) - (a : Int)).toNat = k := by omega
          have e6 : (a : Int) + (k : Int) = ((a + k : Nat) : Int) := by push_cast; rfl
          rw [e5, run_slice content a m k b (by omega), e6, blockData_natCast]
        · rw [if_neg hin, if_neg hin]
/-! ## The copy loop -/

theorem copyLoop_cons_some (i : Int) (rest : List Int) (waste : Int) (st : CopyState)
    (e : cacheEntry) (he : cacheGet st.cache i = some e) (h0 : 0 ≤ waste)
    (h1 : waste ≤ (e.data.length : Int)) :
    copyLoop (i :: rest) waste st
      = copyLoop rest 0
          { cache := cacheSet st.cache i (e.touch (st.clock + 1)), clock := st.clock + 1,
            buffer := (copyInto st.buffer st.bufferPtr (e.data.drop waste.toNat)).1,
            bufferPtr := st.bufferPtr
              + (copyInto st.buffer st.bufferPtr (e.data.drop waste.toNat)).2 } := by
  rw [copyLoop, he]
  dsimp only
  rw [if_neg (by omega)]
  rfl

theorem copyLoop_cons_inv (i : Int) (rest : List Int) (waste : Int) (st st' : CopyState)
    (h : copyLoop (i :: rest) waste st = .ok st') :
    ∃ e, cacheGet st.cache i = some e ∧ 0 ≤ waste ∧ waste ≤ (e.data.length : Int) := by
  rw [copyLoop] at h
  cases he : cacheGet st.cache i with
  | none => rw [he] at h; simp at h
  | some e =>
    rw [he] at h
    dsimp only at h
    split_ifs at h with hw
    exact ⟨e, rfl, by omega, by omega⟩

/-- One `copy` into the caller's array `p`, of which `w` has been written so far. -/
theorem copyInto_written (p w src : List UInt8) (hw : w.length ≤ p.length) :
    copyInto (w ++ p.drop w.length) w.length src
      = (((w ++ src).take p.length) ++ p.drop ((w ++ src).take p.length).length,
          ((w ++ src).take p.length).length - w.length) := by
  unfold copyInto
  dsimp only
  have hlen : (w ++ p.drop w.length).length = p.length := by
    rw [List.length_append, List.length_drop]; omega
  rw [hlen]
  have h1 : (w ++ p.drop w.length).take w.length = w := by
    rw [List.take_append_of_le_length (le_refl _), List.take_length]
  have h2 : (w ++ src).take p.length = w ++ src.take (p.length - w.length) := by
    rw [List.take_append_eq_append_take, List.take_of_length_le hw]
  have h3 : src.take (min (p.length - w.length) src.length) = src.take (p.length - w.length) := by
    rw [Nat.min_comm]; exact take_min_length _ _
  have h4 : (w ++ src.take (p.length - w.length)).length
      = w.length + min (p.length - w.length) src.length := by
    rw [List.length_append, List.length_take]
  have h5 : (w ++ p.drop w.length).drop (w.length + min (p.length - w.length) src.length)
      = p.drop (w.length + min (p.length - w.length) src.length) := by
    rw [List.drop_append_eq_append_drop, List.drop_of_length_le (by omega), List.nil_append,
      List.drop_drop]
    congr 1
    omega
  rw [h1, h2, h3, h4, h5, List.append_assoc]
  congr 1
  omega

theorem take_append_take {α : Type} (x y : List α) (n : Nat) :
    (x.take n ++ y).take n = (x ++ y).take n := by
  rcases Nat.le_total x.length n with h | h
  · rw [List.take_of_length_le h]
  · rw [List.take_append_of_le_length (by rw [List.length_take]; omega), List.take_take,
      Nat.min_self, List.take_append_of_le_length h]

theorem touch_data (e : cacheEntry) (t : Nat) : (e.touch t).data = e.data := rfl

theorem touch_lastAccessed (e : cacheEntry) (t : Nat) : (e.touch t).lastAccessed = t := rfl

theorem cachedBytes_congr (c d : Cache) (blocks : List Int)
    (h : ∀ i ∈ blocks, (cacheGet c i).map (fun e => e.data) = (cacheGet d i).map (fun e => e.data)) :
    cachedBytes c blocks = cachedBytes d blocks := by
  induction blocks with
  | nil => rfl
  | cons i rest ih =>
    rw [cachedBytes, cachedBytes, ih (fun j hj => h j (List.mem_cons_of_mem _ hj))]
    have := h i (List.mem_cons_self _ _)
    cases h1 : cacheGet c i <;> cases h2 : cacheGet d i <;> simp_all

/-- What the copy loop does over the blocks `a, ..., a+m-1`, when it returns: it advances the
clock by `m`, stamps block `a + k` with `clock + k + 1` and keeps every other entry and all
data; the caller's array receives the cached bytes of the blocks, from `waste` on, cut at its
length. -/
theorem copyLoop_spec (p : List UInt8) (m : Nat) (a : Int) (waste : Int) (st st' : CopyState)
    (w : List UInt8) (hbuf : st.buffer = w ++ p.drop w.length) (hptr : st.bufferPtr = w.length)
    (hw : w.length ≤ p.length)
    (h : copyLoop (blockIndices a (a + m)) waste st = .ok st') :
    st'.clock = st.clock + m ∧
      (∀ i, cacheGet st'.cache i =
        if a ≤ i ∧ i < a + m then
          (cacheGet st.cache i).map (fun e => e.touch (st.clock + (i - a).toNat + 1))
        else cacheGet st.cache i) ∧
      (∀ i, a ≤ i → i < a + m → cacheHas st.cache i = true) ∧
      (keysNodup st.cache → keysNodup st'.cache ∧ st'.cache.length = st.cache.length) ∧
      (1 ≤ m → 0 ≤ waste ∧
        waste.toNat ≤ (cachedBytes st.cache (blockIndices a (a + 1))).length) ∧
      st'.buffer
        = ((w ++ (cachedBytes st.cache (blockIndices a (a + m))).drop waste.toNat).take p.length)
          ++ p.drop
            ((w ++ (cachedBytes st.cache (blockIndices a (a + m))).drop waste.toNat).take
              p.length).length ∧
      st'.bufferPtr
        = ((w ++ (cachedBytes st.cache (blockIndices a (a + m))).drop waste.toNat).take
            p.length).length := by
  induction m generalizing a waste st w with
  | zero =>
    have hnil : blockIndices a (a + ((0 : Nat) : Int)) = [] := blockIndices_nil (by simp)
    rw [hnil] at h ⊢
    simp only [copyLoop, Outcome.ok.injEq] at h
    subst h
    refine ⟨rfl, fun i => by rw [if_neg (by push_cast; omega)],
      fun i h1 h2 => by push_cast at h2; omega,
      fun hn => ⟨hn, rfl⟩, fun h1 => by omega, ?_, ?_⟩
    · simp only [cachedBytes, List.drop_nil, List.append_nil]
      rw [List.take_of_length_le hw]
      exact hbuf
    · simp only [cachedBytes, List.drop_nil, List.append_nil]
      rw [List.take_of_length_le hw]
      exact hptr
  | succ m ih =>
    have e1 : a + ((m + 1 : Nat) : Int) = (a + 1) + m := by push_cast; ring
    have hcons : blockIndices a (a + ((m + 1 : Nat) : Int))
        = a :: blockIndices (a + 1) (a + 1 + m) := by
      rw [blockIndices_cons (by push_cast; omega), e1]
    rw [hcons] at h ⊢
    obtain ⟨e, he, hw0, hw1⟩ := copyLoop_cons_inv _ _ _ _ _ h
    rw [copyLoop_cons_some _ _ _ _ e he hw0 hw1, hbuf, hptr, copyInto_written p w _ hw] at h
    dsimp only at h
    have hw2 : ((w ++ e.data.drop waste.toNat).take p.length).length ≤ p.length := by
      rw [List.length_take]; omega
    have hw3 : w.length ≤ ((w ++ e.data.drop waste.toNat).take p.length).length := by
      rw [List.length_take, List.length_append]; omega
    obtain ⟨h1, h2, h3, h4, -, h6, h7⟩ :=
      ih (a + 1) 0 _ ((w ++ e.data.drop waste.toNat).take p.length) rfl (by dsimp only; omega)
        hw2 h
    dsimp only at h1 h2 h3 h4 h6 h7
    have hbytes : cachedBytes (cacheSet st.cache a (e.touch (st.clock + 1)))
        (blockIndices (a + 1) (a + 1 + m)) = cachedBytes st.cache (blockIndices (a + 1) (a + 1 + m)) := by
      apply cachedBytes_congr
      intro i hi
      rw [mem_blockIndices] at hi
      rw [cacheGet_set, if_neg (by omega)]
    have hfirst : cachedBytes st.cache (blockIndices a (a + 1)) = e.data := by
      rw [blockIndices_cons (by omega), blockIndices_nil (le_refl _)]
      simp [cachedBytes, he]
    have hstream : (cachedBytes st.cache (a :: blockIndices (a + 1) (a + 1 + m))).drop waste.toNat
        = e.data.drop waste.toNat ++ cachedBytes st.cache (blockIndices (a + 1) (a + 1 + m)) := by
      rw [cachedBytes, he]
      dsimp only
      rw [List.drop_append_of_le_length (by omega)]
    have hW : ((w ++ e.data.drop waste.toNat).take p.length
          ++ (cachedBytes st.cache (blockIndices (a + 1) (a + 1 + m))).drop (0 : Int).toNat).take
          p.length
        = (w ++ (cachedBytes st.cache (a :: blockIndices (a + 1) (a + 1 + m))).drop
            waste.toNat).take p.length := by
      rw [hstream, ← List.append_assoc]
      simp only [Int.toNat_zero, List.drop_zero]
      exact take_append_take _ _ _
    rw [hbytes, hW] at h6 h7
    refine ⟨by rw [h1]; omega, fun i => ?_, fun i hi1 hi2 => ?_, fun hn => ?_,
      fun _ => ⟨hw0, by rw [hfirst]; omega⟩, h6, h7⟩
    · rw [h2 i]
      by_cases hi : a + 1 ≤ i ∧ i < a + 1 + m
      · rw [if_pos hi, if_pos (by omega), cacheGet_set, if_neg (by omega)]
        have : st.clock + 1 + (i - (a + 1)).toNat + 1 = st.clock + (i - a).toNat + 1 := by omega
        rw [this]
      · rw [if_neg hi, cacheGet_set]
        by_cases hia : i = a
        · subst hia
          rw [if_pos rfl, if_pos (by omega), he]
          simp
        · rw [if_neg hia, if_neg (by omega)]
    · by_cases hia : i = a
      · rw [hia, cacheHas_iff]; exact ⟨e, he⟩
      · have := h3 i (by omega) (by omega)
        rw [cacheHas_set] at this
        simpa [hia] using this
    · have hhas : cacheHas st.cache a = true := by rw [cacheHas_iff]; exact ⟨e, he⟩
      obtain ⟨g1, g2⟩ := h4 (keysNodup_set _ _ hn)
      exact ⟨g1, by rw [g2, length_set_of_has _ hn hhas]⟩
/-! ## `ReadAt` by stages -/

theorem copyLoop_ok (m : Nat) (a : Int) (waste : Int) (st : CopyState)
    (hhas : ∀ i, a ≤ i → i < a + m → cacheHas st.cache i = true)
    (hwaste : 1 ≤ m → 0 ≤ waste ∧
      waste.toNat ≤ (cachedBytes st.cache (blockIndices a (a + 1))).length) :
    ∃ st', copyLoop (blockIndices a (a + m)) waste st = .ok st' := by
  induction m generalizing a waste st with
  | zero =>
    have hnil : blockIndices a (a + ((0 : Nat) : Int)) = [] := blockIndices_nil (by simp)
    rw [hnil]
    exact ⟨st, rfl⟩
  | succ m ih =>
    have e1 : a + ((m + 1 : Nat) : Int) = (a + 1) + m := by push_cast; ring
    rw [blockIndices_cons (by push_cast; omega), e1]
    obtain ⟨e, he⟩ := (cacheHas_iff _ _).1 (hhas a (le_refl _) (by push_cast; omega))
    obtain ⟨hw0, hw1⟩ := hwaste (by omega)
    have hfirst : cachedBytes st.cache (blockIndices a (a + 1)) = e.data := by
      rw [blockIndices_cons (by omega), blockIndices_nil (le_refl _)]
      simp [cachedBytes, he]
    rw [hfirst] at hw1
    rw [copyLoop_cons_some _ _ _ _ e he hw0 (by omega)]
    apply ih
    · intro i hi1 hi2
      dsimp only
      rw [cacheHas_set, hhas i (by omega) (by push_cast; omega)]
      simp
    · intro _
      exact ⟨le_refl _, by simp⟩

/-- `ReadAt` returns normally in two ways: the fetch loop was aborted by a source failure, or
the fetch loop, the copy loop and the second eviction loop all ended. -/
theorem ReadAt_ok_inv {σ : Type} (U : Underlying σ) (ord : Cache → Cache) (fuel : Nat)
    (s : ReaderAt σ) (p : List UInt8) (off : Int) (out : ReadResult) (s' : ReaderAt σ)
    (h : s.ReadAt U ord fuel p off = .ok (out, s')) :
    (∃ e, fetchLoop U
          (missingRanges
            (s.makeRoom ord (s.startBlock off p.length)
              (s.endBlock off p.length)).cache
            (s.startBlock off p.length)
            (s.endBlock off p.length))
          (s.makeRoom ord (s.startBlock off p.length)
            (s.endBlock off p.length)) = .ok (s', some e) ∧
        out = { n := 0, err := some e, p := p }) ∨
      (∃ r2 st c, fetchLoop U
          (missingRanges
            (s.makeRoom ord (s.startBlock off p.length)
              (s.endBlock off p.length)).cache
            (s.startBlock off p.length)
            (s.endBlock off p.length))
          (s.makeRoom ord (s.startBlock off p.length)
            (s.endBlock off p.length)) = .ok (r2, none) ∧
        copyLoop
          (blockIndices (s.startBlock off p.length)
            (s.endBlock off p.length))
          (off - (s.startBlock off p.length) * s.blockSize)
          (copyStart r2 p) = .ok st ∧
        trimLoop ord st.clock s.numBlocks fuel st.cache = .ok c ∧
        out = copyResult p st ∧ s' = finishRead r2 st c (copyResult p st).n) := by
  unfold ReaderAt.startBlock ReaderAt.endBlock
  unfold ReaderAt.ReadAt at h
  simp only [ite_self] at h
  unfold ReaderAt.processReadRequest at h
  dsimp only at h
  generalize hfl : fetchLoop U _ _ = fl at h
  rcases fl with ⟨r2, _ | e⟩ | _ | _
  · right
    simp only [ReaderAt.blockRangeToRangeExact] at h
    generalize hcl : copyLoop _ _ _ = cl at h
    rcases cl with st | _ | _
    · dsimp only at h
      generalize htl : trimLoop _ _ _ _ _ = tl at h
      rcases tl with c | _ | _
      · dsimp only at h
        simp only [Outcome.ok.injEq, Prod.mk.injEq] at h
        obtain ⟨h1, h2⟩ := h
        refine ⟨r2, st, c, rfl, hcl, htl, ?_, ?_⟩
        · rw [← h1]
          unfold copyResult
          split_ifs <;> rfl
        · rw [← h2]
          unfold finishRead copyResult
          split_ifs <;> rfl
      · simp at h
      · simp at h
    · simp at h
    · simp at h
  · left
    dsimp only at h
    simp only [Outcome.ok.injEq, Prod.mk.injEq] at h
    obtain ⟨h1, h2⟩ := h
    exact ⟨e, by rw [h2], by rw [← h1]; rfl⟩
  · simp at h
  · simp at h

theorem ReadAt_of_failure {σ : Type} (U : Underlying σ) (ord : Cache → Cache) (fuel : Nat)
    (s : ReaderAt σ) (p : List UInt8) (off : Int) (r2 : ReaderAt σ) (e : GoError)
    (hfl : fetchLoop U
          (missingRanges
            (s.makeRoom ord (s.startBlock off p.length)
              (s.endBlock off p.length)).cache
            (s.startBlock off p.length)
            (s.endBlock off p.length))
          (s.makeRoom ord (s.startBlock off p.length)
            (s.endBlock off p.length)) = .ok (r2, some e)) :
    s.ReadAt U ord fuel p off = .ok ({ n := 0, err := some e, p := p }, r2) := by
  unfold ReaderAt.startBlock ReaderAt.endBlock at hfl
  unfold ReaderAt.ReadAt
  simp only [ite_self]
  unfold ReaderAt.processReadRequest
  dsimp only
  rw [hfl]
  rfl

theorem ReadAt_of_stages {σ : Type} (U : Underlying σ) (ord : Cache → Cache) (fuel : Nat)
    (s : ReaderAt σ) (p : List UInt8) (off : Int) (r2 : ReaderAt σ) (st : CopyState) (c : Cache)
    (hfl : fetchLoop U
          (missingRanges
            (s.makeRoom ord (s.startBlock off p.length)
              (s.endBlock off p.length)).cache
            (s.startBlock off p.length)
            (s.endBlock off p.length))
          (s.makeRoom ord (s.startBlock off p.length)
            (s.endBlock off p.length)) = .ok (r2, none))
    (hcl : copyLoop
          (blockIndices (s.startBlock off p.length)
            (s.endBlock off p.length))
          (off - (s.startBlock off p.length) * s.blockSize)
          (copyStart r2 p) = .ok st)
    (htl : trimLoop ord st.clock s.numBlocks fuel st.cache = .ok c) :
    s.ReadAt U ord fuel p off
      = .ok (copyResult p st, finishRead r2 st c (copyResult p st).n) := by
  unfold ReaderAt.startBlock ReaderAt.endBlock at hfl hcl
  unfold ReaderAt.ReadAt
  simp only [ite_self]
  unfold ReaderAt.processReadRequest
  dsimp only
  rw [hfl]
  dsimp only
  unfold copyStart at hcl
  simp only [ReaderAt.blockRangeToRangeExact]
  rw [hcl]
  dsimp only
  rw [htl]
  dsimp only
  unfold copyResult finishRead
  split_ifs <;> rfl
/-! ## One request over static content -/

theorem request_range_facts {σ : Type} (s : ReaderAt σ) (off : Int) (len : Nat)
    (hB : 1 ≤ s.blockSize) (h0 : 0 ≤ off) :
    0 ≤ s.startBlock off len ∧ s.startBlock off len ≤ s.endBlock off len ∧
      s.startBlock off len * s.blockSize ≤ off ∧
      off < s.startBlock off len * s.blockSize + s.blockSize ∧
      (len = 0 → s.endBlock off len = s.startBlock off len) ∧
      (0 < len → off + len ≤ s.endBlock off len * s.blockSize ∧
        s.endBlock off len * s.blockSize < off + len + s.blockSize) := by
  unfold ReaderAt.startBlock ReaderAt.endBlock
  obtain ⟨h1, h2, h3, h4⟩ := tdiv_tmod_facts off s.blockSize h0 (by omega)
  rw [rangeToBlockRange_fst]
  have hlen0 : len = 0 → (s.rangeToBlockRange off (off + (len : Int))).2
      = off.tdiv s.blockSize := by
    intro h
    subst h
    simp [rangeToBlockRange_empty]
  have hpos : 0 < len → off + len ≤ (s.rangeToBlockRange off (off + (len : Int))).2 * s.blockSize ∧
      (s.rangeToBlockRange off (off + (len : Int))).2 * s.blockSize < off + len + s.blockSize :=
    fun h => rangeToBlockRange_snd_bounds s off (off + len) (by omega) h0 (by omega)
  refine ⟨h4, ?_, by omega, by omega, hlen0, hpos⟩
  rcases Nat.eq_zero_or_pos len with h | h
  · rw [hlen0 h]
  · obtain ⟨h5, h6⟩ := hpos h
    by_contra hc
    have : ((s.rangeToBlockRange off (off + (len : Int))).2 + 1) * s.blockSize
        ≤ off.tdiv s.blockSize * s.blockSize :=
      Int.mul_le_mul_of_nonneg_right (by omega) (by omega)
    rw [add_mul, one_mul] at this
    omega

/-- The number of blocks of a request is at most `len + 1`. -/
theorem request_blocks_le {σ : Type} (s : ReaderAt σ) (off : Int) (len : Nat)
    (hB : 1 ≤ s.blockSize) (h0 : 0 ≤ off) :
    s.endBlock off len - s.startBlock off len ≤ len + 1 := by
  obtain ⟨h1, h2, h3, h4, h5, h6⟩ := request_range_facts s off len hB h0
  rcases Nat.eq_zero_or_pos len with h | h
  · rw [h5 h]; omega
  · obtain ⟨h7, h8⟩ := h6 h
    by_contra hc
    have : (s.startBlock off len + (len + 2)) * s.blockSize
        ≤ s.endBlock off len * s.blockSize :=
      Int.mul_le_mul_of_nonneg_right (by omega) (by omega)
    have h9 : (len : Int) * 1 ≤ (len : Int) * s.blockSize :=
      Int.mul_le_mul_of_nonneg_left hB (by omega)
    rw [add_mul, add_mul] at this
    omega

theorem makeRoom_sublist {σ : Type} (ord : Cache → Cache) (s : ReaderAt σ) (bs be : Int) :
    (s.makeRoom ord bs be).cache.Sublist s.cache :=
  evictLoop_sublist _ _ _ _

theorem coherent_sublist {content : List UInt8} {B : Int} {c d : Cache} (h : d.Sublist c)
    (hc : coherent content B c) : coherent content B d :=
  fun kv hkv => hc kv (h.subset hkv)

theorem blockData_append (content : List UInt8) (a m b : Nat) :
    blockData content (b : Int) (a : Int) ++ (content.drop ((a + 1) * b)).take (m * b)
      = (content.drop (a * b)).take ((m + 1) * b) := by
  rw [blockData_natCast]
  have h1 : (m + 1) * b = b + m * b := by ring
  have h2 : (content.drop (a * b)).drop b = content.drop ((a + 1) * b) := by
    rw [List.drop_drop]
    congr 1
    ring
  rw [h1, List.take_add, h2]

/-- The cached bytes of consecutive coherent blocks are a slice of the content. -/
theorem cachedBytes_coherent (content : List UInt8) (b : Nat) (c : Cache) (m a : Nat)
    (h : ∀ i : Int, (a : Int) ≤ i → i < (a : Int) + m →
      ∃ e, cacheGet c i = some e ∧ e.data = blockData content (b : Int) i) :
    cachedBytes c (blockIndices (a : Int) ((a : Int) + m))
      = (content.drop (a * b)).take (m * b) := by
  induction m generalizing a with
  | zero =>
    have hnil : blockIndices (a : Int) ((a : Int) + ((0 : Nat) : Int)) = [] :=
      blockIndices_nil (by simp)
    rw [hnil]
    simp [cachedBytes]
  | succ m ih =>
    have e1 : (a : Int) + ((m + 1 : Nat) : Int) = (((a + 1 : Nat) : Int)) + m := by
      push_cast; ring
    have e2 : (a : Int) + 1 = ((a + 1 : Nat) : Int) := by push_cast; rfl
    rw [blockIndices_cons (by push_cast; omega), e2, e1, cachedBytes, ih (a + 1)]
    · obtain ⟨e, he, hd⟩ := h a (le_refl _) (by push_cast; omega)
      rw [he]
      dsimp only
      rw [hd, blockData_append]
    · intro i hi1 hi2
      exact h i (by push_cast at hi1; omega) (by push_cast at hi2 ⊢; omega)
theorem mem_missingBlocks {c : Cache} {bs be i : Int} :
    i ∈ missingBlocks c bs be ↔ (bs ≤ i ∧ i < be) ∧ cacheHas c i = false := by
  unfold missingBlocks
  rw [List.mem_filter, mem_blockIndices]
  simp

/-- The bytes written by the copy loop of a request over coherent blocks. -/
theorem static_stream (content p : List UInt8) (a m b : Nat) (off : Int)
    (h0 : 0 ≤ off) (h1 : ((a * b : Nat) : Int) ≤ off)
    (h2 : 0 < p.length → off + p.length ≤ (((a + m) * b : Nat) : Int)) :
    (([] : List UInt8) ++ ((content.drop (a * b)).take (m * b)).drop
        (off - ((a * b : Nat) : Int)).toNat).take p.length
      = (content.drop off.toNat).take p.length := by
  rw [List.nil_append]
  rcases Nat.eq_zero_or_pos p.length with h | h
  · rw [h]; simp
  · have h4 := h2 h
    rw [List.drop_take, List.take_take, List.drop_drop]
    have e1 : a * b + (off - ((a * b : Nat) : Int)).toNat = off.toNat := by omega
    have e2 : (a + m) * b = a * b + m * b := by ring
    have e3 : min p.length (m * b - (off - ((a * b : Nat) : Int)).toNat) = p.length := by
      rw [e2] at h4
      omega
    rw [e3, e1]

theorem copyResult_static (content p : List UInt8) (off : Int) (st : CopyState)
    (hbuf : st.buffer = (content.drop off.toNat).take p.length
      ++ p.drop ((content.drop off.toNat).take p.length).length)
    (hptr : st.bufferPtr = ((content.drop off.toNat).take p.length).length) :
    copyResult p st = staticResult content p off := by
  have hlen : ((content.drop off.toNat).take p.length).length
      = min p.length (content.length - off.toNat) := by
    rw [List.length_take, List.length_drop]
  unfold copyResult staticResult
  rw [hptr, hbuf, hlen]
  by_cases h : min p.length (content.length - off.toNat) < p.length
  · rw [if_pos h, if_pos (by omega)]
    congr 1
    rw [List.length_take, List.length_append, hlen, List.length_drop]
    omega
  · rw [if_neg h, if_neg (by omega)]
    congr 1
    rw [List.length_append, hlen, List.length_drop]
    omega

theorem cacheHas_iff_mem_keys (c : Cache) (i : Int) :
    cacheHas c i = true ↔ i ∈ c.map Prod.fst := by
  unfold cacheHas
  rw [List.any_eq_true, List.mem_map]
  constructor
  · rintro ⟨kv, hkv, h⟩
    exact ⟨kv, hkv, by simpa using h⟩
  · rintro ⟨kv, hkv, h⟩
    exact ⟨kv, hkv, by simpa using h⟩

/-- Counting the entries of a cache obtained by adding the keys `l`, all new, to `c`. -/
theorem length_of_added_keys {c d : Cache} {l : List Int} (hc : keysNodup c) (hd : keysNodup d)
    (hl : l.Nodup) (hnew : ∀ i ∈ l, cacheHas c i = false)
    (hkeys : ∀ i, cacheHas d i = true ↔ i ∈ l ∨ cacheHas c i = true) :
    d.length = c.length + l.length := by
  have hperm : (d.map Prod.fst).Perm (l ++ c.map Prod.fst) := by
    rw [List.perm_ext_iff_of_nodup hd]
    · intro i
      rw [← cacheHas_iff_mem_keys, hkeys i, List.mem_append, ← cacheHas_iff_mem_keys]
    · rw [List.nodup_append]
      refine ⟨hl, hc, ?_⟩
      intro i hi1 hi2
      rw [← cacheHas_iff_mem_keys, hnew i hi1] at hi2
      exact Bool.false_ne_true hi2
  have := hperm.length_eq
  rw [List.length_map, List.length_append, List.length_map] at this
  omega

theorem missingBlocks_nodup (c : Cache) (bs be : Int) : (missingBlocks c bs be).Nodup :=
  List.Nodup.filter _ (blockIndices_nodup bs be)

theorem missingBlocks_length_le (c : Cache) (bs be : Int) :
    (missingBlocks c bs be).length ≤ (be - bs).toNat := by
  unfold missingBlocks
  exact le_trans (List.length_filter_le _ _) (le_of_eq (blockIndices_length bs be))

theorem trimLoop_of_le (ord : Cache → Cache) (clock : Nat) (numBlocks : Int) (fuel : Nat)
    (c : Cache) (hle : (c.length : Int) ≤ numBlocks) (hfuel : 1 ≤ fuel) :
    trimLoop ord clock numBlocks fuel c = .ok c := by
  obtain ⟨k, rfl⟩ : ∃ k, fuel = k + 1 := ⟨fuel - 1, by omega⟩
  rw [trimLoop, if_neg (by omega)]

/-- After the copy loop over `m ≥ 1` blocks, only the last block of the range is as recent
as the clock. -/
theorem oneRecent_after_copy (c0 c : Cache) (clock0 : Nat) (a : Int) (m : Nat) (hm : 1 ≤ m)
    (hn : keysNodup c) (hs0 : stampsLe c0 clock0)
    (hget : ∀ i, cacheGet c i =
      if a ≤ i ∧ i < a + m then (cacheGet c0 i).map (fun e => e.touch (clock0 + (i - a).toNat + 1))
      else cacheGet c0 i) :
    oneRecent c (clock0 + m) := by
  have key : ∀ x ∈ c, clock0 + m ≤ x.2.lastAccessed → x.1 = a + m - 1 := by
    intro x hx hge
    have h1 := cacheGet_of_mem hn hx
    rw [hget x.1] at h1
    by_cases hin : a ≤ x.1 ∧ x.1 < a + m
    · rw [if_pos hin] at h1
      obtain ⟨e, -, he⟩ := Option.map_eq_some'.1 h1
      rw [← he, touch_lastAccessed] at hge
      omega
    · rw [if_neg hin] at h1
      have := hs0 _ (mem_of_cacheGet h1)
      simp only at this
      omega
  intro x hx y hy hxge hyge
  have h1 := cacheGet_of_mem hn hx
  have h2 := cacheGet_of_mem hn hy
  rw [key x hx hxge] at h1
  rw [key y hy hyge, h1] at h2
  exact Prod.ext (by rw [key x hx hxge, key y hy hyge]) (Option.some.inj h2)

/-- One request over static content at an offset `off ≥ 0`, from a state that satisfies the
invariant.  If the offset lies inside the content and the fuel covers the second eviction
loop, or if the call is known to return, then `ReadAt` returns the reference result, and the
state moves as `StepFacts` describes. -/
theorem static_step_gen (content : List UInt8) (B N : Int) (hB : 1 ≤ B) (hN : 1 ≤ N)
    (s : ReaderAt (List (Int × Nat))) (hinv : StaticInv content B N s)
    (ord : Cache → Cache) (hord : ∀ l, (ord l).Perm l) (p : List UInt8) (off : Int)
    (h0 : 0 ≤ off) (fuel : Nat)
    (hsafe : off ≤ (content.length : Int) ∨
      ∃ out s', s.ReadAt (contentSource content) ord fuel p off = .ok (out, s'))
    (hfuel : s.cache.length + p.length + 2 ≤ fuel ∨
      ∃ out s', s.ReadAt (contentSource content) ord fuel p off = .ok (out, s')) :
    ∃ s' c3, s.ReadAt (contentSource content) ord fuel p off
        = .ok (staticResult content p off, s') ∧
      StepFacts content B N ord fuel s p off s' c3 := by
  obtain ⟨hBe, hNe, hnd, hst, hcoh, hsz⟩ := hinv
  have hB' : 1 ≤ s.blockSize := by omega
  obtain ⟨f1, f2, f3, f4, f5, f6⟩ := request_range_facts s off p.length hB' h0
  have f7 := request_blocks_le s off p.length hB' h0
  obtain ⟨b, hb⟩ : ∃ b : Nat, B = b := ⟨B.toNat, by omega⟩
  subst hb
  obtain ⟨a, ha⟩ : ∃ a : Nat, s.startBlock off p.length = a :=
    ⟨(s.startBlock off p.length).toNat, by omega⟩
  obtain ⟨m, hm⟩ : ∃ m : Nat, s.endBlock off p.length = (a : Int) + m :=
    ⟨(s.endBlock off p.length - s.startBlock off p.length).toNat, by omega⟩
  -- the first eviction loop
  have hsub := makeRoom_sublist ord s (s.startBlock off p.length) (s.endBlock off p.length)
  generalize hr1 : s.makeRoom ord (s.startBlock off p.length) (s.endBlock off p.length) = r1
    at hsub
  have hr1B : r1.blockSize = (b : Int) := by rw [← hr1]; exact hBe
  have hr1c : r1.clock = s.clock := by rw [← hr1]; rfl
  have hr1u : r1.underlying = s.underlying := by rw [← hr1]; rfl
  have hr1ub : r1.underlayBytes = s.underlayBytes := by rw [← hr1]; rfl
  have hr1ur : r1.underlayReqs = s.underlayReqs := by rw [← hr1]; rfl
  have hr1ob : r1.overlayBytes = s.overlayBytes := by rw [← hr1]; rfl
  have hr1or : r1.overlayReqs = s.overlayReqs := by rw [← hr1]; rfl
  have hr1N : r1.numBlocks = s.numBlocks := by rw [← hr1]; rfl
  have hnd1 := keysNodup_sublist hsub hnd
  have hst1 := stampsLe_sublist hsub hst
  have hcoh1 := coherent_sublist hsub hcoh
  -- the fetch loop
  obtain ⟨hruns1, hruns2⟩ := missingRanges_spec r1.cache (s.startBlock off p.length)
    (s.endBlock off p.length)
  obtain ⟨r2, hfl, g1, g2, g3⟩ := fetchLoop_content content b (by omega)
    (missingRanges r1.cache (s.startBlock off p.length) (s.endBlock off p.length)) r1 hr1B
    (fun mr hmr => ⟨by have := hruns2 mr hmr; omega, (hruns2 mr hmr).2.1⟩)
  obtain ⟨k1, k2, k3, k4, k5, k6, k7, k8, -, -⟩ := fetchLoop_frame _ _ _ _ _ hfl
  obtain ⟨d1, d2, d3⟩ := fetchLoop_done _ _ _ _ hfl
  rw [hruns1] at g3 g2
  have hall : ∀ i : Int, (a : Int) ≤ i → i < (a : Int) + m →
      ∃ e, cacheGet r2.cache i = some e ∧ e.data = blockData content (b : Int) i := by
    intro i hi1 hi2
    rw [g3 i]
    by_cases hmiss : i ∈ missingBlocks r1.cache (s.startBlock off p.length)
        (s.endBlock off p.length)
    · rw [if_pos hmiss]
      exact ⟨_, rfl, rfl⟩
    · rw [if_neg hmiss]
      rw [mem_missingBlocks, ha, hm] at hmiss
      have hhas : cacheHas r1.cache i = true := by
        by_contra hc
        exact hmiss ⟨⟨hi1, hi2⟩, by simpa using hc⟩
      obtain ⟨e, he⟩ := (cacheHas_iff _ _).1 hhas
      exact ⟨e, he, hcoh1 (i, e) (mem_of_cacheGet he)⟩
  have hbytes := cachedBytes_coherent content b r2.cache m a hall
  -- what is known when the call returns
  have hret : (∃ out s', s.ReadAt (contentSource content) ord fuel p off = .ok (out, s')) →
      ∃ st c, copyLoop (blockIndices (a : Int) ((a : Int) + m))
          (off - s.startBlock off p.length * s.blockSize) (copyStart r2 p) = .ok st ∧
        trimLoop ord st.clock s.numBlocks fuel st.cache = .ok c := by
    rintro ⟨out, s', hok⟩
    rcases ReadAt_ok_inv _ _ _ _ _ _ _ _ hok with ⟨e, h1, -⟩ | ⟨r2', st, c, h1, h2, h3, -, -⟩
    · rw [hr1, hfl] at h1
      simp at h1
    · rw [hr1, hfl] at h1
      simp only [Outcome.ok.injEq, Prod.mk.injEq, and_true] at h1
      subst h1
      rw [ha, hm] at h2
      rw [ha]
      exact ⟨st, c, h2, h3⟩
  -- the copy loop
  have hwaste0 : 0 ≤ off - s.startBlock off p.length * s.blockSize := by omega
  have hfirstlen : 1 ≤ m → (off - s.startBlock off p.length * s.blockSize).toNat
      ≤ (cachedBytes r2.cache (blockIndices (a : Int) ((a : Int) + 1))).length := by
    intro hm1
    rcases hsafe with hF | hsafe
    swap
    · obtain ⟨st, c, h2, -⟩ := hret hsafe
      exact ((copyLoop_spec p m a _ (copyStart r2 p) st [] (by simp [copyStart])
        (by simp [copyStart]) (Nat.zero_le _) h2).2.2.2.2.1 hm1).2
    have h1 := cachedBytes_coherent content b r2.cache 1 a
      (fun i hi1 hi2 => hall i hi1 (by push_cast at hi2; omega))
    simp only [Nat.cast_one] at h1
    rw [h1, List.length_take, List.length_drop, ha, hBe]
    rw [ha, hBe] at f3 f4
    have e1 : ((a : Int) * (b : Int)) = ((a * b : Nat) : Int) := by push_cast; rfl
    rw [e1] at f3 f4 ⊢
    omega
  obtain ⟨st, hcl⟩ := copyLoop_ok m a (off - s.startBlock off p.length * s.blockSize)
    (copyStart r2 p)
    (fun i hi1 hi2 => by
      obtain ⟨e, he, -⟩ := hall i hi1 hi2
      rw [cacheHas_iff]; exact ⟨e, he⟩)
    (fun h => ⟨hwaste0, hfirstlen h⟩)
  obtain ⟨c1, c2, c3, c4, -, c6, c7⟩ := copyLoop_spec p m a _ (copyStart r2 p) st []
    (by simp [copyStart]) (by simp [copyStart]) (Nat.zero_le _) hcl
  dsimp only [copyStart] at c1 c2 c3 c4 c6 c7
  obtain ⟨c4a, c4b⟩ := c4 (k6 hnd1)
  have e1 : ((a : Int) * (b : Int)) = ((a * b : Nat) : Int) := by push_cast; rfl
  have hW := static_stream content p a m b off h0
    (by rw [← e1, ← ha, ← hBe]; exact f3)
    (fun h => by
      have := (f6 h).1
      rw [hm, hBe] at this
      have e2 : (((a : Int) + (m : Int)) * (b : Int)) = (((a + m) * b : Nat) : Int) := by
        push_cast; rfl
      rw [e2] at this
      exact this)
  rw [hbytes, ha, hBe, e1, hW] at c6 c7
  have hres := copyResult_static content p off st c6 c7
  -- the second eviction loop
  have hst3 : stampsLe st.cache st.clock := by
    intro kv hkv
    have hget := cacheGet_of_mem c4a hkv
    rw [c2 kv.1] at hget
    by_cases hin : (a : Int) ≤ kv.1 ∧ kv.1 < (a : Int) + m
    · rw [if_pos hin] at hget
      obtain ⟨e, -, he⟩ := Option.map_eq_some'.1 hget
      rw [← he, touch_lastAccessed, c1]
      omega
    · rw [if_neg hin] at hget
      have := k7 s.clock (by rw [← hr1c] at hst1 ⊢; exact hst1) kv (mem_of_cacheGet hget)
      rw [c1, k3, hr1c]
      omega
  have hlen2 : r2.cache.length = r1.cache.length
      + (missingBlocks r1.cache (s.startBlock off p.length) (s.endBlock off p.length)).length := by
    apply length_of_added_keys hnd1 (k6 hnd1) (missingBlocks_nodup _ _ _)
    · intro i hi
      exact (mem_missingBlocks.1 hi).2
    · intro i
      rw [cacheHas_iff, g3 i]
      by_cases hmiss : i ∈ missingBlocks r1.cache (s.startBlock off p.length)
          (s.endBlock off p.length)
      · simp [hmiss]
      · simp only [hmiss, if_false, false_or]
        exact (cacheHas_iff _ _).symm
  have hlen1 : r1.cache.length ≤ s.cache.length := hsub.length_le
  have hmlen := missingBlocks_length_le r1.cache (s.startBlock off p.length)
    (s.endBlock off p.length)
  have hterm : ∃ c, trimLoop ord st.clock s.numBlocks fuel st.cache = .ok c := by
    rcases hfuel with hfuel | hfuel
    swap
    · obtain ⟨st', c, h2, h3⟩ := hret hfuel
      rw [ha] at hcl
      rw [ha, hcl] at h2
      simp only [Outcome.ok.injEq] at h2
      subst h2
      exact ⟨c, h3⟩
    rcases Nat.eq_zero_or_pos m with hm0 | hm0
    · refine ⟨st.cache, trimLoop_of_le _ _ _ _ _ ?_ (by omega)⟩
      rw [c4b, hlen2]
      have : (s.endBlock off p.length - s.startBlock off p.length).toNat = 0 := by omega
      omega
    · apply trimLoop_terminates ord st.clock s.numBlocks fuel st.cache hord c4a
      · rw [c1]
        exact oneRecent_after_copy r2.cache st.cache r2.clock a m hm0 c4a
          (k7 _ (by rw [k3, hr1c]; exact hst1)) c2
      · omega
      · rw [c4b, hlen2]
        have : (s.endBlock off p.length - s.startBlock off p.length).toNat ≤ p.length + 1 := by
          omega
        omega
  obtain ⟨c, htl⟩ := hterm
  obtain ⟨t1, t2, -⟩ := trimLoop_ok _ _ _ _ _ _ htl
  refine ⟨finishRead r2 st c (copyResult p st).n, st.cache, ?_, ?_⟩
  · rw [← hres]
    apply ReadAt_of_stages
    · rw [hr1]
      exact hfl
    · rw [ha, hm]
      rw [ha] at hcl
      exact hcl
    · exact htl
  · have hcoh2 : coherent content (b : Int) r2.cache := by
      intro kv hkv
      have hget := cacheGet_of_mem (k6 hnd1) hkv
      rw [g3 kv.1] at hget
      split_ifs at hget with hmiss
      · rw [← Option.some.inj hget]
      · exact hcoh1 _ (mem_of_cacheGet hget)
    have hcoh3 : coherent content (b : Int) st.cache := by
      intro kv hkv
      have hget := cacheGet_of_mem c4a hkv
      rw [c2 kv.1] at hget
      split_ifs at hget with hin
      · obtain ⟨e, he1, he2⟩ := Option.map_eq_some'.1 hget
        rw [← he2, touch_data]
        exact hcoh2 _ (mem_of_cacheGet he1)
      · exact hcoh2 _ (mem_of_cacheGet hget)
    have hmeq : (s.endBlock off p.length - s.startBlock off p.length).toNat = m := by omega
    refine ⟨⟨?_, ?_, keysNodup_sublist t1 c4a, stampsLe_sublist t1 hst3,
      coherent_sublist t1 hcoh3, by rw [← hNe]; exact t2⟩, ?_, ?_, ?_, ?_, ?_, ?_, ?_, c4a, ?_⟩
    · show r2.blockSize = _
      rw [k1, hr1B]
    · show r2.numBlocks = _
      rw [k2, hr1N, hNe]
    · show st.clock = _
      rw [c1, k3, hr1c, hmeq]
    · show r2.underlying = _
      rw [g1, hr1u, hr1]
    · show r2.underlayReqs = _
      rw [d3, hr1ur, hr1]
    · show r2.underlayBytes = _
      rw [g2, hr1ub, hr1]
    · show r2.overlayBytes + _ = _
      rw [k4, hr1ob, hres]
    · show r2.overlayReqs + 1 = _
      rw [k5, hr1or]
    · intro i
      rw [c2 i, hr1, ha, hm, k3, hr1c]
      by_cases hin : (a : Int) ≤ i ∧ i < (a : Int) + m
      · rw [if_pos hin, if_pos hin]
        obtain ⟨e, he1, he2⟩ := hall i hin.1 hin.2
        rw [he1, Option.map_some', ← he2]
        rfl
      · rw [if_neg hin, if_neg hin, g3 i, if_neg]
        rw [mem_missingBlocks, ha, hm]
        exact fun hc => hin hc.1
    · show trimLoop ord st.clock N fuel st.cache = _
      rw [← hNe]
      exact htl

/-- One request over static content at an offset inside the content, with fuel for the
second eviction loop. -/
theorem static_step (content : List UInt8) (B N : Int) (hB : 1 ≤ B) (hN : 1 ≤ N)
    (s : ReaderAt (List (Int × Nat))) (hinv : StaticInv content B N s)
    (ord : Cache → Cache) (hord : ∀ l, (ord l).Perm l) (p : List UInt8) (off : Int)
    (h0 : 0 ≤ off) (hF : off ≤ (content.length : Int)) (fuel : Nat)
    (hfuel : s.cache.length + p.length + 2 ≤ fuel) :
    ∃ s' c3, s.ReadAt (contentSource content) ord fuel p off
        = .ok (staticResult content p off, s') ∧
      StepFacts content B N ord fuel s p off s' c3 :=
  static_step_gen content B N hB hN s hinv ord hord p off h0 fuel (Or.inl hF) (Or.inl hfuel)

/-- Every call at an offset `off ≥ 0` that returns, returns the reference result. -/
theorem static_step_of_ok (content : List UInt8) (B N : Int) (hB : 1 ≤ B) (hN : 1 ≤ N)
    (s : ReaderAt (List (Int × Nat))) (hinv : StaticInv content B N s)
    (ord : Cache → Cache) (hord : ∀ l, (ord l).Perm l) (p : List UInt8) (off : Int)
    (h0 : 0 ≤ off) (fuel : Nat) (out : ReadResult) (s' : ReaderAt (List (Int × Nat)))
    (hok : s.ReadAt (contentSource content) ord fuel p off = .ok (out, s')) :
    out = staticResult content p off ∧ ∃ c3, StepFacts content B N ord fuel s p off s' c3 := by
  obtain ⟨s'', c3, h1, h2⟩ := static_step_gen content B N hB hN s hinv ord hord p off h0 fuel
    (Or.inr ⟨out, s', hok⟩) (Or.inr ⟨out, s', hok⟩)
  rw [hok] at h1
  simp only [Outcome.ok.injEq, Prod.mk.injEq] at h1
  obtain ⟨rfl, rfl⟩ := h1
  exact ⟨rfl, c3, h2⟩
/-! ## C1, C2: reads over static content -/

theorem staticInv_New (content : List UInt8) (B N : Int) (hN : 0 ≤ N) :
    StaticInv content B N (New [] B N) :=
  ⟨rfl, rfl, List.nodup_nil, fun _ h => by simp [New] at h, fun _ h => by simp [New] at h,
    by simpa [New] using hN⟩

/-- Every state reached over static content satisfies the invariant. -/
theorem staticReachable_inv (content : List UInt8) (B N : Int) (hB : 1 ≤ B) (hN : 1 ≤ N)
    (s : ReaderAt (List (Int × Nat))) (hs : StaticReachable content B N s) :
    StaticInv content B N s := by
  induction hs with
  | init => exact staticInv_New content B N (by omega)
  | step _ hord h0 hok ih =>
    obtain ⟨-, c3, hf⟩ := static_step_of_ok content B N hB hN _ ih _ hord _ _ h0 _ _ _ hok
    exact hf.inv

theorem staticResult_take (content p : List UInt8) (off : Int) :
    (staticResult content p off).p.take (staticResult content p off).n
      = (content.drop off.toNat).take (staticResult content p off).n := by
  unfold staticResult
  dsimp only
  have hlen : ((content.drop off.toNat).take p.length).length
      = min p.length (content.length - off.toNat) := by
    rw [List.length_take, List.length_drop]
  rw [List.take_append_of_le_length (by omega), List.take_take]
  congr 1
  omega

/-- C1: over static content of length `F`, with `B ≥ 1` and `N ≥ 1`, from every state
reached by earlier calls, `ReadAt(p, O)` with `0 ≤ O ≤ F` returns (given fuel for the second
eviction loop) `n = min(len(p), F - O)` and leaves `p[0..n)` equal to `content[O..O+n)`; the
length of `p` and its bytes from `n` on are unchanged. -/
theorem readAt_read_through (content : List UInt8) (B N : Int) (hB : 1 ≤ B) (hN : 1 ≤ N)
    (s : ReaderAt (List (Int × Nat))) (hs : StaticReachable content B N s)
    (ord : Cache → Cache) (hord : ∀ l, (ord l).Perm l) (p : List UInt8) (O : Int)
    (h0 : 0 ≤ O) (hF : O ≤ (content.length : Int)) (fuel : Nat)
    (hfuel : s.cache.length + p.length + 2 ≤ fuel) :
    ∃ out s', s.ReadAt (contentSource content) ord fuel p O = .ok (out, s') ∧
      out.n = min p.length (content.length - O.toNat) ∧
      out.p.take out.n = (content.drop O.toNat).take out.n ∧
      out.p.length = p.length ∧ out.p.drop out.n = p.drop out.n := by
  obtain ⟨s', c3, h1, -⟩ := static_step content B N hB hN s
    (staticReachable_inv content B N hB hN s hs) ord hord p O h0 hF fuel hfuel
  refine ⟨_, s', h1, rfl, staticResult_take content p O, ?_, ?_⟩
  · unfold staticResult
    dsimp only
    rw [List.length_append, List.length_take, List.length_drop, List.length_drop]
    omega
  · unfold staticResult
    dsimp only
    have hlen : ((content.drop O.toNat).take p.length).length
        = min p.length (content.length - O.toNat) := by
      rw [List.length_take, List.length_drop]
    rw [List.drop_append_of_le_length (by omega), ← hlen, List.drop_length, List.nil_append]

/-- Witness of C1: content `"01234567"`, `B = 4`, `N = 2`, empty cache, a read of 3 bytes at
offset 5. -/
theorem readAt_read_through_witness :
    (1 : Int) ≤ 4 ∧ (1 : Int) ≤ 2 ∧
    ∃ out s', (New [] 4 2).ReadAt (contentSource [48, 49, 50, 51, 52, 53, 54, 55]) id 5
        [0, 0, 0] 5 = .ok (out, s') ∧
      out.n = min [(0 : UInt8), 0, 0].length
        ([(48 : UInt8), 49, 50, 51, 52, 53, 54, 55].length - (5 : Int).toNat) ∧
      out.p.take out.n
        = ([(48 : UInt8), 49, 50, 51, 52, 53, 54, 55].drop (5 : Int).toNat).take out.n ∧
      out.p.length = [(0 : UInt8), 0, 0].length ∧
      out.p.drop out.n = [(0 : UInt8), 0, 0].drop out.n :=
  ⟨by decide, by decide,
    readAt_read_through [48, 49, 50, 51, 52, 53, 54, 55] 4 2 (by decide) (by decide) _
      StaticReachable.init id (fun l => List.Perm.refl l) [0, 0, 0] 5 (by decide) (by decide) 5
      (by decide)⟩

/-- C2: over static content of length `F`, from every state reached by earlier calls,
`ReadAt(p, O)` with `0 ≤ O ≤ F` returns end-of-stream exactly when fewer than `len(p)` bytes
were copied, that is when `O + len(p) > F`, and a nil error otherwise; at `O = F` with
`len(p) ≥ 1` it returns `(0, EOF)`, and at `O = F - 1` with `len(p) = 2` it returns
`(1, EOF)`. -/
theorem readAt_eof_signalling (content : List UInt8) (B N : Int) (hB : 1 ≤ B) (hN : 1 ≤ N)
    (s : ReaderAt (List (Int × Nat))) (hs : StaticReachable content B N s)
    (ord : Cache → Cache) (hord : ∀ l, (ord l).Perm l) (p : List UInt8) (O : Int)
    (h0 : 0 ≤ O) (hF : O ≤ (content.length : Int)) (fuel : Nat)
    (hfuel : s.cache.length + p.length + 2 ≤ fuel) :
    ∃ out s', s.ReadAt (contentSource content) ord fuel p O = .ok (out, s') ∧
      (out.err = some GoError.EOF ↔ out.n < p.length) ∧
      (out.err = some GoError.EOF ↔ (content.length : Int) < O + p.length) ∧
      (out.err = none ↔ O + p.length ≤ (content.length : Int)) ∧
      (O = (content.length : Int) → 1 ≤ p.length →
        out.n = 0 ∧ out.err = some GoError.EOF) ∧
      (O = (content.length : Int) - 1 → p.length = 2 →
        out.n = 1 ∧ out.err = some GoError.EOF) := by
  obtain ⟨s', c3, h1, -⟩ := static_step content B N hB hN s
    (staticReachable_inv content B N hB hN s hs) ord hord p O h0 hF fuel hfuel
  refine ⟨_, s', h1, ?_, ?_, ?_, ?_, ?_⟩ <;> unfold staticResult <;> dsimp only
  · split_ifs with h <;> simp <;> omega
  · split_ifs with h <;> simp <;> omega
  · split_ifs with h <;> simp <;> omega
  · intro h2 h3
    rw [if_pos (by omega)]
    exact ⟨by omega, rfl⟩
  · intro h2 h3
    rw [if_pos (by omega)]
    exact ⟨by omega, rfl⟩

/-- Witness of C2: content `"0123456"`, `B = 4`, `N = 2`, empty cache, a read of 2 bytes at
offset 6 (the first read of `TestReadAt9`). -/
theorem readAt_eof_signalling_witness :
    (1 : Int) ≤ 4 ∧ (1 : Int) ≤ 2 ∧
    ∃ out s', (New [] 4 2).ReadAt (contentSource [48, 49, 50, 51, 52, 53, 54]) id 4
        [0, 0] 6 = .ok (out, s') ∧
      (out.err = some GoError.EOF ↔ out.n < [(0 : UInt8), 0].length) ∧
      (out.err = some GoError.EOF ↔
        (([(48 : UInt8), 49, 50, 51, 52, 53, 54].length : Nat) : Int)
          < 6 + [(0 : UInt8), 0].length) ∧
      (out.err = none ↔
        (6 : Int) + [(0 : UInt8), 0].length
          ≤ (([(48 : UInt8), 49, 50, 51, 52, 53, 54].length : Nat) : Int)) ∧
      ((6 : Int) = (([(48 : UInt8), 49, 50, 51, 52, 53, 54].length : Nat) : Int) →
        1 ≤ [(0 : UInt8), 0].length → out.n = 0 ∧ out.err = some GoError.EOF) ∧
      ((6 : Int) = (([(48 : UInt8), 49, 50, 51, 52, 53, 54].length : Nat) : Int) - 1 →
        [(0 : UInt8), 0].length = 2 → out.n = 1 ∧ out.err = some GoError.EOF) :=
  ⟨by decide, by decide,
    readAt_eof_signalling [48, 49, 50, 51, 52, 53, 54] 4 2 (by decide) (by decide) _
      StaticReachable.init id (fun l => List.Perm.refl l) [0, 0] 6 (by decide) (by decide) 4
      (by decide)⟩
/-! ## Invariants for any source -/

theorem blockIndices_eq_toNat (s e : Int) :
    blockIndices s e = blockIndices s (s + (((e - s).toNat : Nat) : Int)) := by
  unfold blockIndices
  congr 2
  omega

/-- The fetch loop aborts only with an error that is not end-of-stream. -/
theorem fetchLoop_error {σ : Type} (U : Underlying σ) (runs : List (Int × Int))
    (r r' : ReaderAt σ) (e : GoError) (h : fetchLoop U runs r = .ok (r', some e)) :
    ∃ code, e = GoError.other code := by
  induction runs generalizing r with
  | nil => simp [fetchLoop] at h
  | cons mr rest ih =>
    rw [fetchLoop] at h
    split_ifs at h with h1
    dsimp only at h
    generalize U.ReadAt r.underlying _ _ = res at h
    obtain ⟨⟨data, err⟩, u⟩ := res
    rcases err with _ | _ | code
    · dsimp only at h
      split_ifs at h with h2
      exact ih _ h
    · dsimp only at h
      split_ifs at h with h2
      exact ih _ h
    · simp only [Outcome.ok.injEq, Prod.mk.injEq, Option.some.injEq] at h
      exact ⟨code, h.2.symm⟩

/-- After the copy loop no stamp is ahead of the clock. -/
theorem stampsLe_after_copy (c0 c : Cache) (clock0 : Nat) (a : Int) (m : Nat)
    (hn : keysNodup c) (hs0 : stampsLe c0 clock0)
    (hget : ∀ i, cacheGet c i =
      if a ≤ i ∧ i < a + m then (cacheGet c0 i).map (fun e => e.touch (clock0 + (i - a).toNat + 1))
      else cacheGet c0 i) :
    stampsLe c (clock0 + m) := by
  intro kv hkv
  have h1 := cacheGet_of_mem hn hkv
  rw [hget kv.1] at h1
  by_cases hin : a ≤ kv.1 ∧ kv.1 < a + m
  · rw [if_pos hin] at h1
    obtain ⟨e, -, he⟩ := Option.map_eq_some'.1 h1
    rw [← he, touch_lastAccessed]
    omega
  · rw [if_neg hin] at h1
    have := hs0 _ (mem_of_cacheGet h1)
    simp only at this
    omega

theorem genInv_step {σ : Type} (U : Underlying σ) (B N : Int) (s s' : ReaderAt σ)
    (hinv : GenInv B N s) (ord : Cache → Cache) (fuel : Nat) (p : List UInt8) (off : Int)
    (out : ReadResult) (hok : s.ReadAt U ord fuel p off = .ok (out, s')) : GenInv B N s' := by
  obtain ⟨hBe, hNe, hnd, hst⟩ := hinv
  have hsub := makeRoom_sublist ord s (s.startBlock off p.length) (s.endBlock off p.length)
  have hnd1 := keysNodup_sublist hsub hnd
  have hst1 := stampsLe_sublist hsub hst
  rcases ReadAt_ok_inv _ _ _ _ _ _ _ _ hok with ⟨e, h1, -⟩ | ⟨r2, st, c, h1, h2, h3, -, h5⟩
  · obtain ⟨k1, k2, k3, -, -, k6, k7, -⟩ := fetchLoop_frame _ _ _ _ _ h1
    exact ⟨by rw [k1]; exact hBe, by rw [k2]; exact hNe, k6 hnd1,
      by rw [k3]; exact k7 _ hst1⟩
  · obtain ⟨k1, k2, k3, -, -, k6, k7, -⟩ := fetchLoop_frame _ _ _ _ _ h1
    rw [blockIndices_eq_toNat] at h2
    obtain ⟨c1, c2, -, c4, -, -, -⟩ := copyLoop_spec p _ _ _ (copyStart r2 p) st []
      (by simp [copyStart]) (by simp [copyStart]) (Nat.zero_le _) h2
    dsimp only [copyStart] at c1 c2 c4
    obtain ⟨c4a, -⟩ := c4 (k6 hnd1)
    obtain ⟨t1, -, -⟩ := trimLoop_ok _ _ _ _ _ _ h3
    have hk3 : r2.clock = s.clock := k3
    have hst3 := stampsLe_after_copy r2.cache st.cache r2.clock _ _ c4a
      (k7 _ (by rw [hk3]; exact hst1)) c2
    rw [hk3] at hst3
    rw [h5]
    refine ⟨by show r2.blockSize = _; rw [k1]; exact hBe,
      by show r2.numBlocks = _; rw [k2]; exact hNe, keysNodup_sublist t1 c4a, ?_⟩
    show stampsLe c st.clock
    rw [c1, hk3]
    exact stampsLe_sublist t1 hst3

theorem genInv_New {σ : Type} (u : σ) (B N : Int) : GenInv B N (New u B N) :=
  ⟨rfl, rfl, List.nodup_nil, fun _ h => by simp [New] at h⟩

/-- Every reachable state has the configured block size and capacity, pairwise distinct keys,
and no stamp ahead of the clock. -/
theorem reachable_inv {σ : Type} (U : Underlying σ) (B N : Int) (s : ReaderAt σ)
    (hs : Reachable U B N s) : GenInv B N s := by
  induction hs with
  | init u => exact genInv_New u B N
  | step _ _ hok ih => exact genInv_step U B N _ _ ih _ _ _ _ _ hok

/-! ## C3 -/

/-- C3 (evaluation of the code where the claim fails): with `B = 4`, `N = 2` and an empty
cache, a read of one byte at offset 9 of the 8-byte content `"01234567"` panics, and so does a
read of one byte at offset 7 of the 6-byte content `"012345"`: the cached block is shorter
than `waste`, and `entry.data[waste:]` is out of range. -/
theorem readAt_beyond_end_panic :
    (New [] 4 2).ReadAt (contentSource [48, 49, 50, 51, 52, 53, 54, 55]) id 5 [0] 9
        = Outcome.panic ∧
      (New [] 4 2).ReadAt (contentSource [48, 49, 50, 51, 52, 53]) id 5 [0] 7
        = Outcome.panic := by
  constructor <;> rfl

/-! ## C4 -/

/-- C4: from every reachable state, for any source, after a call of `ReadAt` that returns
with a nil or end-of-stream error, the cache holds at most `N` blocks (under pairwise distinct
keys). -/
theorem cache_size_invariant {σ : Type} (U : Underlying σ) (B N : Int) (_hB : 1 ≤ B)
    (_hN : 1 ≤ N) (s : ReaderAt σ) (hs : Reachable U B N s) (ord : Cache → Cache)
    (_hord : ∀ l, (ord l).Perm l) (fuel : Nat) (p : List UInt8) (off : Int) (out : ReadResult)
    (s' : ReaderAt σ) (hok : s.ReadAt U ord fuel p off = .ok (out, s'))
    (herr : out.err = none ∨ out.err = some GoError.EOF) :
    keysNodup s'.cache ∧ (s'.cache.length : Int) ≤ N := by
  have hinv := reachable_inv U B N s hs
  have hinv' := genInv_step U B N s s' hinv ord fuel p off out hok
  refine ⟨hinv'.nodup, ?_⟩
  rcases ReadAt_ok_inv _ _ _ _ _ _ _ _ hok with ⟨e, h1, h2⟩ | ⟨r2, st, c, -, -, h3, -, h5⟩
  · obtain ⟨code, hcode⟩ := fetchLoop_error _ _ _ _ _ h1
    rw [h2, hcode] at herr
    simp at herr
  · obtain ⟨-, t2, -⟩ := trimLoop_ok _ _ _ _ _ _ h3
    rw [h5]
    show (c.length : Int) ≤ N
    rw [← hinv.numBlocks_eq]
    exact t2

/-- Witness of C4: content of 12 bytes, `B = 4`, `N = 2`, empty cache, a read of 12 bytes at
offset 0 (three blocks, one more than the capacity). -/
theorem cache_size_invariant_witness :
    ∃ out s', (New [] 4 2).ReadAt
        (contentSource [48, 49, 50, 51, 52, 53, 54, 55, 56, 57, 97, 98]) id 5
        [0, 0, 0, 0, 0, 0, 0, 0, 0, 0, 0, 0] 0 = .ok (out, s') ∧
      keysNodup s'.cache ∧ (s'.cache.length : Int) ≤ 2 :=
  ⟨_, _, rfl,
    cache_size_invariant (contentSource [48, 49, 50, 51, 52, 53, 54, 55, 56, 57, 97, 98]) 4 2
      (by decide) (by decide) (New [] 4 2) (Reachable.init []) id (fun l => List.Perm.refl l) 5
      [0, 0, 0, 0, 0, 0, 0, 0, 0, 0, 0, 0] 0 _ _ rfl (Or.inl rfl)⟩
/-! ## C5 -/

/-- C5: let the missing runs of a request be `pre ++ run :: post`; if the fetch loop reads and
saves the runs `pre` and the source then answers the call for `run` with an error that is not
end-of-stream, `ReadAt` returns 0 bytes with exactly that error and leaves `p` as it was; the
blocks of the runs `pre` are in the cache, the cache is the one left by the runs `pre`, and
the source has received one call per run of `pre` and one for `run`, none for `post`. -/
theorem source_failure_propagation {σ : Type} (U : Underlying σ) (ord : Cache → Cache)
    (fuel : Nat) (s : ReaderAt σ) (p : List UInt8) (off : Int) (pre post : List (Int × Int))
    (run : Int × Int) (r2 : ReaderAt σ) (code : Nat) (hB : 1 ≤ s.blockSize)
    (hruns : missingRanges
        (s.makeRoom ord (s.startBlock off p.length) (s.endBlock off p.length)).cache
        (s.startBlock off p.length) (s.endBlock off p.length) = pre ++ run :: post)
    (hpre : fetchLoop U pre
        (s.makeRoom ord (s.startBlock off p.length) (s.endBlock off p.length)) = .ok (r2, none))
    (hfail : (U.ReadAt r2.underlying (run.2 * s.blockSize - run.1 * s.blockSize).toNat
        (run.1 * s.blockSize)).1.2 = some (GoError.other code)) :
    ∃ s', s.ReadAt U ord fuel p off
        = .ok ({ n := 0, err := some (GoError.other code), p := p }, s') ∧
      (∀ i ∈ runBlocks pre, cacheHas s'.cache i = true) ∧
      s'.underlayReqs = s.underlayReqs + pre.length + 1 ∧
      s'.cache = r2.cache ∧
      s'.underlying = (U.ReadAt r2.underlying (run.2 * s.blockSize - run.1 * s.blockSize).toNat
        (run.1 * s.blockSize)).2 := by
  obtain ⟨k1, -⟩ := fetchLoop_frame _ _ _ _ _ hpre
  obtain ⟨d1, -, d3⟩ := fetchLoop_done _ _ _ _ hpre
  have hk1 : r2.blockSize = s.blockSize := k1
  have hrun : run.1 < run.2 := by
    have := (missingRanges_spec
      (s.makeRoom ord (s.startBlock off p.length) (s.endBlock off p.length)).cache
      (s.startBlock off p.length) (s.endBlock off p.length)).2 run
      (by rw [hruns]; exact List.mem_append_right _ (List.mem_cons_self _ _))
    exact this.2.1
  have hlen : ¬ (run.2 * s.blockSize - run.1 * s.blockSize < 0) := by
    have : run.1 * s.blockSize ≤ run.2 * s.blockSize :=
      Int.mul_le_mul_of_nonneg_right (by omega) (by omega)
    omega
  obtain ⟨s', hs'⟩ : ∃ s' : ReaderAt σ, s' = { r2 with
      underlying := (U.ReadAt r2.underlying
        (run.2 * s.blockSize - run.1 * s.blockSize).toNat (run.1 * s.blockSize)).2,
      underlayBytes := r2.underlayBytes + (U.ReadAt r2.underlying
        (run.2 * s.blockSize - run.1 * s.blockSize).toNat (run.1 * s.blockSize)).1.1.length,
      underlayReqs := r2.underlayReqs + 1 } := ⟨_, rfl⟩
  have hstep : fetchLoop U (run :: post) r2 = .ok (s', some (GoError.other code)) := by
    rw [fetchLoop, hs']
    simp only [ReaderAt.blockRangeToRangeExact, hk1]
    rw [if_neg hlen]
    generalize U.ReadAt r2.underlying _ _ = res at hfail ⊢
    obtain ⟨⟨data, err⟩, u⟩ := res
    simp only at hfail
    subst hfail
    rfl
  refine ⟨s', ReadAt_of_failure U ord fuel s p off s' (GoError.other code) ?_, ?_, ?_, ?_, ?_⟩
  · rw [hruns, fetchLoop_append U pre (run :: post) _ r2 hpre, hstep]
  · rw [hs']
    exact d1
  · rw [hs']
    show r2.underlayReqs + 1 = _
    rw [d3]
    rfl
  · rw [hs']
  · rw [hs']

/-- Witness of C5: `B = 4`, `N = 4`, block 1 cached, a read of 12 bytes at offset 0 (blocks
0, 1, 2, so the missing runs are `[0,1)` and `[2,3)`) over a source that fails on the call
for the second run: block 0, inserted from the first run, stays cached. -/
theorem source_failure_propagation_witness :
    (1 : Int) ≤ sampleState.blockSize ∧
    ∃ s', sampleState.ReadAt (flakySource sampleContent 2) id 5
        [0, 0, 0, 0, 0, 0, 0, 0, 0, 0, 0, 0] 0
        = .ok ({ n := 0, err := some (GoError.other 1),
                 p := [0, 0, 0, 0, 0, 0, 0, 0, 0, 0, 0, 0] }, s') ∧
      (∀ i ∈ runBlocks [(0, 1)], cacheHas s'.cache i = true) ∧
      s'.underlayReqs = sampleState.underlayReqs + [((0 : Int), (1 : Int))].length + 1 :=
  ⟨by decide,
    (source_failure_propagation (flakySource sampleContent 2) id 5 sampleState
      [0, 0, 0, 0, 0, 0, 0, 0, 0, 0, 0, 0] 0 [(0, 1)] [] (2, 3) _ 1 (by decide) rfl rfl rfl).imp
      (fun _ h => ⟨h.1, h.2.1, h.2.2.1⟩)⟩
/-! ## C6: reading the same range twice -/

/-- The second eviction loop keeps the blocks of the request when the request spans at most
`numBlocks` blocks: they carry the newest stamps. -/
theorem trim_retains (ord : Cache → Cache) (hord : ∀ l, (ord l).Perm l) (c3 c : Cache)
    (clock0 clock : Nat) (N : Int) (fuel : Nat) (a : Int) (m : Nat) (hmN : (m : Int) ≤ N)
    (hn : keysNodup c3) (hs : stampsLe c3 clock)
    (hwin : ∀ i, a ≤ i → i < a + m → ∃ e, cacheGet c3 i = some e ∧ clock0 < e.lastAccessed)
    (hout : ∀ kv ∈ c3, ¬ (a ≤ kv.1 ∧ kv.1 < a + m) → kv.2.lastAccessed ≤ clock0)
    (htl : trimLoop ord clock N fuel c3 = .ok c) :
    ∀ i, a ≤ i → i < a + m → cacheGet c i = cacheGet c3 i := by
  intro i hi1 hi2
  obtain ⟨e, he, hlt⟩ := hwin i hi1 hi2
  obtain ⟨hsub, hlenN, hsame⟩ := trimLoop_ok _ _ _ _ _ _ htl
  have holder := trimLoop_olderOut ord clock N fuel c3 c hord hn hs htl
  rw [he]
  by_cases hmem : (i, e) ∈ c
  · exact cacheGet_of_mem (keysNodup_sublist hsub hn) hmem
  · exfalso
    have hc3 : ¬ ((c3.length : Int) ≤ N) := by
      intro hle
      rw [hsame hle] at hmem
      exact hmem (mem_of_cacheGet he)
    have hlen := trimLoop_length ord clock N fuel c3 c hn (by omega) htl
    have hkeys : c.map Prod.fst ⊆ (blockIndices a (a + m)).erase i := by
      intro k hk
      obtain ⟨y, hy, rfl⟩ := List.mem_map.1 hk
      have hy3 := hsub.subset hy
      have hge := holder (i, e) (mem_of_cacheGet he) hmem y hy
      simp only at hge
      have hin : a ≤ y.1 ∧ y.1 < a + m := by
        by_contra hc
        have := hout y hy3 hc
        omega
      have hne : y.1 ≠ i := by
        intro hc
        have h2 := cacheGet_of_mem hn hy3
        rw [hc, he] at h2
        apply hmem
        have : y = (i, e) := Prod.ext hc (Option.some.inj h2).symm
        rw [← this]
        exact hy
      rw [List.mem_erase_of_ne hne, mem_blockIndices]
      exact hin
    have hcount := (List.subperm_of_subset (keysNodup_sublist hsub hn) hkeys).length_le
    rw [List.length_map, List.length_erase_of_mem (mem_blockIndices.2 ⟨hi1, hi2⟩),
      blockIndices_length] at hcount
    have : (a + (m : Int) - a).toNat = m := by omega
    rw [this] at hcount
    omega

theorem runBlocks_eq_nil (runs : List (Int × Int)) (hne : ∀ mr ∈ runs, mr.1 < mr.2)
    (h : runBlocks runs = []) : runs = [] := by
  cases runs with
  | nil => rfl
  | cons mr rest =>
    exfalso
    rw [runBlocks, List.append_eq_nil] at h
    have h1 := hne mr (List.mem_cons_self _ _)
    have h2 : mr.1 ∈ blockIndices mr.1 mr.2 := mem_blockIndices.2 ⟨le_refl _, h1⟩
    rw [h.1] at h2
    simp at h2

/-- A request whose blocks are all cached, in a cache within capacity: nothing is evicted
before the fetch and no run is missing. -/
theorem full_hit {σ : Type} (ord : Cache → Cache) (s : ReaderAt σ) (bs be : Int)
    (hall : ∀ i, bs ≤ i → i < be → cacheHas s.cache i = true)
    (hlen : (s.cache.length : Int) ≤ s.numBlocks) :
    s.makeRoom ord bs be = s ∧ missingRanges s.cache bs be = [] := by
  have hmiss : missingBlocks s.cache bs be = [] := by
    unfold missingBlocks
    rw [List.filter_eq_nil_iff]
    intro i hi
    rw [mem_blockIndices] at hi
    simp [hall i hi.1 hi.2]
  constructor
  · unfold ReaderAt.makeRoom countNewBlocks
    have : (blockIndices bs be).filter (fun i => !cacheHas s.cache i) = [] := hmiss
    rw [this]
    dsimp only
    have h0 : ((s.cache.length : Int) + (([] : List Int).length : Int) - s.numBlocks).toNat = 0 := by
      simp only [List.length_nil, Nat.cast_zero, add_zero]
      omega
    rw [h0]
    rfl
  · obtain ⟨h1, h2⟩ := missingRanges_spec s.cache bs be
    rw [hmiss] at h1
    exact runBlocks_eq_nil _ (fun mr hmr => (h2 mr hmr).2.1) h1

theorem copyResult_of_written (p W : List UInt8) (st : CopyState)
    (hbuf : st.buffer = W ++ p.drop W.length) (hptr : st.bufferPtr = W.length)
    (hW : W.length ≤ p.length) :
    copyResult p st = { n := W.length,
                        err := if W.length < p.length then some GoError.EOF else none,
                        p := W ++ p.drop W.length } := by
  unfold copyResult
  rw [hptr, hbuf]
  split_ifs with h
  · congr 1
    rw [List.take_append_of_le_length (le_refl _), List.take_length]
  · congr 1
    rw [List.length_append, List.length_drop]
    omega

theorem startBlock_congr {σ : Type} (s s1 : ReaderAt σ) (off : Int) (len len1 : Nat)
    (hB : s1.blockSize = s.blockSize) (hlen : len1 = len) :
    s1.startBlock off len1 = s.startBlock off len ∧ s1.endBlock off len1 = s.endBlock off len := by
  subst hlen
  unfold ReaderAt.startBlock ReaderAt.endBlock ReaderAt.rangeToBlockRange
  rw [hB]
  exact ⟨rfl, rfl⟩

/-- C6 (amended): from every reachable state, for any source, if a read returns with a nil or
end-of-stream error and its range spans at most `N` blocks, then reading the same range again
at once returns the same count, the same error and the same bytes, makes no call to the source
(its state and both source counters are unchanged), and increases `overlayReqs` by 1 and
`overlayBytes` by the bytes returned. -/
theorem repeat_read_idempotent {σ : Type} (U : Underlying σ) (B N : Int) (s : ReaderAt σ)
    (hs : Reachable U B N s) (ord ord2 : Cache → Cache) (hord : ∀ l, (ord l).Perm l)
    (fuel fuel2 : Nat) (hfuel2 : 1 ≤ fuel2) (p q : List UInt8) (hq : q.length = p.length)
    (off : Int) (out : ReadResult) (s1 : ReaderAt σ)
    (h1 : s.ReadAt U ord fuel p off = .ok (out, s1))
    (herr : out.err = none ∨ out.err = some GoError.EOF)
    (hspan : s.endBlock off p.length - s.startBlock off p.length ≤ N) :
    ∃ out2 s2, s1.ReadAt U ord2 fuel2 q off = .ok (out2, s2) ∧
      out2.n = out.n ∧ out2.err = out.err ∧ out2.p.take out.n = out.p.take out.n ∧
      s2.underlying = s1.underlying ∧ s2.underlayReqs = s1.underlayReqs ∧
      s2.underlayBytes = s1.underlayBytes ∧ s2.overlayReqs = s1.overlayReqs + 1 ∧
      s2.overlayBytes = s1.overlayBytes + out.n := by
  obtain ⟨hBe, hNe, hnd, hst⟩ := reachable_inv U B N s hs
  have hsub := makeRoom_sublist ord s (s.startBlock off p.length) (s.endBlock off p.length)
  have hnd1 := keysNodup_sublist hsub hnd
  have hst1 := stampsLe_sublist hsub hst
  rcases ReadAt_ok_inv _ _ _ _ _ _ _ _ h1 with ⟨e, hf, ho⟩ | ⟨r2, st, c, hfl, hcl, htl, hout, hs1⟩
  · obtain ⟨code, hcode⟩ := fetchLoop_error _ _ _ _ _ hf
    rw [ho, hcode] at herr
    simp at herr
  obtain ⟨k1, k2, k3, -, -, k6, k7, -⟩ := fetchLoop_frame _ _ _ _ _ hfl
  have hk1 : r2.blockSize = s.blockSize := k1
  have hk2 : r2.numBlocks = s.numBlocks := k2
  have hk3 : r2.clock = s.clock := k3
  obtain ⟨a, ha⟩ : ∃ a, s.startBlock off p.length = a := ⟨_, rfl⟩
  obtain ⟨m, hm⟩ : ∃ m : Nat, (s.endBlock off p.length - s.startBlock off p.length).toNat = m :=
    ⟨_, rfl⟩
  have hblocks : blockIndices (s.startBlock off p.length) (s.endBlock off p.length)
      = blockIndices a (a + m) := by
    rw [blockIndices_eq_toNat, hm, ha]
  rw [hblocks, ha] at hcl
  obtain ⟨c1, c2, c3, c4, c5, c6, c7⟩ := copyLoop_spec p m a _ (copyStart r2 p) st []
    (by simp [copyStart]) (by simp [copyStart]) (Nat.zero_le _) hcl
  dsimp only [copyStart] at c1 c2 c3 c4 c5 c6 c7
  obtain ⟨c4a, c4b⟩ := c4 (k6 hnd1)
  have hst2 : stampsLe r2.cache r2.clock := k7 _ (by rw [hk3]; exact hst1)
  have hst3 := stampsLe_after_copy r2.cache st.cache r2.clock a m c4a hst2 c2
  rw [← c1] at hst3
  -- the blocks of the range survive the second eviction loop
  have hwin : ∀ i, a ≤ i → i < a + m →
      ∃ e, cacheGet st.cache i = some e ∧ r2.clock < e.lastAccessed := by
    intro i hi1 hi2
    obtain ⟨e0, he0⟩ := (cacheHas_iff _ _).1 (c3 i hi1 hi2)
    refine ⟨e0.touch (r2.clock + (i - a).toNat + 1), ?_, ?_⟩
    · rw [c2 i, if_pos ⟨hi1, hi2⟩, he0]
      rfl
    · rw [touch_lastAccessed]
      omega
  have houtw : ∀ kv ∈ st.cache, ¬ (a ≤ kv.1 ∧ kv.1 < a + m) → kv.2.lastAccessed ≤ r2.clock := by
    intro kv hkv hnin
    have h2 := cacheGet_of_mem c4a hkv
    rw [c2 kv.1, if_neg hnin] at h2
    exact hst2 _ (mem_of_cacheGet h2)
  obtain ⟨t1, t2, -⟩ := trimLoop_ok _ _ _ _ _ _ htl
  have hmN : (m : Int) ≤ s.numBlocks := by
    rw [hNe] at t2 ⊢
    omega
  have hret := trim_retains ord hord st.cache c r2.clock st.clock s.numBlocks fuel a m hmN c4a
    hst3 hwin houtw htl
  -- the state after the first call
  have hs1B : s1.blockSize = s.blockSize := by rw [hs1]; exact hk1
  have hs1N : s1.numBlocks = s.numBlocks := by rw [hs1]; exact hk2
  have hs1c : s1.cache = c := by rw [hs1]; rfl
  obtain ⟨hsb, hse⟩ := startBlock_congr s s1 off p.length q.length hs1B hq
  have hall1 : ∀ i, a ≤ i → i < a + m → cacheHas s1.cache i = true := by
    intro i hi1 hi2
    obtain ⟨e, he, -⟩ := hwin i hi1 hi2
    rw [hs1c, cacheHas_iff, hret i hi1 hi2]
    exact ⟨e, he⟩
  have hblocks1 : blockIndices (s1.startBlock off q.length) (s1.endBlock off q.length)
      = blockIndices a (a + m) := by
    rw [hsb, hse, hblocks]
  have hall1' : ∀ i, s1.startBlock off q.length ≤ i → i < s1.endBlock off q.length →
      cacheHas s1.cache i = true := by
    intro i hi1 hi2
    have : i ∈ blockIndices (s1.startBlock off q.length) (s1.endBlock off q.length) :=
      mem_blockIndices.2 ⟨hi1, hi2⟩
    rw [hblocks1, mem_blockIndices] at this
    exact hall1 i this.1 this.2
  obtain ⟨hmr, hmiss⟩ := full_hit ord2 s1 (s1.startBlock off q.length)
    (s1.endBlock off q.length) hall1' (by rw [hs1c, hs1N]; exact t2)
  -- both copy loops read the same bytes
  have hdata : ∀ i, a ≤ i → i < a + m →
      (cacheGet s1.cache i).map (fun e => e.data) = (cacheGet r2.cache i).map (fun e => e.data) := by
    intro i hi1 hi2
    rw [hs1c, hret i hi1 hi2, c2 i, if_pos ⟨hi1, hi2⟩]
    cases cacheGet r2.cache i <;> rfl
  have hcb : cachedBytes s1.cache (blockIndices a (a + m))
      = cachedBytes r2.cache (blockIndices a (a + m)) :=
    cachedBytes_congr _ _ _ (fun i hi => hdata i (mem_blockIndices.1 hi).1 (mem_blockIndices.1 hi).2)
  have hcb1 : 1 ≤ m → cachedBytes s1.cache (blockIndices a (a + 1))
      = cachedBytes r2.cache (blockIndices a (a + 1)) := by
    intro hm1
    apply cachedBytes_congr
    intro i hi
    rw [mem_blockIndices] at hi
    exact hdata i hi.1 (by omega)
  obtain ⟨st2, hcl2⟩ := copyLoop_ok m a (off - a * s.blockSize) (copyStart s1 q) hall1
    (fun hm1 => by
      dsimp only [copyStart]
      rw [hcb1 hm1]
      exact c5 hm1)
  obtain ⟨e1, -, -, e4, -, e6, e7⟩ := copyLoop_spec q m a _ (copyStart s1 q) st2 []
    (by simp [copyStart]) (by simp [copyStart]) (Nat.zero_le _) hcl2
  dsimp only [copyStart] at e1 e4 e6 e7
  obtain ⟨-, e4b⟩ := e4 (by rw [hs1c]; exact keysNodup_sublist t1 c4a)
  rw [hcb, hq] at e6 e7
  have htl2 : trimLoop ord2 st2.clock s1.numBlocks fuel2 st2.cache = .ok st2.cache :=
    trimLoop_of_le _ _ _ _ _ (by rw [e4b, hs1c, hs1N]; exact t2) hfuel2
  have hread := ReadAt_of_stages U ord2 fuel2 s1 q off s1 st2 st2.cache
    (by rw [hmr, hmiss]; rfl) (by rw [hblocks1, hsb, ha, hs1B]; exact hcl2) htl2
  -- the two results
  have hWlen : ((([] : List UInt8) ++ (cachedBytes r2.cache (blockIndices a (a + m))).drop
      (off - a * s.blockSize).toNat).take p.length).length ≤ p.length := by
    rw [List.length_take]
    omega
  have hres1 := copyResult_of_written p _ st c6 c7 hWlen
  have hres2 := copyResult_of_written q _ st2 e6 e7 (by rw [hq]; exact hWlen)
  refine ⟨_, _, hread, ?_, ?_, ?_, rfl, rfl, rfl, rfl, ?_⟩
  · rw [hout, hres1, hres2]
  · rw [hout, hres1, hres2, hq]
  · rw [hout, hres1, hres2]
    dsimp only
    rw [List.take_append_of_le_length (le_refl _), List.take_append_of_le_length (le_refl _)]
  · show s1.overlayBytes + (copyResult q st2).n = s1.overlayBytes + out.n
    rw [hout, hres1, hres2]

/-- Witness of C6 (amended): `B = 4`, `N = 2`, empty cache, two reads of 3 bytes at offset 9
of `sampleContent` (`TestReadAt3`); the range spans the single block 2. -/
theorem repeat_read_idempotent_witness :
    ∃ out s1, (New [] 4 2).ReadAt (contentSource sampleContent) id 5 [0, 0, 0] 9
        = .ok (out, s1) ∧
      ∃ out2 s2, s1.ReadAt (contentSource sampleContent) id 5 [0, 0, 0] 9 = .ok (out2, s2) ∧
        out2.n = out.n ∧ out2.err = out.err ∧ out2.p.take out.n = out.p.take out.n ∧
        s2.underlying = s1.underlying ∧ s2.underlayReqs = s1.underlayReqs ∧
        s2.underlayBytes = s1.underlayBytes ∧ s2.overlayReqs = s1.overlayReqs + 1 ∧
        s2.overlayBytes = s1.overlayBytes + out.n :=
  ⟨_, _, rfl,
    repeat_read_idempotent (contentSource sampleContent) 4 2 (New [] 4 2) (Reachable.init [])
      id id (fun l => List.Perm.refl l) 5 5 (by decide) [0, 0, 0] [0, 0, 0] rfl 9 _ _ rfl
      (Or.inl rfl) (by decide)⟩

/-- C6 as stated fails for a range wider than the capacity: with `B = 4`, `N = 2` and an
empty cache, a read of 12 bytes at offset 0 (blocks 0, 1, 2) leaves only two of its three
blocks cached, and the same read repeated at once calls the source again (`underlayReqs` goes
from 1 to 2, `underlayBytes` from 12 to 20). -/
theorem repeat_read_wide_range_refetches :
    ∃ out s1 out2 s2,
      (New [] 4 2).ReadAt (contentSource sampleContent) id 5
        [0, 0, 0, 0, 0, 0, 0, 0, 0, 0, 0, 0] 0 = .ok (out, s1) ∧
      s1.ReadAt (contentSource sampleContent) id 5
        [0, 0, 0, 0, 0, 0, 0, 0, 0, 0, 0, 0] 0 = .ok (out2, s2) ∧
      s1.underlayReqs = 1 ∧ s2.underlayReqs = 2 ∧
      s1.underlayBytes = 12 ∧ s2.underlayBytes = 20 :=
  ⟨_, _, _, _, rfl, rfl, rfl, rfl, rfl, rfl⟩
/-! ## Eviction on a cache listed by recency -/

theorem keysNodup_perm {c L : Cache} (h : L.Perm c) (hn : keysNodup c) : keysNodup L :=
  (h.map Prod.fst).nodup_iff.2 hn

theorem stampsLe_perm {c L : Cache} {clock : Nat} (h : L.Perm c) (hs : stampsLe c clock) :
    stampsLe L clock :=
  fun kv hkv => hs kv (h.mem_iff.1 hkv)

/-- Deleting the key of the head of a list with distinct keys leaves the tail. -/
theorem cacheDelete_head (x : Int × cacheEntry) (L : Cache) (hn : keysNodup (x :: L)) :
    cacheDelete (x :: L) x.1 = L := by
  unfold keysNodup at hn
  rw [List.map_cons, List.nodup_cons] at hn
  unfold cacheDelete
  rw [List.filter_cons]
  simp only [bne_self_eq_false, Bool.false_eq_true, if_false]
  rw [List.filter_eq_self]
  intro a ha
  have : a.1 ≠ x.1 := fun hc => hn.1 (hc ▸ List.mem_map_of_mem Prod.fst ha)
  simpa using this

/-- One round of eviction on a cache listed by recency: it removes the head if some stamp is
below the clock, and at most the head otherwise. -/
theorem evictOne_sorted (ord : Cache → Cache) (clock : Nat) (c L : Cache)
    (hord : (ord c).Perm c) (hperm : L.Perm c) (hsorted : stampSorted L) (hn : keysNodup c)
    (hs : stampsLe c clock) :
    ∃ j, j ≤ 1 ∧ (L.drop j).Perm (evictOne ord clock c) ∧
      ((∃ x ∈ c, x.2.lastAccessed < clock) → j = 1) := by
  have hnL := keysNodup_perm hperm hn
  rcases oldestScan_spec ord clock c hord with ⟨e, he, hlt, hmin⟩ | ⟨hv, hall⟩
  · have heL : ((oldestScan clock (ord c)).1, e) ∈ L := hperm.mem_iff.2 he
    cases L with
    | nil => simp at heL
    | cons x L' =>
      have hx : x = ((oldestScan clock (ord c)).1, e) := by
        rcases List.mem_cons.1 heL with h | h
        · exact h.symm
        · exfalso
          have h1 := (List.pairwise_cons.1 hsorted).1 _ h
          have h2 := hmin x (hperm.mem_iff.1 (List.mem_cons_self _ _))
          simp only at h1
          omega
      refine ⟨1, le_refl _, ?_, fun _ => rfl⟩
      unfold evictOne
      have h1 : (cacheDelete (x :: L') (oldestScan clock (ord c)).1).Perm
          (cacheDelete c (oldestScan clock (ord c)).1) := hperm.filter _
      have h2 : cacheDelete (x :: L') (oldestScan clock (ord c)).1 = L' := by
        have := cacheDelete_head x L' hnL
        rw [hx] at this
        rw [hx]
        exact this
      rw [h2] at h1
      simpa using h1
  · have hstamp : ∀ x ∈ L, x.2.lastAccessed = clock := by
      intro x hx
      have h1 := hall x (hperm.mem_iff.1 hx)
      have h2 := hs x (hperm.mem_iff.1 hx)
      omega
    have hold : ¬ ∃ x ∈ c, x.2.lastAccessed < clock := by
      rintro ⟨x, hx, hlt⟩
      have := hall x hx
      omega
    unfold evictOne
    rw [hv]
    match L, hperm, hsorted, hstamp, hnL with
    | [], hperm, _, _, _ =>
      have hc : c = [] := List.Perm.eq_nil hperm.symm
      subst hc
      exact ⟨0, by omega, by simp [cacheDelete], fun h => absurd h hold⟩
    | [x], hperm, _, _, _ =>
      have hc : c = [x] := List.perm_singleton.1 hperm.symm
      subst hc
      by_cases h0 : x.1 = 0
      · refine ⟨1, le_refl _, ?_, fun _ => rfl⟩
        simp [cacheDelete, h0]
      · refine ⟨0, by omega, ?_, fun h => absurd h hold⟩
        simp [cacheDelete, h0]
    | x :: y :: L', _, hsorted, hstamp, _ =>
      exfalso
      have h1 := (List.pairwise_cons.1 hsorted).1 y (List.mem_cons_self _ _)
      have h2 := hstamp x (List.mem_cons_self _ _)
      have h3 := hstamp y (List.mem_cons_of_mem _ (List.mem_cons_self _ _))
      simp only at h1
      omega

theorem stampSorted_drop {L : Cache} (j : Nat) (h : stampSorted L) : stampSorted (L.drop j) :=
  List.Pairwise.sublist (List.drop_sublist j L) h

/-- The first eviction loop on a cache listed by recency removes a prefix of the list, of at
most `k` entries. -/
theorem evictLoop_sorted (ord : Cache → Cache) (clock : Nat) (k : Nat) (c L : Cache)
    (hord : ∀ l, (ord l).Perm l) (hperm : L.Perm c) (hsorted : stampSorted L)
    (hn : keysNodup c) (hs : stampsLe c clock) :
    ∃ j, j ≤ k ∧ (L.drop j).Perm (evictLoop ord clock k c) := by
  induction k generalizing c L with
  | zero => exact ⟨0, le_refl _, by simpa [evictLoop] using hperm⟩
  | succ k ih =>
    obtain ⟨j1, hj1, hp1, -⟩ := evictOne_sorted ord clock c L (hord c) hperm hsorted hn hs
    have hsub := evictOne_sublist ord clock c
    obtain ⟨j2, hj2, hp2⟩ := ih (evictOne ord clock c) (L.drop j1) hp1 (stampSorted_drop j1 hsorted)
      (keysNodup_sublist hsub hn) (stampsLe_sublist hsub hs)
    refine ⟨j1 + j2, by omega, ?_⟩
    rw [List.drop_drop] at hp2
    rw [evictLoop]
    exact hp2

/-- The second eviction loop on a cache listed by recency keeps the last `N` entries. -/
theorem trimLoop_sorted (ord : Cache → Cache) (clock : Nat) (N : Int) (fuel : Nat)
    (c d L : Cache) (hord : ∀ l, (ord l).Perm l) (hperm : L.Perm c) (hsorted : stampSorted L)
    (hn : keysNodup c) (hs : stampsLe c clock) (hN : 1 ≤ N)
    (h : trimLoop ord clock N fuel c = .ok d) :
    (L.drop (L.length - N.toNat)).Perm d := by
  induction fuel generalizing c L with
  | zero => simp [trimLoop] at h
  | succ fuel ih =>
    rw [trimLoop] at h
    have hlen : L.length = c.length := hperm.length_eq
    by_cases hlt : N < (c.length : Int)
    · rw [if_pos hlt] at h
      have hold : ∃ x ∈ c, x.2.lastAccessed < clock := by
        match L, hperm, hsorted, hlen with
        | [], _, _, hlen => simp at hlen; omega
        | [x], _, _, hlen => simp at hlen; omega
        | x :: y :: L', hperm, hsorted, _ =>
          refine ⟨x, hperm.mem_iff.1 (List.mem_cons_self _ _), ?_⟩
          have h1 := (List.pairwise_cons.1 hsorted).1 y (List.mem_cons_self _ _)
          have h2 := hs y (hperm.mem_iff.1 (List.mem_cons_of_mem _ (List.mem_cons_self _ _)))
          simp only at h1
          omega
      obtain ⟨j, -, hp1, hj⟩ := evictOne_sorted ord clock c L (hord c) hperm hsorted hn hs
      rw [hj hold] at hp1
      have hsub := evictOne_sublist ord clock c
      have := ih (evictOne ord clock c) (L.drop 1) hp1 (stampSorted_drop 1 hsorted)
        (keysNodup_sublist hsub hn) (stampsLe_sublist hsub hs) h
      rw [List.drop_drop, List.length_drop] at this
      have e : L.length - 1 - N.toNat + 1 = L.length - N.toNat := by omega
      rw [Nat.add_comm, e] at this
      exact this
    · rw [if_neg hlt] at h
      cases h
      have : L.length - N.toNat = 0 := by omega
      rw [this]
      simpa using hperm
/-! ## C7: single-block reads of distinct blocks -/

/-- A non-empty request inside one block spans exactly that block. -/
theorem single_block_range {σ : Type} (s : ReaderAt σ) (off : Int) (len : Nat)
    (hB : 1 ≤ s.blockSize) (h0 : 0 ≤ off) (hlen : 1 ≤ len)
    (hsingle : off + len ≤ (blockOf s.blockSize off + 1) * s.blockSize) :
    s.startBlock off len = blockOf s.blockSize off ∧
      s.endBlock off len = blockOf s.blockSize off + 1 := by
  obtain ⟨f1, f2, f3, f4, -, f6⟩ := request_range_facts s off len hB h0
  obtain ⟨f7, f8⟩ := f6 (by omega)
  have hsb : s.startBlock off len = blockOf s.blockSize off := by
    unfold ReaderAt.startBlock blockOf
    exact rangeToBlockRange_fst s off _
  rw [hsb] at f2 f3 f4 ⊢
  refine ⟨rfl, ?_⟩
  rw [add_mul, one_mul] at hsingle
  have h1 : ¬ (s.endBlock off len ≤ blockOf s.blockSize off) := by
    intro hc
    have : s.endBlock off len * s.blockSize ≤ blockOf s.blockSize off * s.blockSize :=
      Int.mul_le_mul_of_nonneg_right hc (by omega)
    omega
  have h2 : ¬ (blockOf s.blockSize off + 2 ≤ s.endBlock off len) := by
    intro hc
    have : (blockOf s.blockSize off + 2) * s.blockSize ≤ s.endBlock off len * s.blockSize :=
      Int.mul_le_mul_of_nonneg_right hc (by omega)
    rw [add_mul] at this
    omega
  omega

theorem missingBlocks_single (c : Cache) (b : Int) (h : cacheHas c b = false) :
    missingBlocks c b (b + 1) = [b] := by
  unfold missingBlocks
  rw [blockIndices_cons (by omega), blockIndices_nil (le_refl _)]
  simp [h]

theorem missingRanges_single (c : Cache) (b : Int) (h : cacheHas c b = false) :
    (missingRanges c b (b + 1)).length = 1 := by
  obtain ⟨h1, h2⟩ := missingRanges_spec c b (b + 1)
  rw [missingBlocks_single c b h] at h1
  match hr : missingRanges c b (b + 1), h1, h2 with
  | [], h1, _ => simp [runBlocks] at h1
  | mr :: rest, h1, h2 =>
    have hne := (h2 mr (List.mem_cons_self _ _)).2.1
    have hlen1 : 1 ≤ (blockIndices mr.1 mr.2).length := by
      rw [blockIndices_length]; omega
    rw [runBlocks] at h1
    have hlen := congrArg List.length h1
    rw [List.length_append, List.length_singleton] at hlen
    have hrest : runBlocks rest = [] := List.eq_nil_of_length_eq_zero (by omega)
    have := runBlocks_eq_nil rest (fun m hm => (h2 m (List.mem_cons_of_mem _ hm)).2.1) hrest
    rw [this]
    rfl

theorem cacheHas_of_sublist {c d : Cache} (h : d.Sublist c) (i : Int)
    (hd : cacheHas d i = true) : cacheHas c i = true := by
  rw [cacheHas_iff_mem_keys] at hd ⊢
  exact (h.map Prod.fst).subset hd

/-- A single-block read of a block that is not cached makes exactly one call to the
source. -/
theorem single_missing_fetch (content : List UInt8) (B N : Int) (hB : 1 ≤ B) (hN : 1 ≤ N)
    (s : ReaderAt (List (Int × Nat))) (hinv : StaticInv content B N s) (r : Request)
    (hord : ∀ l, (r.ord l).Perm l) (h0 : 0 ≤ r.off) (hF : r.off ≤ (content.length : Int))
    (hlen : 1 ≤ r.p.length) (hsingle : r.off + r.p.length ≤ (blockOf B r.off + 1) * B)
    (hmiss : cacheHas s.cache (blockOf B r.off) = false) (fuel : Nat)
    (hfuel : N.toNat + r.p.length + 2 ≤ fuel) :
    ∃ out s', s.ReadAt (contentSource content) r.ord fuel r.p r.off = .ok (out, s') ∧
      s'.underlayReqs = s.underlayReqs + 1 := by
  have hsz := hinv.size
  obtain ⟨s', c3, hok, hf⟩ := static_step content B N hB hN s hinv r.ord hord r.p r.off h0 hF
    fuel (by omega)
  have hBe := hinv.blockSize_eq
  obtain ⟨hsb, hse⟩ := single_block_range s r.off r.p.length (by omega) h0 hlen
    (by rw [hBe]; exact hsingle)
  rw [hBe] at hsb hse
  refine ⟨_, s', hok, ?_⟩
  rw [hf.ureqs_eq, hsb, hse, missingRanges_single]
  by_contra hc
  exact Bool.false_ne_true
    (hmiss ▸ cacheHas_of_sublist (makeRoom_sublist r.ord s _ _) _ (by simpa using hc))

theorem makeRoom_cache_single {σ : Type} (ord : Cache → Cache) (s : ReaderAt σ) (b : Int)
    (hmiss : cacheHas s.cache b = false) :
    (s.makeRoom ord b (b + 1)).cache
      = evictLoop ord s.clock ((s.cache.length : Int) + 1 - s.numBlocks).toNat s.cache := by
  unfold ReaderAt.makeRoom countNewBlocks
  have : (blockIndices b (b + 1)).filter (fun i => !cacheHas s.cache i) = [b] :=
    missingBlocks_single s.cache b hmiss
  rw [this]
  rfl

/-- The keys kept after one more single-block read. -/
theorem lru_keys_step (h X : List Int) (b : Int) (n j : Nat) (hn : 1 ≤ n)
    (hX : X = h.drop (h.length - n)) (hj : j ≤ X.length + 1 - n) :
    (X.drop j ++ [b]).drop ((X.length - j + 1) - n) = (h ++ [b]).drop (h.length + 1 - n) := by
  have hXl : X.length = h.length - (h.length - n) := by rw [hX, List.length_drop]
  rcases Nat.lt_or_ge h.length n with hlt | hge
  · have hj0 : j = 0 := by omega
    have e1 : h.length - n = 0 := by omega
    have e2 : X.length - j + 1 - n = 0 := by omega
    have e3 : h.length + 1 - n = 0 := by omega
    rw [e1] at hX
    rw [e2, e3, hj0, hX]
    rfl
  · have e3 : h.length + 1 - n = (h.length - n) + 1 := by omega
    have hX1 : X.drop 1 = h.drop (h.length - n + 1) := by
      rw [hX, List.drop_drop]
    have hR : (h ++ [b]).drop (h.length + 1 - n) = X.drop 1 ++ [b] := by
      rw [e3, List.drop_append_of_le_length (by omega), hX1]
    rw [hR]
    rcases Nat.eq_zero_or_pos j with hj0 | hj0
    · have e2 : X.length - j + 1 - n = 1 := by omega
      rw [e2, hj0, List.drop_zero, List.drop_append_of_le_length (by omega)]
    · have hj1 : j = 1 := by omega
      have e2 : X.length - j + 1 - n = 0 := by omega
      rw [e2, hj1, List.drop_zero]

/-- One single-block read of a new block keeps the cache equal to the last `N` blocks read. -/
theorem lru_step (content : List UInt8) (B N : Int) (hB : 1 ≤ B) (hN : 1 ≤ N) (h : List Int)
    (s : ReaderAt (List (Int × Nat))) (hinv : LruInv content B N h s) (r : Request)
    (hord : ∀ l, (r.ord l).Perm l) (h0 : 0 ≤ r.off) (hF : r.off ≤ (content.length : Int))
    (hlen : 1 ≤ r.p.length) (hsingle : r.off + r.p.length ≤ (blockOf B r.off + 1) * B)
    (hnew : blockOf B r.off ∉ h) (fuel : Nat) (hfuel : N.toNat + r.p.length + 2 ≤ fuel) :
    ∃ out s', s.ReadAt (contentSource content) r.ord fuel r.p r.off = .ok (out, s') ∧
      LruInv content B N (h ++ [blockOf B r.off]) s' := by
  obtain ⟨hst, L, hperm, hsorted, hkeys⟩ := hinv
  have hsz := hst.size
  have hBe := hst.blockSize_eq
  have hNe := hst.numBlocks_eq
  obtain ⟨s', c3, hok, hf⟩ := static_step content B N hB hN s hst r.ord hord r.p r.off h0 hF
    fuel (by omega)
  obtain ⟨hsb, hse⟩ := single_block_range s r.off r.p.length (by omega) h0 hlen
    (by rw [hBe]; exact hsingle)
  rw [hBe] at hsb hse
  obtain ⟨b, hb⟩ : ∃ b, blockOf B r.off = b := ⟨_, rfl⟩
  rw [hb] at hsb hse hnew ⊢
  have hLlen : L.length = s.cache.length := hperm.length_eq
  have hbL : b ∉ L.map Prod.fst := by
    rw [hkeys]
    exact fun hc => hnew (List.mem_of_mem_drop hc)
  have hmiss : cacheHas s.cache b = false := by
    by_contra hc
    have hc' : cacheHas s.cache b = true := by simpa using hc
    rw [cacheHas_iff_mem_keys] at hc'
    exact hbL ((hperm.map Prod.fst).mem_iff.2 hc')
  -- the first eviction loop removes a prefix of the list
  have hr1 := makeRoom_cache_single r.ord s b hmiss
  obtain ⟨j, hj, hp1⟩ := evictLoop_sorted r.ord s.clock
    ((s.cache.length : Int) + 1 - s.numBlocks).toNat s.cache L hord hperm hsorted hst.nodup
    hst.stamps
  rw [← hr1] at hp1
  have hsub := makeRoom_sublist r.ord s b (b + 1)
  have hnd1 := keysNodup_sublist hsub hst.nodup
  -- the cache before the second eviction loop, listed by recency
  have htouched := hf.touched
  rw [hsb, hse] at htouched
  have hbdrop : ∀ x ∈ L.drop j, x.1 ≠ b := by
    intro x hx hc
    exact hbL (hc ▸ List.mem_map_of_mem Prod.fst (List.mem_of_mem_drop hx))
  obtain ⟨eb, heb⟩ : ∃ eb : cacheEntry,
      eb = { lastAccessed := s.clock + 1, data := blockData content B b } := ⟨_, rfl⟩
  have hL3 : (L.drop j ++ [(b, eb)]).Perm c3 := by
    apply (List.perm_ext_iff_of_nodup ?_ (keysNodup_nodup hf.touched_nodup)).2
    · intro x
      rw [List.mem_append, List.mem_singleton]
      constructor
      · rintro (hx | hx)
        · have h1 := cacheGet_of_mem hnd1 (hp1.mem_iff.1 hx)
          have h2 := htouched x.1
          rw [if_neg (by have := hbdrop x hx; omega), h1] at h2
          exact mem_of_cacheGet h2
        · have h2 := htouched b
          rw [if_pos (by omega)] at h2
          rw [hx, heb]
          have e : (b - b).toNat = 0 := by omega
          rw [e] at h2
          exact mem_of_cacheGet h2
      · intro hx
        have h1 := cacheGet_of_mem hf.touched_nodup hx
        rw [htouched x.1] at h1
        by_cases hxb : b ≤ x.1 ∧ x.1 < b + 1
        · rw [if_pos hxb] at h1
          right
          have e1 : x.1 = b := by omega
          have e : (x.1 - b).toNat = 0 := by omega
          rw [e] at h1
          exact Prod.ext e1 (by rw [← Option.some.inj h1, e1, heb])
        · rw [if_neg hxb] at h1
          left
          exact hp1.mem_iff.2 (mem_of_cacheGet h1)
    · rw [List.nodup_append]
      refine ⟨(keysNodup_nodup (keysNodup_perm hp1 hnd1)), List.nodup_singleton _, ?_⟩
      intro x hx1 hx2
      rw [List.mem_singleton] at hx2
      exact hbdrop x hx1 (by rw [hx2])
  have hstL : stampsLe L s.clock := stampsLe_perm hperm hst.stamps
  have hsorted3 : stampSorted (L.drop j ++ [(b, eb)]) := by
    unfold stampSorted
    rw [List.pairwise_append]
    refine ⟨stampSorted_drop j hsorted, List.pairwise_singleton _ _, ?_⟩
    intro x hx y hy
    rw [List.mem_singleton] at hy
    rw [hy, heb]
    have := hstL x (List.mem_of_mem_drop hx)
    simp only
    omega
  have hclock : s'.clock = s.clock + 1 := by
    rw [hf.clock_eq, hsb, hse]
    have : (b + 1 - b).toNat = 1 := by omega
    rw [this]
  have hst3 : stampsLe c3 s'.clock := by
    intro kv hkv
    rw [hclock]
    rcases List.mem_append.1 (hL3.mem_iff.2 hkv) with hx | hx
    · have := hstL kv (List.mem_of_mem_drop hx)
      omega
    · rw [List.mem_singleton] at hx
      rw [hx, heb]
  have hfinal := trimLoop_sorted r.ord s'.clock N fuel c3 s'.cache _ hord hL3 hsorted3
    hf.touched_nodup hst3 hN hf.trim
  refine ⟨_, s', hok, hf.inv, _, hfinal, stampSorted_drop _ hsorted3, ?_⟩
  rw [List.map_drop, List.map_append, List.map_drop, List.length_append, List.length_drop,
    List.length_singleton, List.map_cons, List.map_nil, List.length_append,
    List.length_singleton]
  have hLl : L.length = (L.map Prod.fst).length := by rw [List.length_map]
  rw [hLl]
  apply lru_keys_step h _ b N.toNat j (by omega) hkeys
  rw [← hLl, hLlen]
  rw [hNe] at hj
  omega

theorem readAll_cons_ok {σ : Type} (U : Underlying σ) (fuel : Nat) (s s1 : ReaderAt σ)
    (r : Request) (rest : List Request) (out : ReadResult)
    (h : s.ReadAt U r.ord fuel r.p r.off = .ok (out, s1)) :
    readAll U fuel s (r :: rest) = readAll U fuel s1 rest := by
  rw [readAll, h]

/-- Single-block reads of pairwise distinct blocks, all new, keep the cache equal to the
last `N` blocks read. -/
theorem lru_readAll (content : List UInt8) (B N : Int) (hB : 1 ≤ B) (hN : 1 ≤ N) (fuel : Nat)
    (reads : List Request) (h : List Int) (s : ReaderAt (List (Int × Nat)))
    (hinv : LruInv content B N h s)
    (hreads : ∀ r ∈ reads, r.singleBlock content.length B N fuel)
    (hdist : (h ++ reads.map (fun r => blockOf B r.off)).Nodup) :
    ∃ s', readAll (contentSource content) fuel s reads = .ok s' ∧
      LruInv content B N (h ++ reads.map (fun r => blockOf B r.off)) s' := by
  induction reads generalizing h s with
  | nil => exact ⟨s, rfl, by simpa using hinv⟩
  | cons r rest ih =>
    obtain ⟨hord, h0, hF, hlen, hsingle, hfuel⟩ := hreads r (List.mem_cons_self _ _)
    have hnew : blockOf B r.off ∉ h := by
      intro hc
      rw [List.map_cons, List.nodup_append] at hdist
      exact hdist.2.2 hc (List.mem_cons_self _ _)
    obtain ⟨out, s1, hok, hinv1⟩ := lru_step content B N hB hN h s hinv r hord h0 hF hlen
      hsingle hnew fuel hfuel
    have hdist1 : ((h ++ [blockOf B r.off]) ++ rest.map (fun r => blockOf B r.off)).Nodup := by
      rw [List.append_assoc]
      exact hdist
    obtain ⟨s', h1, h2⟩ := ih (h ++ [blockOf B r.off]) s1 hinv1
      (fun x hx => hreads x (List.mem_cons_of_mem _ hx)) hdist1
    refine ⟨s', by rw [readAll_cons_ok _ _ _ _ _ _ _ hok]; exact h1, ?_⟩
    rw [List.append_assoc] at h2
    exact h2

/-- C7: with `B ≥ 1` and `N ≥ 1`, over static content, starting from an empty cache, a
sequence of single-block reads of pairwise distinct blocks `b1, ..., bk` returns, and then the
cached block indices are exactly the last `min(k, N)` of them; when `k > N`, reading the first
request again makes one new call to the source. -/
theorem lru_retention (content : List UInt8) (B N : Int) (hB : 1 ≤ B) (hN : 1 ≤ N)
    (fuel : Nat) (reads : List Request)
    (hreads : ∀ r ∈ reads, r.singleBlock content.length B N fuel)
    (hdist : (reads.map (fun r => blockOf B r.off)).Nodup) :
    ∃ s, readAll (contentSource content) fuel (New [] B N) reads = .ok s ∧
      (∀ i, cacheHas s.cache i = true ↔
        i ∈ (reads.map (fun r => blockOf B r.off)).drop (reads.length - N.toNat)) ∧
      s.cache.length = min reads.length N.toNat ∧
      (∀ r0 rest, reads = r0 :: rest → N.toNat < reads.length →
        ∃ out s', s.ReadAt (contentSource content) r0.ord fuel r0.p r0.off = .ok (out, s') ∧
          s'.underlayReqs = s.underlayReqs + 1) := by
  have hinit : LruInv content B N [] (New [] B N) :=
    ⟨staticInv_New content B N (by omega), [], List.Perm.refl _, List.Pairwise.nil, by simp⟩
  obtain ⟨s, hok, hst, L, hperm, -, hkeys⟩ := lru_readAll content B N hB hN fuel reads []
    (New [] B N) hinit hreads (by simpa using hdist)
  rw [List.nil_append, List.length_map] at hkeys
  have hhas : ∀ i, cacheHas s.cache i = true ↔
      i ∈ (reads.map (fun r => blockOf B r.off)).drop (reads.length - N.toNat) := by
    intro i
    rw [cacheHas_iff_mem_keys, ← hkeys]
    exact ((hperm.map Prod.fst).mem_iff).symm
  refine ⟨s, hok, hhas, ?_, ?_⟩
  · rw [← hperm.length_eq, ← List.length_map L Prod.fst, hkeys, List.length_drop,
      List.length_map]
    omega
  · intro r0 rest hr hk
    obtain ⟨hord, h0, hF, hlen, hsingle, hfuel⟩ := hreads r0 (by rw [hr]; exact List.mem_cons_self _ _)
    apply single_missing_fetch content B N hB hN s hst r0 hord h0 hF hlen hsingle _ fuel hfuel
    by_contra hc
    have hc' : cacheHas s.cache (blockOf B r0.off) = true := by simpa using hc
    rw [hhas] at hc'
    subst hr
    rw [List.map_cons, List.nodup_cons] at hdist
    have e : (r0 :: rest).length - N.toNat = (rest.length - N.toNat) + 1 := by
      rw [List.length_cons] at hk ⊢
      omega
    rw [e, List.map_cons, List.drop_succ_cons] at hc'
    exact hdist.1 (List.mem_of_mem_drop hc')

theorem longContent_length : longContent.length = 256 :=
  List.length_replicate _ _

/-- Witness of C7: `B = 4`, `N = 2`, reads of 2 bytes at offsets 0, 100, 200 of 256 bytes of
content (blocks 0, 25, 50), then offset 0 again. -/
theorem lru_retention_witness :
    (1 : Int) ≤ 4 ∧ (1 : Int) ≤ 2 ∧
    ∃ s, readAll (contentSource longContent) 6 (New [] 4 2)
        [{ ord := id, p := [0, 0], off := 0 }, { ord := id, p := [0, 0], off := 100 },
         { ord := id, p := [0, 0], off := 200 }] = .ok s ∧
      (∀ i, cacheHas s.cache i = true ↔
        i ∈ (([{ ord := id, p := [0, 0], off := 0 }, { ord := id, p := [0, 0], off := 100 },
              { ord := id, p := [0, 0], off := 200 }] : List Request).map
            (fun r => blockOf 4 r.off)).drop
          (([{ ord := id, p := [0, 0], off := 0 }, { ord := id, p := [0, 0], off := 100 },
              { ord := id, p := [0, 0], off := 200 }] : List Request).length - (2 : Int).toNat)) ∧
      s.cache.length
        = min ([{ ord := id, p := [0, 0], off := 0 }, { ord := id, p := [0, 0], off := 100 },
              { ord := id, p := [0, 0], off := 200 }] : List Request).length (2 : Int).toNat ∧
      (∀ r0 rest,
        ([{ ord := id, p := [0, 0], off := 0 }, { ord := id, p := [0, 0], off := 100 },
          { ord := id, p := [0, 0], off := 200 }] : List Request) = r0 :: rest →
        (2 : Int).toNat
          < ([{ ord := id, p := [0, 0], off := 0 }, { ord := id, p := [0, 0], off := 100 },
              { ord := id, p := [0, 0], off := 200 }] : List Request).length →
        ∃ out s', s.ReadAt (contentSource longContent) r0.ord 6 r0.p r0.off = .ok (out, s') ∧
          s'.underlayReqs = s.underlayReqs + 1) :=
  ⟨by decide, by decide,
    lru_retention longContent 4 2 (by decide) (by decide) 6
      [{ ord := id, p := [0, 0], off := 0 }, { ord := id, p := [0, 0], off := 100 },
       { ord := id, p := [0, 0], off := 200 }]
      (fun r hr => by
        simp only [List.mem_cons, List.mem_singleton, List.not_mem_nil, or_false] at hr
        rcases hr with rfl | rfl | rfl <;>
          exact ⟨fun l => List.Perm.refl l, by decide, by rw [longContent_length]; decide,
            by decide, by decide, by decide⟩)
      (by decide)⟩
/-! ## C8: a scan with non-decreasing offsets -/

theorem fetchedBlocks_append (B : Int) (a b : List (Int × Nat)) :
    fetchedBlocks B (a ++ b) = fetchedBlocks B a ++ fetchedBlocks B b := by
  induction a with
  | nil => rfl
  | cons c rest ih => simp [fetchedBlocks, ih]

theorem mul_lt_mul_cancel {x y B : Int} (hB : 1 ≤ B) (h : x * B < y * B) : x < y := by
  by_contra hc
  have : y * B ≤ x * B := Int.mul_le_mul_of_nonneg_right (by omega) (by omega)
  omega

/-- The blocks asked by the calls of the fetch loop are the blocks of its runs. -/
theorem fetchedBlocks_runCalls (B : Int) (hB : 1 ≤ B) (runs : List (Int × Int))
    (hruns : ∀ mr ∈ runs, 0 ≤ mr.1 ∧ mr.1 < mr.2) :
    fetchedBlocks B (runCalls B runs) = runBlocks runs := by
  induction runs with
  | nil => rfl
  | cons mr rest ih =>
    obtain ⟨hge, hlt⟩ := hruns mr (List.mem_cons_self _ _)
    rw [runCalls, List.map_cons, fetchedBlocks, runBlocks]
    have h1 : (mr.1 * B).tdiv B = mr.1 := Int.mul_tdiv_cancel _ (by omega)
    have hnn : 0 ≤ (mr.2 - mr.1) * B := Int.mul_nonneg (by omega) (by omega)
    have h2 : (mr.1 * B + (((mr.2 - mr.1) * B).toNat : Int) + B - 1).tdiv B = mr.2 := by
      rw [Int.toNat_of_nonneg hnn]
      have e : mr.1 * B + (mr.2 - mr.1) * B + B - 1 = mr.2 * B + (B - 1) := by ring
      rw [e]
      have hpos : 0 ≤ mr.2 * B := Int.mul_nonneg (by omega) (by omega)
      obtain ⟨q1, q2, q3, -⟩ := tdiv_tmod_facts (mr.2 * B + (B - 1)) B (by omega) (by omega)
      have a1 : (mr.2 * B + (B - 1)).tdiv B * B < (mr.2 + 1) * B := by
        rw [add_mul, one_mul]; omega
      have a2 : mr.2 * B < ((mr.2 * B + (B - 1)).tdiv B + 1) * B := by
        rw [add_mul, one_mul]; omega
      have := mul_lt_mul_cancel hB a1
      have := mul_lt_mul_cancel hB a2
      omega
    dsimp only
    rw [h1, h2]
    congr 1
    exact ih (fun m hm => hruns m (List.mem_cons_of_mem _ hm))

/-- A list sorted by block index splits at any index into the entries below it and the
others. -/
theorem keySorted_partition (L : Cache) (hk : keySorted L) (t : Int) :
    L = L.filter (fun x => decide (x.1 < t)) ++ L.filter (fun x => !decide (x.1 < t)) := by
  induction L with
  | nil => rfl
  | cons x rest ih =>
    unfold keySorted at hk
    rw [List.pairwise_cons] at hk
    by_cases hx : x.1 < t
    · rw [List.filter_cons_of_pos (by simpa using hx),
        List.filter_cons_of_neg (by simpa using hx), List.cons_append, ← ih hk.2]
    · have h1 : rest.filter (fun x => decide (x.1 < t)) = [] := by
        rw [List.filter_eq_nil_iff]
        intro y hy
        have := hk.1 y hy
        simp only [decide_eq_true_eq]
        omega
      have h2 : rest.filter (fun x => !decide (x.1 < t)) = rest := by
        rw [List.filter_eq_self]
        intro y hy
        have := hk.1 y hy
        simp only [Bool.not_eq_true', decide_eq_false_iff_not]
        omega
      rw [List.filter_cons_of_neg (by simpa using hx),
        List.filter_cons_of_pos (by simpa using hx), h1, h2]
      rfl

/-- With non-decreasing offsets and a fixed length, the block ranges move forward. -/
theorem window_mono {σ : Type} (s : ReaderAt σ) (o1 o2 : Int) (len : Nat)
    (hB : 1 ≤ s.blockSize) (h1 : 0 ≤ o1) (h12 : o1 ≤ o2) :
    s.startBlock o1 len ≤ s.startBlock o2 len ∧ s.endBlock o1 len ≤ s.endBlock o2 len := by
  obtain ⟨-, -, a3, a4, a5, a6⟩ := request_range_facts s o1 len hB h1
  obtain ⟨-, -, b3, b4, b5, b6⟩ := request_range_facts s o2 len hB (by omega)
  have hs : s.startBlock o1 len ≤ s.startBlock o2 len := by
    have : s.startBlock o1 len * s.blockSize < (s.startBlock o2 len + 1) * s.blockSize := by
      rw [add_mul, one_mul]; omega
    have := mul_lt_mul_cancel hB this
    omega
  refine ⟨hs, ?_⟩
  rcases Nat.eq_zero_or_pos len with h | h
  · rw [a5 h, b5 h]; exact hs
  · obtain ⟨a7, a8⟩ := a6 h
    obtain ⟨b7, b8⟩ := b6 h
    have : s.endBlock o1 len * s.blockSize < (s.endBlock o2 len + 1) * s.blockSize := by
      rw [add_mul, one_mul]; omega
    have := mul_lt_mul_cancel hB this
    omega

/-- A request of `len` bytes spans at most `⌈len / B⌉ + 1` blocks. -/
theorem request_span_le {σ : Type} (s : ReaderAt σ) (off : Int) (len : Nat)
    (hB : 1 ≤ s.blockSize) (h0 : 0 ≤ off) :
    s.endBlock off len - s.startBlock off len ≤ ⌈(len : ℚ) / (s.blockSize : ℚ)⌉ + 1 := by
  obtain ⟨f1, f2, f3, f4, f5, f6⟩ := request_range_facts s off len hB h0
  have hbq : (0 : ℚ) < (s.blockSize : ℚ) := by exact_mod_cast (by omega : 0 < s.blockSize)
  have hceil0 : 0 ≤ ⌈(len : ℚ) / (s.blockSize : ℚ)⌉ := by
    apply Int.ceil_nonneg
    positivity
  rcases Nat.eq_zero_or_pos len with h | h
  · rw [f5 h]; omega
  · obtain ⟨f7, f8⟩ := f6 h
    have hlt : (s.endBlock off len - s.startBlock off len - 2) * s.blockSize < (len : Int) := by
      rw [sub_mul, sub_mul]; omega
    have hq : ((s.endBlock off len - s.startBlock off len - 2 : Int) : ℚ)
        < (len : ℚ) / (s.blockSize : ℚ) := by
      rw [lt_div_iff₀ hbq]
      exact_mod_cast hlt
    have := Int.lt_ceil.2 hq
    omega

theorem blockIndices_pairwise (s e : Int) : (blockIndices s e).Pairwise (fun i j => i < j) := by
  unfold blockIndices
  rw [List.pairwise_map]
  exact List.Pairwise.imp (fun h => by omega) (List.pairwise_lt_range _)

theorem keySorted_sublist {L M : Cache} (h : M.Sublist L) (hk : keySorted L) : keySorted M :=
  List.Pairwise.sublist h hk

theorem stampSorted_sublist {L M : Cache} (h : M.Sublist L) (hk : stampSorted L) :
    stampSorted M :=
  List.Pairwise.sublist h hk

theorem makeRoom_cache {σ : Type} (ord : Cache → Cache) (s : ReaderAt σ) (bs be : Int) :
    (s.makeRoom ord bs be).cache
      = evictLoop ord s.clock
          ((s.cache.length : Int) + ((missingBlocks s.cache bs be).length : Int)
            - s.numBlocks).toNat s.cache := rfl

/-- The touched entries of the blocks of a request, in index order. -/
theorem window_entries_sorted (content : List UInt8) (B : Int) (clock : Nat) (bs be : Int) :
    stampSorted ((blockIndices bs be).map (fun i =>
        (i, ({ lastAccessed := clock + (i - bs).toNat + 1,
               data := blockData content B i } : cacheEntry)))) ∧
      keySorted ((blockIndices bs be).map (fun i =>
        (i, ({ lastAccessed := clock + (i - bs).toNat + 1,
               data := blockData content B i } : cacheEntry)))) := by
  have h := (List.Pairwise.and_mem).1 (blockIndices_pairwise bs be)
  unfold stampSorted keySorted
  rw [List.pairwise_map, List.pairwise_map]
  constructor
  · refine List.Pairwise.imp ?_ h
    rintro i k ⟨hi, hk, hik⟩
    rw [mem_blockIndices] at hi hk
    simp only
    omega
  · refine List.Pairwise.imp ?_ h
    rintro i k ⟨-, -, hik⟩
    exact hik

/-- One request of a forward scan: no cached block of the request is evicted before the
fetch, only blocks above every block asked so far are asked from the source, and the blocks
of the request stay cached. -/
theorem scan_step (content : List UInt8) (B N : Int) (hB : 1 ≤ B) (hN : 1 ≤ N) (ps pe : Int)
    (s : ReaderAt (List (Int × Nat))) (hinv : ScanInv content B N ps pe s) (r : Request)
    (hord : ∀ l, (r.ord l).Perm l) (h0 : 0 ≤ r.off) (hF : r.off ≤ (content.length : Int))
    (fuel : Nat) (hfuel : N.toNat + r.p.length + 2 ≤ fuel)
    (hps : ps ≤ s.startBlock r.off r.p.length) (hpe : pe ≤ s.endBlock r.off r.p.length)
    (hspan : s.endBlock r.off r.p.length - s.startBlock r.off r.p.length ≤ N) :
    ∃ out s', s.ReadAt (contentSource content) r.ord fuel r.p r.off = .ok (out, s') ∧
      ScanInv content B N (s.startBlock r.off r.p.length) (s.endBlock r.off r.p.length) s' ∧
      (∀ i ∈ fetchedBlocks B s.underlying, i ∈ fetchedBlocks B s'.underlying) ∧
      (∀ i, s.startBlock r.off r.p.length ≤ i → i < s.endBlock r.off r.p.length →
        i ∈ fetchedBlocks B s'.underlying) := by
  obtain ⟨hst, ⟨L, hperm, hsorted, hksorted⟩, hwin, hbelow, hasked, honce, hrange, hbytes,
    hb0, hb1⟩ := hinv
  have hsz := hst.size
  have hBe := hst.blockSize_eq
  have hNe := hst.numBlocks_eq
  obtain ⟨f1, f2, -, -, -, -⟩ := request_range_facts s r.off r.p.length (by omega) h0
  obtain ⟨s', c3, hok, hf⟩ := static_step content B N hB hN s hst r.ord hord r.p r.off h0 hF
    fuel (by omega)
  have htouched := hf.touched
  have hclock := hf.clock_eq
  have hcalls := hf.calls_eq
  have hubytes := hf.ubytes_eq
  have htrim := hf.trim
  have hnd3 := hf.touched_nodup
  have hinv' := hf.inv
  have hr1 := makeRoom_cache r.ord s (s.startBlock r.off r.p.length)
    (s.endBlock r.off r.p.length)
  have hsub := makeRoom_sublist r.ord s (s.startBlock r.off r.p.length)
    (s.endBlock r.off r.p.length)
  obtain ⟨hruns1, hruns2⟩ := missingRanges_spec
    (s.makeRoom r.ord (s.startBlock r.off r.p.length) (s.endBlock r.off r.p.length)).cache
    (s.startBlock r.off r.p.length) (s.endBlock r.off r.p.length)
  generalize s.makeRoom r.ord (s.startBlock r.off r.p.length) (s.endBlock r.off r.p.length)
    = r1 at htouched hcalls hubytes hr1 hsub hruns1 hruns2
  generalize s.startBlock r.off r.p.length = bs at *
  generalize s.endBlock r.off r.p.length = be at *
  clear hf
  have hnd := hst.nodup
  have hndL : keysNodup L := keysNodup_perm hperm hnd
  have hstL : stampsLe L s.clock := stampsLe_perm hperm hst.stamps
  -- the list splits into the entries below the request and the cached blocks of the request
  have hLsplit := keySorted_partition L hksorted bs
  obtain ⟨A, hA⟩ : ∃ A, A = L.filter (fun x => decide (x.1 < bs)) := ⟨_, rfl⟩
  obtain ⟨Bw, hBw⟩ : ∃ Bw, Bw = L.filter (fun x => !decide (x.1 < bs)) := ⟨_, rfl⟩
  rw [← hA, ← hBw] at hLsplit
  have hAlt : ∀ x ∈ A, x.1 < bs := by
    intro x hx
    rw [hA, List.mem_filter] at hx
    simpa using hx.2
  have hAL : A.Sublist L := by rw [hA]; exact List.filter_sublist _
  have hBwL : Bw.Sublist L := by rw [hBw]; exact List.filter_sublist _
  have hBwin : ∀ x ∈ Bw, bs ≤ x.1 ∧ x.1 < pe := by
    intro x hx
    have h1 := hbelow x (hperm.mem_iff.1 (hBwL.subset hx))
    rw [hBw, List.mem_filter] at hx
    have h2 := hx.2
    simp only [Bool.not_eq_true', decide_eq_false_iff_not] at h2
    omega
  have hmemBw : ∀ i e, (i, e) ∈ s.cache → bs ≤ i → (i, e) ∈ Bw := by
    intro i e hie hi
    rw [hBw, List.mem_filter]
    refine ⟨hperm.mem_iff.2 hie, ?_⟩
    simp only [Bool.not_eq_true', decide_eq_false_iff_not]
    omega
  -- counting: the cached and the missing blocks of the request
  have hcount : Bw.length + (missingBlocks s.cache bs be).length = (be - bs).toNat := by
    have hp : (Bw.map Prod.fst ++ missingBlocks s.cache bs be).Perm (blockIndices bs be) := by
      apply (List.perm_ext_iff_of_nodup ?_ (blockIndices_nodup bs be)).2
      · intro i
        rw [List.mem_append, mem_blockIndices, mem_missingBlocks]
        constructor
        · rintro (hi | hi)
          · obtain ⟨x, hx, rfl⟩ := List.mem_map.1 hi
            have := hBwin x hx
            omega
          · exact hi.1
        · intro hi
          by_cases hc : cacheHas s.cache i = true
          · left
            obtain ⟨e, he⟩ := (cacheHas_iff _ _).1 hc
            exact List.mem_map.2 ⟨(i, e), hmemBw i e (mem_of_cacheGet he) hi.1, rfl⟩
          · right
            exact ⟨hi, by simpa using hc⟩
      · rw [List.nodup_append]
        refine ⟨List.Nodup.sublist (hBwL.map Prod.fst) hndL, missingBlocks_nodup _ _ _, ?_⟩
        intro i hi1 hi2
        obtain ⟨x, hx, rfl⟩ := List.mem_map.1 hi1
        have h1 := (mem_missingBlocks.1 hi2).2
        have h2 : cacheHas s.cache x.1 = true := by
          rw [cacheHas_iff_mem_keys]
          exact List.mem_map_of_mem Prod.fst (hperm.mem_iff.1 (hBwL.subset hx))
        rw [h1] at h2
        exact Bool.false_ne_true h2
    have := hp.length_eq
    rw [List.length_append, List.length_map, blockIndices_length] at this
    exact this
  have hlenL : s.cache.length = A.length + Bw.length := by
    rw [← hperm.length_eq, hLsplit, List.length_append]
  -- the first eviction loop removes entries below the request only
  obtain ⟨j, hj, hp1⟩ := evictLoop_sorted r.ord s.clock
    ((s.cache.length : Int) + ((missingBlocks s.cache bs be).length : Int)
      - s.numBlocks).toNat s.cache L hord hperm hsorted hnd hst.stamps
  rw [← hr1] at hp1
  have hjA : j ≤ A.length := by
    rw [hNe] at hj
    omega
  have hdrop : L.drop j = A.drop j ++ Bw := by
    rw [hLsplit, List.drop_append_of_le_length hjA]
  rw [hdrop] at hp1
  have hnd1 := keysNodup_sublist hsub hnd
  have hhas1 : ∀ i, bs ≤ i → cacheHas r1.cache i = cacheHas s.cache i := by
    intro i hi
    by_cases hc : cacheHas s.cache i = true
    · rw [hc]
      obtain ⟨e, he⟩ := (cacheHas_iff _ _).1 hc
      rw [cacheHas_iff_mem_keys]
      exact List.mem_map.2 ⟨(i, e), hp1.mem_iff.1
        (List.mem_append_right _ (hmemBw i e (mem_of_cacheGet he) hi)), rfl⟩
    · have hc' : cacheHas s.cache i = false := by simpa using hc
      rw [hc']
      by_contra h1
      exact hc (cacheHas_of_sublist hsub i (by simpa using h1))
  have hmiss1 : missingBlocks r1.cache bs be = missingBlocks s.cache bs be := by
    unfold missingBlocks
    apply List.filter_congr
    intro i hi
    rw [mem_blockIndices] at hi
    rw [hhas1 i hi.1]
  rw [hmiss1] at hruns1 hubytes
  have hmissge : ∀ i ∈ missingBlocks s.cache bs be, pe ≤ i := by
    intro i hi
    rw [mem_missingBlocks] at hi
    by_contra hc
    have := hwin i (by omega) (by omega)
    rw [hi.2] at this
    exact Bool.false_ne_true this
  have hfetched : fetchedBlocks B s'.underlying
      = fetchedBlocks B s.underlying ++ missingBlocks s.cache bs be := by
    rw [hcalls, fetchedBlocks_append,
      fetchedBlocks_runCalls B hB _
        (fun mr hmr => ⟨by have := (hruns2 mr hmr).1; omega, (hruns2 mr hmr).2.1⟩), hruns1]
  -- the cache before the second eviction loop, listed by recency and by index
  obtain ⟨W, hW⟩ : ∃ W : Cache, W = (blockIndices bs be).map (fun i =>
      (i, ({ lastAccessed := s.clock + (i - bs).toNat + 1,
             data := blockData content B i } : cacheEntry))) := ⟨_, rfl⟩
  have hWmem : ∀ x, x ∈ W ↔ (bs ≤ x.1 ∧ x.1 < be) ∧
      x.2 = { lastAccessed := s.clock + (x.1 - bs).toNat + 1,
              data := blockData content B x.1 } := by
    intro x
    rw [hW, List.mem_map]
    constructor
    · rintro ⟨i, hi, rfl⟩
      exact ⟨mem_blockIndices.1 hi, rfl⟩
    · rintro ⟨h1, h2⟩
      exact ⟨x.1, mem_blockIndices.2 h1, Prod.ext rfl h2.symm⟩
  have hWlen : W.length = (be - bs).toNat := by
    rw [hW, List.length_map, blockIndices_length]
  have hndAj : (A.drop j).Nodup :=
    List.Nodup.sublist ((List.drop_sublist j A).trans hAL) (keysNodup_nodup hndL)
  have hL3 : (A.drop j ++ W).Perm c3 := by
    apply (List.perm_ext_iff_of_nodup ?_ (keysNodup_nodup hnd3)).2
    · intro x
      rw [List.mem_append]
      constructor
      · rintro (hx | hx)
        · have hlt := hAlt x (List.mem_of_mem_drop hx)
          have h1 := cacheGet_of_mem hnd1 (hp1.mem_iff.1 (List.mem_append_left _ hx))
          have h2 := htouched x.1
          rw [if_neg (by omega), h1] at h2
          exact mem_of_cacheGet h2
        · obtain ⟨h1, h2⟩ := (hWmem x).1 hx
          have h3 := htouched x.1
          rw [if_pos h1, ← h2] at h3
          exact mem_of_cacheGet h3
      · intro hx
        have h1 := cacheGet_of_mem hnd3 hx
        rw [htouched x.1] at h1
        by_cases hin : bs ≤ x.1 ∧ x.1 < be
        · rw [if_pos hin] at h1
          right
          exact (hWmem x).2 ⟨hin, (Option.some.inj h1).symm⟩
        · rw [if_neg hin] at h1
          left
          rcases List.mem_append.1 (hp1.mem_iff.2 (mem_of_cacheGet h1)) with h2 | h2
          · exact h2
          · exfalso
            have := hBwin x h2
            omega
    · rw [List.nodup_append]
      refine ⟨hndAj, ?_, ?_⟩
      · rw [hW]
        apply List.Nodup.map _ (blockIndices_nodup bs be)
        intro a b hab
        exact congrArg Prod.fst hab
      · intro x hx1 hx2
        have h1 := hAlt x (List.mem_of_mem_drop hx1)
        have h2 := ((hWmem x).1 hx2).1
        omega
  obtain ⟨hWs, hWk⟩ := window_entries_sorted content B s.clock bs be
  rw [← hW] at hWs hWk
  have hAjL : (A.drop j).Sublist L := (List.drop_sublist j A).trans hAL
  have hsorted3 : stampSorted (A.drop j ++ W) := by
    unfold stampSorted
    rw [List.pairwise_append]
    refine ⟨stampSorted_sublist hAjL hsorted, hWs, ?_⟩
    intro x hx y hy
    have h1 := hstL x (hAjL.subset hx)
    have h2 := ((hWmem y).1 hy).2
    rw [h2]
    simp only
    omega
  have hksorted3 : keySorted (A.drop j ++ W) := by
    unfold keySorted
    rw [List.pairwise_append]
    refine ⟨keySorted_sublist hAjL hksorted, hWk, ?_⟩
    intro x hx y hy
    have h1 := hAlt x (List.mem_of_mem_drop hx)
    have h2 := ((hWmem y).1 hy).1
    omega
  have hst3 : stampsLe c3 s'.clock := by
    intro kv hkv
    rw [hclock]
    rcases List.mem_append.1 (hL3.mem_iff.2 hkv) with hx | hx
    · have := hstL kv (hAjL.subset hx)
      omega
    · obtain ⟨h1, h2⟩ := (hWmem kv).1 hx
      rw [h2]
      simp only
      omega
  have hfinal := trimLoop_sorted r.ord s'.clock N fuel c3 s'.cache _ hord hL3 hsorted3
    hnd3 hst3 hN htrim
  have hd : (A.drop j ++ W).length - N.toNat ≤ (A.drop j).length := by
    rw [List.length_append, hWlen]
    omega
  rw [List.drop_append_of_le_length hd] at hfinal
  have hdropsub : (((A.drop j).drop ((A.drop j ++ W).length - N.toNat)) ++ W).Sublist
      (A.drop j ++ W) := List.Sublist.append (List.drop_sublist _ _) (List.Sublist.refl _)
  have hmem' : ∀ x ∈ s'.cache, (x ∈ s.cache ∧ x.1 < bs) ∨ x ∈ W := by
    intro x hx
    rcases List.mem_append.1 (hfinal.mem_iff.2 hx) with h1 | h1
    · left
      have h2 := List.mem_of_mem_drop h1
      exact ⟨hperm.mem_iff.1 (hAjL.subset h2), hAlt x (List.mem_of_mem_drop h2)⟩
    · right
      exact h1
  have hwinasked : ∀ i, bs ≤ i → i < be → i ∈ fetchedBlocks B s'.underlying := by
    intro i hi1 hi2
    rw [hfetched, List.mem_append]
    by_cases hc : cacheHas s.cache i = true
    · left
      obtain ⟨e, he⟩ := (cacheHas_iff _ _).1 hc
      exact hasked (i, e) (mem_of_cacheGet he)
    · right
      exact mem_missingBlocks.2 ⟨⟨hi1, hi2⟩, by simpa using hc⟩
  refine ⟨_, s', hok, ⟨hinv', ⟨_, hfinal, stampSorted_sublist hdropsub hsorted3,
    keySorted_sublist hdropsub hksorted3⟩, ?_, ?_, ?_, ?_, ?_, ?_, ⟨f1, f2⟩⟩, ?_, hwinasked⟩
  · intro i hi1 hi2
    rw [cacheHas_iff_mem_keys]
    refine List.mem_map.2 ⟨(i, ⟨s.clock + (i - bs).toNat + 1, blockData content B i⟩),
      hfinal.mem_iff.1 (List.mem_append_right _ ?_), rfl⟩
    exact (hWmem _).2 ⟨⟨hi1, hi2⟩, rfl⟩
  · intro kv hkv
    rcases hmem' kv hkv with h1 | h1
    · omega
    · exact ((hWmem kv).1 h1).1.2
  · intro kv hkv
    rcases hmem' kv hkv with h1 | h1
    · rw [hfetched]
      exact List.mem_append_left _ (hasked kv h1.1)
    · exact hwinasked kv.1 ((hWmem kv).1 h1).1.1 ((hWmem kv).1 h1).1.2
  · rw [hfetched, List.nodup_append]
    refine ⟨honce, missingBlocks_nodup _ _ _, ?_⟩
    intro i hi1 hi2
    have h1 := (hrange i hi1).2
    have h2 := hmissge i hi2
    omega
  · intro i hi
    rw [hfetched, List.mem_append] at hi
    rcases hi with hi | hi
    · have := hrange i hi
      omega
    · have := (mem_missingBlocks.1 hi).1
      omega
  · rw [hubytes, hbytes, hfetched, List.map_append, List.sum_append]
  · intro i hi
    rw [hfetched]
    exact List.mem_append_left _ hi

theorem sum_map_le_of_subset (f : Int → Nat) (l1 l2 : List Int) (hnd : l1.Nodup)
    (hsub : ∀ i ∈ l1, i ∈ l2) : (l1.map f).sum ≤ (l2.map f).sum := by
  obtain ⟨l, hp, hs⟩ := List.subperm_of_subset hnd hsub
  rw [← (hp.map f).sum_eq]
  exact (hs.map f).sum_le_sum (fun _ _ => Nat.zero_le _)

theorem sum_map_filter_of_zero (f : Int → Nat) (p : Int → Bool) (l : List Int)
    (hz : ∀ i ∈ l, p i = false → f i = 0) :
    ((l.filter p).map f).sum = (l.map f).sum := by
  induction l with
  | nil => rfl
  | cons a rest ih =>
    have ih1 := ih (fun i hi => hz i (List.mem_cons_of_mem _ hi))
    cases hp : p a with
    | true => rw [List.filter_cons_of_pos hp, List.map_cons, List.map_cons, List.sum_cons,
        List.sum_cons, ih1]
    | false =>
      rw [List.filter_cons_of_neg (by simp [hp]), List.map_cons, List.sum_cons, ih1,
        hz a (List.mem_cons_self _ _) hp, Nat.zero_add]

/-- The blocks `[0, m)` of the content hold at most all its bytes, and all of them when
`m` is at least the length of the content. -/
theorem sum_all_blocks (content : List UInt8) (B : Int) (hB : 1 ≤ B) (m : Nat) :
    ((blockIndices 0 (m : Int)).map (fun i => (blockData content B i).length)).sum
        ≤ content.length ∧
      (content.length ≤ m →
        ((blockIndices 0 (m : Int)).map (fun i => (blockData content B i).length)).sum
          = content.length) := by
  have hb : B = ((B.toNat : Nat) : Int) := (Int.toNat_of_nonneg (by omega)).symm
  have h := sum_blockData_length content 0 m B.toNat
  rw [← hb] at h
  simp only [Nat.cast_zero, zero_add, Nat.zero_mul, Nat.sub_zero] at h
  rw [h]
  refine ⟨Nat.min_le_right _ _, fun hm => ?_⟩
  have h1 : 1 ≤ B.toNat := by omega
  have h2 : m ≤ m * B.toNat := Nat.le_mul_of_pos_right m h1
  exact Nat.min_eq_right (by omega)

/-- A block that starts at or after the end of the content is empty. -/
theorem blockData_beyond (content : List UInt8) (B : Int) (hB : 1 ≤ B) (i : Int) (h0 : 0 ≤ i)
    (hi : (content.length : Int) ≤ i * B) : (blockData content B i).length = 0 := by
  have hb : B = ((B.toNat : Nat) : Int) := (Int.toNat_of_nonneg (by omega)).symm
  have hn : i = ((i.toNat : Nat) : Int) := (Int.toNat_of_nonneg h0).symm
  have h := blockData_length content B.toNat i.toNat
  rw [← hb, ← hn] at h
  rw [h]
  have : content.length ≤ i.toNat * B.toNat := by
    rw [hb, hn] at hi
    exact_mod_cast hi
  omega

/-- A scan with non-decreasing offsets returns, keeps the scan invariant, and asks the source
for every block of every request. -/
theorem scan_readAll (content : List UInt8) (B N : Int) (hB : 1 ≤ B) (hN : 1 ≤ N) (len : Nat)
    (hcap : ⌈(len : ℚ) / (B : ℚ)⌉ + 1 ≤ N) (fuel : Nat) (reads : List Request) :
    ∀ (ps pe : Int) (s : ReaderAt (List (Int × Nat))), ScanInv content B N ps pe s →
      (∀ r ∈ reads, r.inScan content.length N len fuel) →
      reads.Pairwise (fun r1 r2 => r1.off ≤ r2.off) →
      (∀ r ∈ reads, ps ≤ s.startBlock r.off len ∧ pe ≤ s.endBlock r.off len) →
      ∃ s' ps' pe', readAll (contentSource content) fuel s reads = .ok s' ∧
        ScanInv content B N ps' pe' s' ∧
        (∀ i ∈ fetchedBlocks B s.underlying, i ∈ fetchedBlocks B s'.underlying) ∧
        (∀ r ∈ reads, ∀ i, s.startBlock r.off len ≤ i → i < s.endBlock r.off len →
          i ∈ fetchedBlocks B s'.underlying) := by
  induction reads with
  | nil =>
    intro ps pe s hinv _ _ _
    exact ⟨s, ps, pe, rfl, hinv, fun _ h => h, fun r hr => by simp at hr⟩
  | cons r rest ih =>
    intro ps pe s hinv hreads hsorted hfwd
    obtain ⟨hord, hlen, h0, hF, hfuel⟩ := hreads r (List.mem_cons_self _ _)
    rw [List.pairwise_cons] at hsorted
    have hBe := hinv.inv.blockSize_eq
    obtain ⟨g1, g2⟩ := hfwd r (List.mem_cons_self _ _)
    have hspan := request_span_le s r.off len (by omega) h0
    rw [hBe] at hspan
    obtain ⟨out, s1, hok, hinv1, hkeep1, hwin1⟩ := scan_step content B N hB hN ps pe s hinv r
      hord h0 hF fuel (by omega) (by rw [hlen]; exact g1) (by rw [hlen]; exact g2)
      (by rw [hlen]; omega)
    rw [hlen] at hinv1 hwin1
    have hBe1 := hinv1.inv.blockSize_eq
    have hcongr : ∀ off : Int, s1.startBlock off len = s.startBlock off len ∧
        s1.endBlock off len = s.endBlock off len :=
      fun off => startBlock_congr s s1 off len len (by rw [hBe, hBe1]) rfl
    obtain ⟨s2, ps2, pe2, hok2, hinv2, hkeep2, hwin2⟩ := ih _ _ s1 hinv1
      (fun r2 hr2 => hreads r2 (List.mem_cons_of_mem _ hr2)) hsorted.2
      (fun r2 hr2 => by
        rw [(hcongr r2.off).1, (hcongr r2.off).2]
        exact window_mono s r.off r2.off len (by omega) h0 (hsorted.1 r2 hr2))
    refine ⟨s2, ps2, pe2, ?_, hinv2, fun i hi => hkeep2 i (hkeep1 i hi), ?_⟩
    · rw [readAll_cons_ok _ fuel s s1 r rest out hok]
      exact hok2
    · intro r2 hr2 i hi1 hi2
      rcases List.mem_cons.1 hr2 with rfl | hr2
      · exact hkeep2 i (hwin1 i hi1 hi2)
      · apply hwin2 r2 hr2 i
        · rw [(hcongr r2.off).1]; exact hi1
        · rw [(hcongr r2.off).2]; exact hi2

/-- C8: with `B ≥ 1`, over static content of length `F`, starting from an empty cache, a
sequence of reads of a fixed length `len` at non-decreasing offsets in `[0, F]`, with
capacity `N ≥ ⌈len / B⌉ + 1`, returns; no block index is asked from the source more than
once; `underlayBytes` ends at most `F`, and exactly `F` when the reads cover every byte of
the content. -/
theorem sequential_scan (content : List UInt8) (B N : Int) (hB : 1 ≤ B) (len : Nat)
    (hN : ⌈(len : ℚ) / (B : ℚ)⌉ + 1 ≤ N) (fuel : Nat) (reads : List Request)
    (hreads : ∀ r ∈ reads, r.inScan content.length N len fuel)
    (hsorted : reads.Pairwise (fun r1 r2 => r1.off ≤ r2.off)) :
    ∃ s, readAll (contentSource content) fuel (New [] B N) reads = .ok s ∧
      (fetchedBlocks B s.underlying).Nodup ∧
      s.underlayBytes ≤ content.length ∧
      ((∀ pos : Nat, pos < content.length →
          ∃ r ∈ reads, r.off ≤ (pos : Int) ∧ (pos : Int) < r.off + (len : Int)) →
        s.underlayBytes = content.length) := by
  have hbq : (0 : ℚ) < (B : ℚ) := by exact_mod_cast (by omega : 0 < B)
  have hceil0 : 0 ≤ ⌈(len : ℚ) / (B : ℚ)⌉ := Int.ceil_nonneg (by positivity)
  have hN1 : 1 ≤ N := by omega
  have hinit : ScanInv content B N 0 0 (New [] B N) :=
    ⟨staticInv_New content B N (by omega),
      ⟨[], List.Perm.refl _, List.Pairwise.nil, List.Pairwise.nil⟩,
      fun i h1 h2 => by omega, fun _ h => by simp [New] at h, fun _ h => by simp [New] at h,
      List.nodup_nil, fun _ h => by simp [New, fetchedBlocks] at h, rfl, le_refl _, le_refl _⟩
  obtain ⟨s, ps, pe, hok, hinv, -, hwin⟩ := scan_readAll content B N hB hN1 len hN fuel reads
    0 0 (New [] B N) hinit hreads hsorted (fun r hr => by
      obtain ⟨f1, f2, -⟩ := request_range_facts (New ([] : List (Int × Nat)) B N) r.off len hB
        (hreads r hr).2.2.1
      exact ⟨f1, by omega⟩)
  obtain ⟨-, -, -, -, -, honce, hrange, hbytes, hb0, hb1⟩ := hinv
  have hpe : pe = ((pe.toNat : Nat) : Int) := (Int.toNat_of_nonneg (by omega)).symm
  refine ⟨s, hok, honce, ?_, ?_⟩
  · rw [hbytes]
    refine le_trans (sum_map_le_of_subset _ _ (blockIndices 0 (pe.toNat : Int)) honce ?_)
      (sum_all_blocks content B hB pe.toNat).1
    intro i hi
    rw [mem_blockIndices, ← hpe]
    exact hrange i hi
  · intro hcover
    apply le_antisymm
    · rw [hbytes]
      refine le_trans (sum_map_le_of_subset _ _ (blockIndices 0 (pe.toNat : Int)) honce ?_)
        (sum_all_blocks content B hB pe.toNat).1
      intro i hi
      rw [mem_blockIndices, ← hpe]
      exact hrange i hi
    · rw [hbytes]
      have hall := (sum_all_blocks content B hB content.length).2 (le_refl _)
      have hfil := sum_map_filter_of_zero (fun i => (blockData content B i).length)
        (fun i => decide (i * B < (content.length : Int)))
        (blockIndices 0 (content.length : Int)) (fun i hi hp => by
          rw [mem_blockIndices] at hi
          exact blockData_beyond content B hB i hi.1 (by simpa using hp))
      rw [← hall, ← hfil]
      apply sum_map_le_of_subset _ _ _ ((blockIndices_nodup _ _).filter _)
      intro i hi
      rw [List.mem_filter, mem_blockIndices] at hi
      obtain ⟨⟨hi0, -⟩, hlt⟩ := hi
      have hlt' : i * B < (content.length : Int) := by simpa using hlt
      have hiB : 0 ≤ i * B := Int.mul_nonneg hi0 (by omega)
      obtain ⟨r, hr, hr1, hr2⟩ := hcover (i * B).toNat (by omega)
      rw [Int.toNat_of_nonneg hiB] at hr1 hr2
      obtain ⟨f1, f2, f3, f4, -, f6⟩ := request_range_facts (New ([] : List (Int × Nat)) B N)
        r.off len hB (hreads r hr).2.2.1
      obtain ⟨f7, f8⟩ := f6 (by omega)
      have hBn : (New ([] : List (Int × Nat)) B N).blockSize = B := rfl
      rw [hBn] at f3 f4 f7 f8
      apply hwin r hr i
      · have : (New ([] : List (Int × Nat)) B N).startBlock r.off len * B < (i + 1) * B := by
          rw [add_mul, one_mul]; omega
        have := mul_lt_mul_cancel hB this
        omega
      · exact mul_lt_mul_cancel hB (by omega)

/-- Witness of C8: `B = 4`, `N = 2`, reads of 4 bytes at offsets 0, 2, 4, 8, 12 of 16 bytes of
content. -/
theorem sequential_scan_witness :
    (1 : Int) ≤ 4 ∧
    ∃ s, readAll (contentSource sampleContent) 8 (New [] 4 2)
        [{ ord := id, p := [0, 0, 0, 0], off := 0 }, { ord := id, p := [0, 0, 0, 0], off := 2 },
         { ord := id, p := [0, 0, 0, 0], off := 4 }, { ord := id, p := [0, 0, 0, 0], off := 8 },
         { ord := id, p := [0, 0, 0, 0], off := 12 }] = .ok s ∧
      (fetchedBlocks 4 s.underlying).Nodup ∧
      s.underlayBytes ≤ sampleContent.length ∧
      ((∀ pos : Nat, pos < sampleContent.length →
          ∃ r ∈ ([{ ord := id, p := [0, 0, 0, 0], off := 0 },
                  { ord := id, p := [0, 0, 0, 0], off := 2 },
                  { ord := id, p := [0, 0, 0, 0], off := 4 },
                  { ord := id, p := [0, 0, 0, 0], off := 8 },
                  { ord := id, p := [0, 0, 0, 0], off := 12 }] : List Request),
            r.off ≤ (pos : Int) ∧ (pos : Int) < r.off + ((4 : Nat) : Int)) →
        s.underlayBytes = sampleContent.length) :=
  ⟨by decide, sequential_scan sampleContent 4 2 (by decide) 4
    (by norm_num) 8 _
    (by
      intro r hr
      simp only [List.mem_cons, List.mem_singleton, List.not_mem_nil, or_false] at hr
      rcases hr with rfl | rfl | rfl | rfl | rfl <;>
        exact ⟨fun l => List.Perm.refl l, rfl, by decide, by decide, by decide⟩)
    (by simp)⟩
/-! ## C11: the four counters -/

theorem runCalls_cons (B : Int) (mr : Int × Int) (rest : List (Int × Int)) :
    runCalls B (mr :: rest) = (mr.1 * B, ((mr.2 - mr.1) * B).toNat) :: runCalls B rest := rfl

/-- The fetch loop over a logged source: the calls it makes are those of a prefix of the
runs, one call per run, and the two source counters count them. -/
theorem fetchLoop_logged {σ : Type} (U : Underlying σ) (runs : List (Int × Int))
    (r r' : ReaderAt (σ × List (Int × Nat × Nat))) (err : Option GoError)
    (h : fetchLoop (loggedSource U) runs r = .ok (r', err)) :
    ∃ calls, r'.underlying.2 = r.underlying.2 ++ calls ∧
      r'.underlayReqs = r.underlayReqs + calls.length ∧
      r'.underlayBytes = r.underlayBytes + (calls.map (fun c => c.2.2)).sum ∧
      ∃ k, k ≤ runs.length ∧
        calls.map (fun c => (c.1, c.2.1)) = runCalls r.blockSize (runs.take k) ∧
        (err = none → k = runs.length) := by
  induction runs generalizing r r' err with
  | nil =>
    simp only [fetchLoop, Outcome.ok.injEq, Prod.mk.injEq] at h
    obtain ⟨rfl, -⟩ := h
    exact ⟨[], by simp, by simp, by simp, 0, le_refl _, by simp [runCalls], fun _ => rfl⟩
  | cons mr rest ih =>
    have hlen : (r.blockRangeToRangeExact mr.1 mr.2).2 - (r.blockRangeToRangeExact mr.1 mr.2).1
        = (mr.2 - mr.1) * r.blockSize := by
      simp only [ReaderAt.blockRangeToRangeExact]; ring
    have hoff : (r.blockRangeToRangeExact mr.1 mr.2).1 = mr.1 * r.blockSize := rfl
    rw [fetchLoop] at h
    split_ifs at h with h1
    dsimp only at h
    rw [hlen, hoff] at h
    split at h
    · simp only [Outcome.ok.injEq, Prod.mk.injEq] at h
      obtain ⟨rfl, rfl⟩ := h
      refine ⟨[(mr.1 * r.blockSize, ((mr.2 - mr.1) * r.blockSize).toNat,
        (U.ReadAt r.underlying.1 ((mr.2 - mr.1) * r.blockSize).toNat
          (mr.1 * r.blockSize)).1.1.length)], rfl, rfl, ?_, 1, by simp, ?_,
        fun hc => by simp at hc⟩
      · simp only [List.map_cons, List.map_nil, List.sum_cons, List.sum_nil, Nat.add_zero]
        rfl
      · simp only [List.map_cons, List.map_nil, List.take_succ_cons, List.take_zero,
          runCalls_cons]
        rfl
    · split_ifs at h with h2
      obtain ⟨calls, e1, e2, e3, k, e4, e5, e6⟩ := ih _ _ _ h
      refine ⟨(mr.1 * r.blockSize, ((mr.2 - mr.1) * r.blockSize).toNat,
        (U.ReadAt r.underlying.1 ((mr.2 - mr.1) * r.blockSize).toNat
          (mr.1 * r.blockSize)).1.1.length) :: calls, ?_, ?_, ?_, k + 1,
        by simp only [List.length_cons]; omega, ?_, fun hc => by simp [e6 hc]⟩
      · rw [e1]
        show (r.underlying.2 ++ [_]) ++ calls = _
        simp
      · rw [e2]
        simp only [List.length_cons]
        omega
      · rw [e3]
        simp only [List.map_cons, List.sum_cons]
        have : ((loggedSource U).ReadAt r.underlying ((mr.2 - mr.1) * r.blockSize).toNat
            (mr.1 * r.blockSize)).1.1.length
          = (U.ReadAt r.underlying.1 ((mr.2 - mr.1) * r.blockSize).toNat
            (mr.1 * r.blockSize)).1.1.length := rfl
        omega
      · simp only [List.map_cons, List.take_succ_cons, runCalls_cons]
        rw [e5]

/-- For any source, a call of `ReadAt` that returns without a source failure adds 1 to
`overlayReqs` and the count it returns to `overlayBytes`, and no call that returns makes one
of the four counters smaller. -/
theorem overlay_accounting {σ : Type} (U : Underlying σ) (ord : Cache → Cache) (fuel : Nat)
    (s : ReaderAt σ) (p : List UInt8) (off : Int) (out : ReadResult) (s' : ReaderAt σ)
    (hok : s.ReadAt U ord fuel p off = .ok (out, s')) :
    ((out.err = none ∨ out.err = some GoError.EOF) →
        s'.overlayReqs = s.overlayReqs + 1 ∧ s'.overlayBytes = s.overlayBytes + out.n) ∧
      s.overlayReqs ≤ s'.overlayReqs ∧ s.overlayBytes ≤ s'.overlayBytes ∧
      s.underlayReqs ≤ s'.underlayReqs ∧ s.underlayBytes ≤ s'.underlayBytes := by
  rcases ReadAt_ok_inv _ _ _ _ _ _ _ _ hok with ⟨e, h1, ho⟩ | ⟨r2, st, c, h1, -, -, ho, hs'⟩
  · obtain ⟨code, hcode⟩ := fetchLoop_error _ _ _ _ _ h1
    obtain ⟨-, -, -, k4, k5, -, -, -, k9, k10⟩ := fetchLoop_frame _ _ _ _ _ h1
    have k4' : s'.overlayBytes = s.overlayBytes := k4
    have k5' : s'.overlayReqs = s.overlayReqs := k5
    have k9' : s.underlayReqs ≤ s'.underlayReqs := k9
    have k10' : s.underlayBytes ≤ s'.underlayBytes := k10
    refine ⟨fun herr => ?_, by omega, by omega, k9', k10'⟩
    rw [ho, hcode] at herr
    simp at herr
  · obtain ⟨-, -, -, k4, k5, -, -, -, k9, k10⟩ := fetchLoop_frame _ _ _ _ _ h1
    have k4' : r2.overlayBytes = s.overlayBytes := k4
    have k5' : r2.overlayReqs = s.overlayReqs := k5
    have k9' : s.underlayReqs ≤ r2.underlayReqs := k9
    have k10' : s.underlayBytes ≤ r2.underlayBytes := k10
    have o1 : s'.overlayReqs = r2.overlayReqs + 1 := by rw [hs']; rfl
    have o2 : s'.overlayBytes = r2.overlayBytes + out.n := by rw [hs', ho]; rfl
    have o3 : s'.underlayReqs = r2.underlayReqs := by rw [hs']; rfl
    have o4 : s'.underlayBytes = r2.underlayBytes := by rw [hs']; rfl
    exact ⟨fun _ => ⟨by omega, by omega⟩, by omega, by omega, by omega, by omega⟩

/-- C11: for any source `V`, a call of `ReadAt` that returns without a source failure (nil or
end-of-stream error) increases `overlayReqs` by exactly 1 and `overlayBytes` by exactly the
count it returns, and no call that returns, aborted or not, decreases one of the four
counters; and over a source `U` whose calls are recorded, a call of `ReadAt` that returns
increases `underlayReqs` by the number of calls it made to the source and `underlayBytes` by
the sum of the counts the source reported for them. -/
theorem stats_accounting {σ : Type} (U : Underlying σ) (ord : Cache → Cache) (fuel : Nat)
    (s : ReaderAt (σ × List (Int × Nat × Nat))) (p : List UInt8) (off : Int)
    (out : ReadResult) (s' : ReaderAt (σ × List (Int × Nat × Nat)))
    (hok : s.ReadAt (loggedSource U) ord fuel p off = .ok (out, s')) :
    (∃ calls, s'.underlying.2 = s.underlying.2 ++ calls ∧
        s'.underlayReqs = s.underlayReqs + calls.length ∧
        s'.underlayBytes = s.underlayBytes + (calls.map (fun c => c.2.2)).sum) ∧
      ∀ (τ : Type) (V : Underlying τ) (ord2 : Cache → Cache) (fuel2 : Nat) (t t' : ReaderAt τ)
        (q : List UInt8) (o : Int) (res : ReadResult),
        t.ReadAt V ord2 fuel2 q o = .ok (res, t') →
        ((res.err = none ∨ res.err = some GoError.EOF) →
          t'.overlayReqs = t.overlayReqs + 1 ∧ t'.overlayBytes = t.overlayBytes + res.n) ∧
        t.overlayReqs ≤ t'.overlayReqs ∧ t.overlayBytes ≤ t'.overlayBytes ∧
        t.underlayReqs ≤ t'.underlayReqs ∧ t.underlayBytes ≤ t'.underlayBytes := by
  refine ⟨?_, fun τ V ord2 fuel2 t t' q o res h => overlay_accounting V ord2 fuel2 t q o res t' h⟩
  rcases ReadAt_ok_inv _ _ _ _ _ _ _ _ hok with ⟨e, h1, -⟩ | ⟨r2, st, c, h1, -, -, -, hs'⟩
  · exact (fetchLoop_logged U _ _ _ _ h1).imp fun calls hc => ⟨hc.1, hc.2.1, hc.2.2.1⟩
  · obtain ⟨calls, e1, e2, e3, -⟩ := fetchLoop_logged U _ _ _ _ h1
    have o3 : s'.underlayReqs = r2.underlayReqs := by rw [hs']; rfl
    have o4 : s'.underlayBytes = r2.underlayBytes := by rw [hs']; rfl
    have o5 : s'.underlying = r2.underlying := by rw [hs']; rfl
    exact ⟨calls, by rw [o5]; exact e1, by rw [o3]; exact e2, by rw [o4]; exact e3⟩

/-- Witness of C11: `B = 4`, `N = 2`, a read of 3 bytes at offset 9 of 16 bytes of content
(block 2, one call to the source, which reports 4 bytes). -/
theorem stats_accounting_witness :
    ∃ out s', (New (([] : List (Int × Nat)), []) 4 2).ReadAt
        (loggedSource (contentSource sampleContent)) id 5 [0, 0, 0] 9 = .ok (out, s') ∧
      s'.overlayReqs = 1 ∧ s'.overlayBytes = 3 ∧ s'.underlayReqs = 1 ∧ s'.underlayBytes = 4 ∧
      (∃ calls, s'.underlying.2 = [] ++ calls ∧
        s'.underlayReqs = 0 + calls.length ∧
        s'.underlayBytes = 0 + (calls.map (fun c => c.2.2)).sum) :=
  ⟨_, _, rfl, rfl, rfl, rfl, rfl,
    (stats_accounting (contentSource sampleContent) id 5 (New (([] : List (Int × Nat)), []) 4 2)
      [0, 0, 0] 9 _ _ rfl).1⟩
/-! ## C16: the missing runs -/

theorem groupEnds_step (c : Cache) (st : List (Int × Int) × Bool) (i : Int)
    (hinv : GroupEnds c st) : GroupEnds c (groupStep c st i) := by
  obtain ⟨mr, prev⟩ := st
  obtain ⟨h1, h2⟩ := hinv
  unfold groupStep
  cases prev with
  | true =>
    have h3 := h1 rfl
    by_cases hc : cacheHas c i = true
    · simp only [hc, if_true]
      exact ⟨fun _ => h3, fun hf => by simp at hf⟩
    · have hc' : cacheHas c i = false := by simpa using hc
      simp only [hc', Bool.false_eq_true, if_false]
      exact ⟨fun hf => by simp at hf, fun _ => ⟨mr, i, i, rfl, h3⟩⟩
  | false =>
    obtain ⟨init, a, x, h3, h4⟩ := h2 rfl
    simp only at h3
    subst h3
    by_cases hc : cacheHas c i = true
    · simp only [hc, if_true, Bool.true_eq_false, if_false]
      refine ⟨fun _ m hm => ?_, fun hf => by simp at hf⟩
      rw [setLastEnd_append, List.mem_append] at hm
      rcases hm with hm | hm
      · exact h4 m hm
      · simp only [List.mem_singleton] at hm
        subst hm
        exact hc
    · have hc' : cacheHas c i = false := by simpa using hc
      simp only [hc', if_true]
      exact ⟨fun hf => by simp at hf, fun _ => ⟨init, a, x, rfl, h4⟩⟩

theorem groupEnds_fold (c : Cache) (l : List Int) (st : List (Int × Int) × Bool)
    (hinv : GroupEnds c st) : GroupEnds c (l.foldl (groupStep c) st) := by
  induction l generalizing st with
  | nil => exact hinv
  | cons i rest ih => exact ih _ (groupEnds_step c st i hinv)

/-- Every run but the last ends at a cached block. -/
theorem missingRanges_ends (c : Cache) (bs be : Int) :
    ∀ mr ∈ (missingRanges c bs be).dropLast, cacheHas c mr.2 = true := by
  have hinit : GroupEnds c ([], true) :=
    ⟨fun _ m hm => by simp at hm, fun hf => by simp at hf⟩
  obtain ⟨h1, h2⟩ := groupEnds_fold c (blockIndices bs be) ([], true) hinit
  unfold missingRanges
  cases hst : ((blockIndices bs be).foldl (groupStep c) ([], true)).2 with
  | true =>
    simp only [hst, Bool.not_true, Bool.false_eq_true, if_false]
    intro mr hmr
    exact h1 hst mr (List.mem_of_mem_dropLast hmr)
  | false =>
    simp only [hst, Bool.not_false, if_true]
    obtain ⟨init, a, x, h3, h4⟩ := h2 hst
    rw [h3, setLastEnd_append, List.dropLast_concat]
    exact h4

theorem mem_runBlocks (runs : List (Int × Int)) (i : Int) :
    i ∈ runBlocks runs ↔ ∃ mr ∈ runs, mr.1 ≤ i ∧ i < mr.2 := by
  induction runs with
  | nil => simp [runBlocks]
  | cons mr rest ih =>
    rw [runBlocks, List.mem_append, mem_blockIndices, ih]
    simp

/-- Runs that list increasing missing blocks, each but the last ending at a cached block, are
separated: each run ends strictly before the next one starts. -/
theorem runs_separated (c : Cache) (runs : List (Int × Int))
    (hne : ∀ mr ∈ runs, mr.1 < mr.2)
    (hsorted : (runBlocks runs).Pairwise (fun i j => i < j))
    (hmiss : ∀ i ∈ runBlocks runs, cacheHas c i = false)
    (hends : ∀ mr ∈ runs.dropLast, cacheHas c mr.2 = true) :
    runs.Pairwise (fun r1 r2 => r1.2 < r2.1) := by
  induction runs with
  | nil => exact List.Pairwise.nil
  | cons r1 rest ih =>
    rw [runBlocks, List.pairwise_append] at hsorted
    obtain ⟨-, hs2, hs3⟩ := hsorted
    rw [List.pairwise_cons]
    constructor
    · intro r2 hr2
      have hr1 := hne r1 (List.mem_cons_self _ _)
      have hr2' := hne r2 (List.mem_cons_of_mem _ hr2)
      have h1 : r1.2 - 1 < r2.1 := hs3 (r1.2 - 1) (mem_blockIndices.2 (by omega)) r2.1
        ((mem_runBlocks rest r2.1).2 ⟨r2, hr2, le_refl _, hr2'⟩)
      have hmem : r1 ∈ (r1 :: rest).dropLast := by
        cases rest with
        | nil => simp at hr2
        | cons x xs => simp [List.dropLast]
      have hc := hends r1 hmem
      have hm := hmiss r2.1 (by
        rw [runBlocks, List.mem_append]
        exact Or.inr ((mem_runBlocks rest r2.1).2 ⟨r2, hr2, le_refl _, hr2'⟩))
      by_contra hcon
      have : r1.2 = r2.1 := by omega
      rw [this, hm] at hc
      exact Bool.false_ne_true hc
    · apply ih (fun mr hmr => hne mr (List.mem_cons_of_mem _ hmr)) hs2
      · intro i hi
        exact hmiss i (by rw [runBlocks, List.mem_append]; exact Or.inr hi)
      · intro mr hmr
        apply hends mr
        cases rest with
        | nil => simp at hmr
        | cons x xs =>
          simp only [List.dropLast]
          exact List.mem_cons_of_mem _ hmr

theorem missingBlocks_pairwise (c : Cache) (bs be : Int) :
    (missingBlocks c bs be).Pairwise (fun i j => i < j) :=
  List.Pairwise.sublist (List.filter_sublist _) (blockIndices_pairwise bs be)

/-- The runs computed by `processReadRequest` are separated from each other. -/
theorem missingRanges_separated (c : Cache) (bs be : Int) :
    (missingRanges c bs be).Pairwise (fun r1 r2 => r1.2 < r2.1) := by
  obtain ⟨h1, h2⟩ := missingRanges_spec c bs be
  apply runs_separated c _ (fun mr hmr => (h2 mr hmr).2.1)
  · rw [h1]; exact missingBlocks_pairwise c bs be
  · intro i hi
    rw [h1] at hi
    exact (mem_missingBlocks.1 hi).2
  · exact missingRanges_ends c bs be

/-- With a source that never reports more bytes than the buffer holds, and `blockSize ≥ 0`,
the fetch loop returns. -/
theorem fetchLoop_returns {σ : Type} (U : Underlying σ)
    (hU : ∀ st len off, (U.ReadAt st len off).1.1.length ≤ len) (runs : List (Int × Int))
    (r : ReaderAt σ) (hB : 0 ≤ r.blockSize) (hruns : ∀ mr ∈ runs, mr.1 < mr.2) :
    ∃ r' err, fetchLoop U runs r = .ok (r', err) := by
  induction runs generalizing r with
  | nil => exact ⟨r, none, rfl⟩
  | cons mr rest ih =>
    have hlt := hruns mr (List.mem_cons_self _ _)
    have hlen : (r.blockRangeToRangeExact mr.1 mr.2).2 - (r.blockRangeToRangeExact mr.1 mr.2).1
        = (mr.2 - mr.1) * r.blockSize := by
      simp only [ReaderAt.blockRangeToRangeExact]; ring
    have hnn : 0 ≤ (mr.2 - mr.1) * r.blockSize := Int.mul_nonneg (by omega) hB
    rw [fetchLoop]
    dsimp only
    rw [hlen, if_neg (by omega)]
    split
    · exact ⟨_, _, rfl⟩
    · have hle := hU r.underlying ((mr.2 - mr.1) * r.blockSize).toNat
        (r.blockRangeToRangeExact mr.1 mr.2).1
      rw [if_neg (by omega)]
      exact ih _ hB (fun m hm => hruns m (List.mem_cons_of_mem _ hm))

theorem contentSource_length_le (content : List UInt8) (st : List (Int × Nat)) (len : Nat)
    (off : Int) : ((contentSource content).ReadAt st len off).1.1.length ≤ len := by
  unfold contentSource
  dsimp only
  split_ifs <;> simp [List.length_take]

/-- The answer of a source call lets the fetch loop go on: no error, or end-of-stream. -/
theorem not_other_cases (e : Option GoError) (h : ∀ code, e = some (GoError.other code) → False) :
    e = none ∨ e = some GoError.EOF := by
  rcases e with _ | _ | code
  · exact Or.inl rfl
  · exact Or.inr rfl
  · exact absurd rfl (h code)

/-- The fetch loop over a traced source: it calls the source once per run, in order, at
offset `a * B` with a buffer of `(b - a) * B` bytes for the run `[a, b)`, as long as the
source answers with no error or end-of-stream; it is aborted by the first call that the source
answers with another error, with that error, and makes no call after it. -/
theorem fetchLoop_traced {σ : Type} (U : Underlying σ) (runs : List (Int × Int))
    (r r' : ReaderAt (σ × List (Int × Nat × Option GoError))) (err : Option GoError)
    (h : fetchLoop (tracedSource U) runs r = .ok (r', err)) :
    ∃ calls, r'.underlying.2 = r.underlying.2 ++ calls ∧ calls.length ≤ runs.length ∧
      calls.map (fun c => (c.1, c.2.1)) = runCalls r.blockSize (runs.take calls.length) ∧
      (∀ c ∈ calls.dropLast, c.2.2 = none ∨ c.2.2 = some GoError.EOF) ∧
      (err = none →
        calls.length = runs.length ∧ ∀ c ∈ calls, c.2.2 = none ∨ c.2.2 = some GoError.EOF) ∧
      (∀ e, err = some e →
        (∃ code, e = GoError.other code) ∧ ∃ o n, calls.getLast? = some (o, n, some e)) := by
  induction runs generalizing r r' err with
  | nil =>
    simp only [fetchLoop, Outcome.ok.injEq, Prod.mk.injEq] at h
    obtain ⟨rfl, rfl⟩ := h
    exact ⟨[], by simp, by simp, by simp [runCalls], by simp, fun _ => ⟨rfl, by simp⟩,
      fun e he => by simp at he⟩
  | cons mr rest ih =>
    have hlen : (r.blockRangeToRangeExact mr.1 mr.2).2 - (r.blockRangeToRangeExact mr.1 mr.2).1
        = (mr.2 - mr.1) * r.blockSize := by
      simp only [ReaderAt.blockRangeToRangeExact]; ring
    have hoff : (r.blockRangeToRangeExact mr.1 mr.2).1 = mr.1 * r.blockSize := rfl
    have hans : ((tracedSource U).ReadAt r.underlying ((mr.2 - mr.1) * r.blockSize).toNat
          (mr.1 * r.blockSize)).1.2
        = (U.ReadAt r.underlying.1 ((mr.2 - mr.1) * r.blockSize).toNat
          (mr.1 * r.blockSize)).1.2 := rfl
    rw [fetchLoop] at h
    split_ifs at h with h1
    dsimp only at h
    rw [hlen, hoff] at h
    split at h
    next code heq =>
      simp only [Outcome.ok.injEq, Prod.mk.injEq] at h
      obtain ⟨rfl, rfl⟩ := h
      rw [hans] at heq
      refine ⟨[(mr.1 * r.blockSize, ((mr.2 - mr.1) * r.blockSize).toNat,
        (U.ReadAt r.underlying.1 ((mr.2 - mr.1) * r.blockSize).toNat
          (mr.1 * r.blockSize)).1.2)], rfl, by simp, ?_, by simp, fun hc => by simp at hc,
        fun e he => ?_⟩
      · simp only [List.map_cons, List.map_nil, List.length_singleton, List.take_succ_cons,
          List.take_zero, runCalls_cons]
        rfl
      · simp only [Option.some.injEq] at he
        subst he
        exact ⟨⟨code, rfl⟩, _, _, by rw [heq]; rfl⟩
    next hno =>
      rw [hans] at hno
      have hc0 := not_other_cases _ (fun code hcode => hno code hcode)
      split_ifs at h with h2
      obtain ⟨calls, e1, e2, e3, e4, e5, e6⟩ := ih _ _ _ h
      refine ⟨(mr.1 * r.blockSize, ((mr.2 - mr.1) * r.blockSize).toNat,
        (U.ReadAt r.underlying.1 ((mr.2 - mr.1) * r.blockSize).toNat
          (mr.1 * r.blockSize)).1.2) :: calls, ?_, by simp only [List.length_cons]; omega,
        ?_, ?_, fun hc => ?_, fun e he => ?_⟩
      · rw [e1]
        show (r.underlying.2 ++ [_]) ++ calls = _
        simp
      · simp only [List.map_cons, List.length_cons, List.take_succ_cons, runCalls_cons]
        rw [e3]
      · intro c hc
        cases calls with
        | nil => simp at hc
        | cons x xs =>
          rw [List.dropLast_cons₂, List.mem_cons] at hc
          rcases hc with rfl | hc
          · exact hc0
          · exact e4 c hc
      · obtain ⟨a1, a2⟩ := e5 hc
        refine ⟨by simp only [List.length_cons]; omega, fun c hcm => ?_⟩
        rcases List.mem_cons.1 hcm with rfl | hcm
        · exact hc0
        · exact a2 c hcm
      · obtain ⟨a1, o, n, a2⟩ := e6 e he
        refine ⟨a1, o, n, ?_⟩
        cases calls with
        | nil => simp at a2
        | cons x xs => rw [List.getLast?_cons_cons]; exact a2

/-- C16: for every state `r` whose cache is the one met by the grouping loop and every block
range `[bs, be)`, the runs `missingRanges` are non-empty, lie in the range, are in increasing
order with a gap between any two (each run ends strictly before the next starts), and their
union is exactly the set of blocks of the range missing from the cache.  With a source that
reports at most `len(p)` bytes the fetch loop returns, and the calls it made to the source
are, in order, one call per run, the call for the run `[a, b)` being at offset `a * B` with a
buffer of `(b - a) * B` bytes: for every run when the source answered every call with no
error or end-of-stream, and then the loop is not aborted; for the runs up to the first call
that the source answered with another error, and then the loop is aborted with that
error. -/
theorem missing_run_partition {σ : Type} (U : Underlying σ)
    (hU : ∀ st len off, (U.ReadAt st len off).1.1.length ≤ len)
    (r : ReaderAt (σ × List (Int × Nat × Option GoError))) (hB : 1 ≤ r.blockSize)
    (bs be : Int) :
    (missingRanges r.cache bs be).Pairwise (fun r1 r2 => r1.2 < r2.1) ∧
      (∀ mr ∈ missingRanges r.cache bs be, bs ≤ mr.1 ∧ mr.1 < mr.2 ∧ mr.2 ≤ be) ∧
      (∀ i, (∃ mr ∈ missingRanges r.cache bs be, mr.1 ≤ i ∧ i < mr.2) ↔
        ((bs ≤ i ∧ i < be) ∧ cacheHas r.cache i = false)) ∧
      ∃ r' err calls,
        fetchLoop (tracedSource U) (missingRanges r.cache bs be) r = .ok (r', err) ∧
        r'.underlying.2 = r.underlying.2 ++ calls ∧
        calls.length ≤ (missingRanges r.cache bs be).length ∧
        calls.map (fun c => (c.1, c.2.1))
          = runCalls r.blockSize ((missingRanges r.cache bs be).take calls.length) ∧
        (∀ c ∈ calls.dropLast, c.2.2 = none ∨ c.2.2 = some GoError.EOF) ∧
        (err = none ↔ ∀ c ∈ calls, c.2.2 = none ∨ c.2.2 = some GoError.EOF) ∧
        (err = none → calls.length = (missingRanges r.cache bs be).length) ∧
        (∀ e, err = some e →
          (∃ code, e = GoError.other code) ∧ ∃ o n, calls.getLast? = some (o, n, some e)) := by
  obtain ⟨h1, h2⟩ := missingRanges_spec r.cache bs be
  refine ⟨missingRanges_separated r.cache bs be, h2, fun i => ?_, ?_⟩
  · rw [← mem_runBlocks, h1, mem_missingBlocks]
  · obtain ⟨r', err, hok⟩ := fetchLoop_returns (tracedSource U)
      (fun st len off => hU st.1 len off) (missingRanges r.cache bs be) r (by omega)
      (fun mr hmr => (h2 mr hmr).2.1)
    obtain ⟨calls, e1, e2, e3, e4, e5, e6⟩ := fetchLoop_traced U _ _ _ _ hok
    refine ⟨r', err, calls, hok, e1, e2, e3, e4, ⟨fun hn => (e5 hn).2, fun hall => ?_⟩,
      fun hn => (e5 hn).1, e6⟩
    cases herr : err with
    | none => rfl
    | some e =>
      obtain ⟨⟨code, hcode⟩, o, n, hlast⟩ := e6 e herr
      have hmem := List.mem_of_getLast?_eq_some hlast
      rcases hall _ hmem with hc | hc
      · simp at hc
      · rw [hcode] at hc
        simp at hc

/-- Witness of C16: `B = 4`, block 1 cached, range `[0, 3)`: the runs are `[0, 1)` and
`[2, 3)`; over `sampleContent` the loop is not aborted and has made the calls `(0, 4)` and
`(8, 4)`, both answered without error. -/
theorem missing_run_partition_witness :
    (1 : Int) ≤ (tracedGapState (List (Int × Nat)) []).blockSize ∧
    missingRanges (tracedGapState (List (Int × Nat)) []).cache 0 3 = [(0, 1), (2, 3)] ∧
    (∃ r', fetchLoop (tracedSource (contentSource sampleContent))
        (missingRanges (tracedGapState (List (Int × Nat)) []).cache 0 3)
        (tracedGapState (List (Int × Nat)) []) = .ok (r', none) ∧
      r'.underlying.2 = [(0, 4, none), (8, 4, none)]) ∧
    ∃ r' err calls,
      fetchLoop (tracedSource (contentSource sampleContent))
        (missingRanges (tracedGapState (List (Int × Nat)) []).cache 0 3)
        (tracedGapState (List (Int × Nat)) []) = .ok (r', err) ∧
      r'.underlying.2 = (tracedGapState (List (Int × Nat)) []).underlying.2 ++ calls ∧
      calls.length ≤ (missingRanges (tracedGapState (List (Int × Nat)) []).cache 0 3).length ∧
      calls.map (fun c => (c.1, c.2.1))
        = runCalls (tracedGapState (List (Int × Nat)) []).blockSize
          ((missingRanges (tracedGapState (List (Int × Nat)) []).cache 0 3).take calls.length) ∧
      (∀ c ∈ calls.dropLast, c.2.2 = none ∨ c.2.2 = some GoError.EOF) ∧
      (err = none ↔ ∀ c ∈ calls, c.2.2 = none ∨ c.2.2 = some GoError.EOF) ∧
      (err = none →
        calls.length = (missingRanges (tracedGapState (List (Int × Nat)) []).cache 0 3).length) ∧
      (∀ e, err = some e →
        (∃ code, e = GoError.other code) ∧ ∃ o n, calls.getLast? = some (o, n, some e)) :=
  ⟨by decide, rfl, ⟨_, rfl, rfl⟩,
    (missing_run_partition (contentSource sampleContent)
      (contentSource_length_le sampleContent) (tracedGapState (List (Int × Nat)) [])
      (by decide) 0 3).2.2.2⟩
/-! ## C17: the victim of an eviction round -/

/-- Every round of the first eviction loop deletes only an entry that is at most as recent
as every entry it keeps. -/
theorem evictRounds_olderOut (ord : Cache → Cache) (hord : ∀ l, (ord l).Perm l) (clock : Nat)
    (k : Nat) (c : Cache) (hn : keysNodup c) (hs : stampsLe c clock) :
    ∀ rd ∈ evictRounds ord clock k c,
      rd.2 = evictOne ord clock rd.1 ∧ rd.2.Sublist rd.1 ∧ olderOut rd.2 rd.1 := by
  induction k generalizing c with
  | zero => intro rd hrd; simp [evictRounds] at hrd
  | succ k ih =>
    intro rd hrd
    rw [evictRounds, List.mem_cons] at hrd
    rcases hrd with rfl | hrd
    · exact ⟨rfl, evictOne_sublist ord clock c, evictOne_olderOut ord clock c (hord c) hn hs⟩
    · exact ih _ (keysNodup_sublist (evictOne_sublist ord clock c) hn)
        (stampsLe_sublist (evictOne_sublist ord clock c) hs) rd hrd

/-- The same for the second eviction loop. -/
theorem trimRounds_olderOut (ord : Cache → Cache) (hord : ∀ l, (ord l).Perm l) (clock : Nat)
    (numBlocks : Int) (fuel : Nat) (c : Cache) (hn : keysNodup c) (hs : stampsLe c clock) :
    ∀ rd ∈ trimRounds ord clock numBlocks fuel c,
      rd.2 = evictOne ord clock rd.1 ∧ rd.2.Sublist rd.1 ∧ olderOut rd.2 rd.1 := by
  induction fuel generalizing c with
  | zero => intro rd hrd; simp [trimRounds] at hrd
  | succ k ih =>
    intro rd hrd
    rw [trimRounds] at hrd
    split_ifs at hrd with h
    · rw [List.mem_cons] at hrd
      rcases hrd with rfl | hrd
      · exact ⟨rfl, evictOne_sublist ord clock c,
          evictOne_olderOut ord clock c (hord c) hn hs⟩
      · exact ih _ (keysNodup_sublist (evictOne_sublist ord clock c) hn)
          (stampsLe_sublist (evictOne_sublist ord clock c) hs) rd hrd
    · simp at hrd

/-- The rounds of the first eviction loop end in the cache the loop returns. -/
theorem evictLoop_rounds (ord : Cache → Cache) (clock : Nat) (k : Nat) (c : Cache) :
    (evictRounds ord clock k c).length = k ∧
      evictLoop ord clock k c
        = (((evictRounds ord clock k c).getLast?).map (fun rd => rd.2)).getD c := by
  induction k generalizing c with
  | zero => exact ⟨rfl, rfl⟩
  | succ k ih =>
    obtain ⟨h1, h2⟩ := ih (evictOne ord clock c)
    rw [evictRounds, evictLoop, h2, List.length_cons, h1]
    refine ⟨rfl, ?_⟩
    cases k with
    | zero => rfl
    | succ j =>
      have hne : evictRounds ord clock (j + 1) (evictOne ord clock c) ≠ [] := by
        intro hc
        rw [hc] at h1
        simp at h1
      obtain ⟨x, xs, hx⟩ := List.exists_cons_of_ne_nil hne
      rw [hx, List.getLast?_cons_cons]
      cases hl : (x :: xs).getLast? with
      | none => simp at hl
      | some y => rfl

/-- C17: in every reachable state, for any source and any iteration order of the map, every
round of the first eviction loop of a request, and every round of its second eviction loop,
deletes only an entry whose recency stamp is at most the stamp of every entry that remains
cached after the round (also when the victim is the default index 0). -/
theorem eviction_least_recent {σ : Type} (U : Underlying σ) (B N : Int) (s : ReaderAt σ)
    (hs : Reachable U B N s) (ord : Cache → Cache) (hord : ∀ l, (ord l).Perm l) (fuel : Nat)
    (p : List UInt8) (off : Int) :
    (∀ rd ∈ evictRounds ord s.clock
        ((s.cache.length : Int)
          + countNewBlocks s.cache
              (blockIndices (s.startBlock off p.length) (s.endBlock off p.length))
          - s.numBlocks).toNat s.cache,
        rd.2 = evictOne ord s.clock rd.1 ∧ rd.2.Sublist rd.1 ∧
          ∀ x ∈ rd.1, x ∉ rd.2 → ∀ y ∈ rd.2, x.2.lastAccessed ≤ y.2.lastAccessed) ∧
      ∀ r2 st,
        fetchLoop U
          (missingRanges
            (s.makeRoom ord (s.startBlock off p.length) (s.endBlock off p.length)).cache
            (s.startBlock off p.length) (s.endBlock off p.length))
          (s.makeRoom ord (s.startBlock off p.length) (s.endBlock off p.length))
            = .ok (r2, none) →
        copyLoop (blockIndices (s.startBlock off p.length) (s.endBlock off p.length))
          (off - (s.startBlock off p.length) * s.blockSize) (copyStart r2 p) = .ok st →
        ∀ rd ∈ trimRounds ord st.clock s.numBlocks fuel st.cache,
          rd.2 = evictOne ord st.clock rd.1 ∧ rd.2.Sublist rd.1 ∧
            ∀ x ∈ rd.1, x ∉ rd.2 → ∀ y ∈ rd.2, x.2.lastAccessed ≤ y.2.lastAccessed := by
  obtain ⟨hBe, hNe, hnd, hst⟩ := reachable_inv U B N s hs
  refine ⟨evictRounds_olderOut ord hord s.clock _ s.cache hnd hst, ?_⟩
  intro r2 st h1 h2
  have hsub := makeRoom_sublist ord s (s.startBlock off p.length) (s.endBlock off p.length)
  have hnd1 := keysNodup_sublist hsub hnd
  have hst1 := stampsLe_sublist hsub hst
  obtain ⟨k1, k2, k3, -, -, k6, k7, -⟩ := fetchLoop_frame _ _ _ _ _ h1
  rw [blockIndices_eq_toNat] at h2
  obtain ⟨c1, c2, -, c4, -, -, -⟩ := copyLoop_spec p _ _ _ (copyStart r2 p) st []
    (by simp [copyStart]) (by simp [copyStart]) (Nat.zero_le _) h2
  dsimp only [copyStart] at c1 c2 c4
  obtain ⟨c4a, -⟩ := c4 (k6 hnd1)
  have hk3 : r2.clock = s.clock := k3
  have hst3 := stampsLe_after_copy r2.cache st.cache r2.clock _ _ c4a
    (k7 _ (by rw [hk3]; exact hst1)) c2
  rw [← c1] at hst3
  exact trimRounds_olderOut ord hord st.clock s.numBlocks fuel st.cache c4a hst3

/-- A sequence of calls that return leads from a reachable state to a reachable state. -/
theorem readAll_reachable {σ : Type} (U : Underlying σ) (B N : Int) (fuel : Nat)
    (reads : List Request) (hord : ∀ r ∈ reads, ∀ l, (r.ord l).Perm l) :
    ∀ s s', Reachable U B N s → readAll U fuel s reads = .ok s' → Reachable U B N s' := by
  induction reads with
  | nil =>
    intro s s' hs h
    simp only [readAll, Outcome.ok.injEq] at h
    rw [← h]
    exact hs
  | cons r rest ih =>
    intro s s' hs h
    rw [readAll] at h
    cases hr : s.ReadAt U r.ord fuel r.p r.off with
    | ok res =>
      rw [hr] at h
      obtain ⟨out, s1⟩ := res
      exact ih (fun r2 hr2 => hord r2 (List.mem_cons_of_mem _ hr2)) s1 s'
        (Reachable.step hs (hord r (List.mem_cons_self _ _)) hr) h
    | panic => rw [hr] at h; simp at h
    | outOfFuel => rw [hr] at h; simp at h

theorem stateAfter_reachable {σ : Type} (U : Underlying σ) (B N : Int) (fuel : Nat)
    (s : ReaderAt σ) (hs : Reachable U B N s) (reads : List Request)
    (hord : ∀ r ∈ reads, ∀ l, (r.ord l).Perm l) :
    Reachable U B N (stateAfter U fuel s reads) := by
  unfold stateAfter
  cases h : readAll U fuel s reads with
  | ok s' => exact readAll_reachable U B N fuel reads hord s s' hs h
  | panic => exact hs
  | outOfFuel => exact hs

/-- Calls built with `Request.plain` range over the map in an order that permutes it. -/
theorem plain_perm (offs : List (Int × Nat)) :
    ∀ r ∈ offs.map (fun x => Request.plain x.1 x.2), ∀ l, (r.ord l).Perm l := by
  intro r hr l
  obtain ⟨x, -, rfl⟩ := List.mem_map.1 hr
  exact List.Perm.refl l

theorem twoBlockState_reachable : Reachable (contentSource sampleContent) 4 2 twoBlockState :=
  stateAfter_reachable (contentSource sampleContent) 4 2 5 (New [] 4 2) (Reachable.init []) _
    (plain_perm [(0, 2), (4, 2)])

/-- Witness of C17: `B = 4`, `N = 2`, blocks 0 and 1 cached; a read of 2 bytes at offset 8
(block 2) runs one round of the first eviction loop. -/
theorem eviction_least_recent_witness :
    (evictRounds id twoBlockState.clock
      ((twoBlockState.cache.length : Int)
        + countNewBlocks twoBlockState.cache
            (blockIndices (twoBlockState.startBlock 8 ([0, 0] : List UInt8).length)
              (twoBlockState.endBlock 8 ([0, 0] : List UInt8).length))
        - twoBlockState.numBlocks).toNat twoBlockState.cache).length = 1 ∧
    ∀ rd ∈ evictRounds id twoBlockState.clock
      ((twoBlockState.cache.length : Int)
        + countNewBlocks twoBlockState.cache
            (blockIndices (twoBlockState.startBlock 8 ([0, 0] : List UInt8).length)
              (twoBlockState.endBlock 8 ([0, 0] : List UInt8).length))
        - twoBlockState.numBlocks).toNat twoBlockState.cache,
      rd.2 = evictOne id twoBlockState.clock rd.1 ∧ rd.2.Sublist rd.1 ∧
        ∀ x ∈ rd.1, x ∉ rd.2 → ∀ y ∈ rd.2, x.2.lastAccessed ≤ y.2.lastAccessed :=
  ⟨rfl,
    (eviction_least_recent (contentSource sampleContent) 4 2 twoBlockState
      twoBlockState_reachable id (fun l => List.Perm.refl l) 5 [0, 0] 8).1⟩
/-! ## Truncating division of negative offsets -/

/-- The entries of the cache after saving a run are old entries or have the stamp 0. -/
theorem saveBlocks_entries (B : Int) (data : List UInt8) (blocks : List Int) (ptr : Nat)
    (c : Cache) : ∀ kv ∈ saveBlocks B data blocks ptr c, kv ∈ c ∨ kv.2.lastAccessed = 0 := by
  induction blocks generalizing ptr c with
  | nil => intro kv hkv; exact Or.inl hkv
  | cons i rest ih =>
    intro kv hkv
    rw [saveBlocks] at hkv
    rcases ih _ _ kv hkv with h | h
    · unfold cacheSet at h
      rw [List.mem_cons] at h
      rcases h with rfl | h
      · exact Or.inr rfl
      · exact Or.inl ((cacheDelete_sublist c i).subset h)
    · exact Or.inr h

/-- The entries of the cache after the fetch loop are old entries or have the stamp 0. -/
theorem fetchLoop_entries {σ : Type} (U : Underlying σ) (runs : List (Int × Int))
    (r r' : ReaderAt σ) (err : Option GoError) (h : fetchLoop U runs r = .ok (r', err)) :
    ∀ kv ∈ r'.cache, kv ∈ r.cache ∨ kv.2.lastAccessed = 0 := by
  induction runs generalizing r with
  | nil =>
    simp only [fetchLoop, Outcome.ok.injEq, Prod.mk.injEq] at h
    obtain ⟨rfl, -⟩ := h
    exact fun kv hkv => Or.inl hkv
  | cons mr rest ih =>
    rw [fetchLoop] at h
    split_ifs at h with h1
    dsimp only at h
    split at h
    · simp only [Outcome.ok.injEq, Prod.mk.injEq] at h
      obtain ⟨rfl, -⟩ := h
      exact fun kv hkv => Or.inl hkv
    · split_ifs at h with h2
      intro kv hkv
      rcases ih _ h kv hkv with h3 | h3
      · exact saveBlocks_entries _ _ _ _ _ kv h3
      · exact Or.inr h3

/-- An aborted fetch loop over at most one run leaves the cache as it was. -/
theorem fetchLoop_abort_first {σ : Type} (U : Underlying σ) (runs : List (Int × Int))
    (r r' : ReaderAt σ) (e : GoError) (hlen : runs.length ≤ 1)
    (h : fetchLoop U runs r = .ok (r', some e)) : r'.cache = r.cache := by
  match runs, hlen, h with
  | [], _, h => simp [fetchLoop] at h
  | [mr], _, h =>
    rw [fetchLoop] at h
    split_ifs at h with h1
    dsimp only at h
    split at h
    · simp only [Outcome.ok.injEq, Prod.mk.injEq] at h
      obtain ⟨rfl, -⟩ := h
      rfl
    · split_ifs at h with h2
      simp [fetchLoop] at h

/-- With an empty cache the missing blocks form at most one run. -/
theorem missingRanges_nil_length (bs be : Int) : (missingRanges [] bs be).length ≤ 1 := by
  have hends := missingRanges_ends [] bs be
  match hm : missingRanges [] bs be with
  | [] => simp
  | [_] => simp
  | x :: y :: rest =>
    rw [hm] at hends
    have := hends x (by simp [List.dropLast])
    simp [cacheHas] at this

/-- A block range that is empty has no missing run. -/
theorem missingRanges_of_empty (c : Cache) (bs be : Int) (h : be ≤ bs) :
    missingRanges c bs be = [] := by
  obtain ⟨-, h2⟩ := missingRanges_spec c bs be
  apply List.eq_nil_iff_forall_not_mem.2
  intro mr hmr
  have := h2 mr hmr
  omega

theorem stampsDistinct_sublist {c d : Cache} (h : d.Sublist c) (hd : stampsDistinct c) :
    stampsDistinct d :=
  fun x hx y hy => hd x (h.subset hx) y (h.subset hy)

/-- Adding entries with the stamp 0 keeps the non-zero stamps distinct. -/
theorem stampsDistinct_of_entries {c d : Cache} (hd : stampsDistinct c)
    (h : ∀ kv ∈ d, kv ∈ c ∨ kv.2.lastAccessed = 0) : stampsDistinct d := by
  intro x hx y hy hxy hne
  rcases h x hx with h1 | h1
  · rcases h y hy with h2 | h2
    · exact hd x h1 y h2 hxy hne
    · rw [hxy] at hne; exact absurd h2 hne
  · exact absurd h1 hne

/-- After the copy loop the non-zero stamps are distinct. -/
theorem stampsDistinct_after_copy (c0 c : Cache) (clock0 : Nat) (a : Int) (m : Nat)
    (hn : keysNodup c) (hs0 : stampsLe c0 clock0) (hd0 : stampsDistinct c0)
    (hget : ∀ i, cacheGet c i =
      if a ≤ i ∧ i < a + m then (cacheGet c0 i).map (fun e => e.touch (clock0 + (i - a).toNat + 1))
      else cacheGet c0 i) :
    stampsDistinct c := by
  have key : ∀ x ∈ c, (a ≤ x.1 ∧ x.1 < a + m ∧
      x.2.lastAccessed = clock0 + (x.1 - a).toNat + 1) ∨
      (¬ (a ≤ x.1 ∧ x.1 < a + m) ∧ x ∈ c0) := by
    intro x hx
    have h1 := cacheGet_of_mem hn (show (x.1, x.2) ∈ c from hx)
    rw [hget] at h1
    by_cases hw : a ≤ x.1 ∧ x.1 < a + m
    · rw [if_pos hw] at h1
      left
      cases h0 : cacheGet c0 x.1 with
      | none => rw [h0] at h1; simp at h1
      | some e =>
        rw [h0] at h1
        simp only [Option.map_some', Option.some.injEq] at h1
        exact ⟨hw.1, hw.2, by rw [← h1]; rfl⟩
    · rw [if_neg hw] at h1
      exact Or.inr ⟨hw, mem_of_cacheGet h1⟩
  intro x hx y hy hxy hne
  rcases key x hx with ⟨x1, x2, x3⟩ | ⟨x1, x2⟩
  · rcases key y hy with ⟨y1, y2, y3⟩ | ⟨y1, y2⟩
    · have hk : x.1 = y.1 := by omega
      have h1 := cacheGet_of_mem hn (show (x.1, x.2) ∈ c from hx)
      have h2 := cacheGet_of_mem hn (show (y.1, y.2) ∈ c from hy)
      rw [hk, h2] at h1
      exact Prod.ext hk (Option.some.inj h1).symm
    · have := hs0 y y2
      omega
  · rcases key y hy with ⟨y1, y2, y3⟩ | ⟨y1, y2⟩
    · have := hs0 x x2
      omega
    · exact hd0 x x2 y y2 hxy hne

/-- The stamp facts are kept by every call of `ReadAt` that returns. -/
theorem stampInv_step {σ : Type} (U : Underlying σ) (B N : Int) (s s' : ReaderAt σ)
    (hgen : GenInv B N s) (hinv : StampInv s) (ord : Cache → Cache) (fuel : Nat)
    (p : List UInt8) (off : Int) (out : ReadResult)
    (hok : s.ReadAt U ord fuel p off = .ok (out, s')) : StampInv s' := by
  obtain ⟨hBe, hNe, hnd, hst⟩ := hgen
  obtain ⟨hdist, hfresh⟩ := hinv
  have hsub := makeRoom_sublist ord s (s.startBlock off p.length) (s.endBlock off p.length)
  have hnd1 := keysNodup_sublist hsub hnd
  have hst1 := stampsLe_sublist hsub hst
  have hd1 := stampsDistinct_sublist hsub hdist
  rcases ReadAt_ok_inv _ _ _ _ _ _ _ _ hok with ⟨e, h1, -⟩ | ⟨r2, st, c, h1, h2, h3, -, h5⟩
  · obtain ⟨-, -, k3, -⟩ := fetchLoop_frame _ _ _ _ _ h1
    refine ⟨stampsDistinct_of_entries hd1 (fetchLoop_entries _ _ _ _ _ h1), fun h0 => ?_⟩
    have hk3 : s'.clock = s.clock := k3
    have hnil := hfresh (by omega)
    have hnil1 : (s.makeRoom ord (s.startBlock off p.length)
        (s.endBlock off p.length)).cache = [] := by
      have := hsub
      rw [hnil] at this
      exact List.sublist_nil.1 this
    have hab := fetchLoop_abort_first _ _ _ _ _
      (by rw [hnil1]; exact missingRanges_nil_length _ _) h1
    rw [hab, hnil1]
  · obtain ⟨k1, k2, k3, -, -, k6, k7, -⟩ := fetchLoop_frame _ _ _ _ _ h1
    have hd2 := stampsDistinct_of_entries hd1 (fetchLoop_entries _ _ _ _ _ h1)
    have h2' := h2
    rw [blockIndices_eq_toNat] at h2
    obtain ⟨c1, c2, -, c4, -, -, -⟩ := copyLoop_spec p _ _ _ (copyStart r2 p) st []
      (by simp [copyStart]) (by simp [copyStart]) (Nat.zero_le _) h2
    dsimp only [copyStart] at c1 c2 c4
    obtain ⟨c4a, c4b⟩ := c4 (k6 hnd1)
    obtain ⟨t1, -, -⟩ := trimLoop_ok _ _ _ _ _ _ h3
    have hk3 : r2.clock = s.clock := k3
    have hd3 := stampsDistinct_after_copy r2.cache st.cache r2.clock _ _ c4a
      (k7 _ (by rw [hk3]; exact hst1)) hd2 c2
    rw [h5]
    refine ⟨stampsDistinct_sublist t1 hd3, fun h0 => ?_⟩
    have h0' : st.clock = 0 := h0
    rw [c1, hk3] at h0'
    have hnil := hfresh (by omega)
    have hnil1 : (s.makeRoom ord (s.startBlock off p.length)
        (s.endBlock off p.length)).cache = [] := by
      have := hsub
      rw [hnil] at this
      exact List.sublist_nil.1 this
    have hempty : s.endBlock off p.length ≤ s.startBlock off p.length := by omega
    rw [missingRanges_of_empty _ _ _ hempty] at h1
    simp only [fetchLoop, Outcome.ok.injEq, Prod.mk.injEq, and_true] at h1
    have hr2 : r2.cache = [] := by rw [← h1]; exact hnil1
    have hst0 : st.cache = [] := by
      apply List.eq_nil_of_length_eq_zero
      rw [c4b, hr2]
      rfl
    show c = []
    have := t1
    rw [hst0] at this
    exact List.sublist_nil.1 this

theorem stampInv_New {σ : Type} (u : σ) (B N : Int) : StampInv (New u B N) :=
  ⟨fun x hx => by simp [New] at hx, fun _ => rfl⟩

theorem reachable_stampInv {σ : Type} (U : Underlying σ) (B N : Int) (s : ReaderAt σ)
    (hs : Reachable U B N s) : StampInv s := by
  induction hs with
  | init u => exact stampInv_New u B N
  | step hprev _ hok ih =>
    exact stampInv_step U B N _ _ (reachable_inv U B N _ hprev) ih _ _ _ _ _ hok

/-- In a reachable state at most one entry carries the stamp of the clock. -/
theorem oneRecent_of_inv {c : Cache} {clock : Nat} (hs : stampsLe c clock)
    (hd : stampsDistinct c) (hfresh : clock = 0 → c = []) : oneRecent c clock := by
  intro x hx y hy h1 h2
  by_cases h0 : clock = 0
  · rw [hfresh h0] at hx
    simp at hx
  · have := hs x hx
    have := hs y hy
    exact hd x hx y hy (by omega) (by omega)

/-- While the cache keeps at least one entry after them, the rounds of the first eviction
loop delete one entry each. -/
theorem evictLoop_length_exact (ord : Cache → Cache) (hord : ∀ l, (ord l).Perm l)
    (clock : Nat) (k : Nat) (c : Cache) (hn : keysNodup c) (ho : oneRecent c clock)
    (hk : k ≤ c.length - 1) : (evictLoop ord clock k c).length + k = c.length := by
  induction k generalizing c with
  | zero => rfl
  | succ k ih =>
    rw [evictLoop]
    have hlen : 2 ≤ c.length := by omega
    have h1 := evictOne_length_of_old ord clock c (hord c) hn
      (exists_old_of_oneRecent hn ho hlen)
    have hsub := evictOne_sublist ord clock c
    have := ih (evictOne ord clock c) (keysNodup_sublist hsub hn) (oneRecent_sublist hsub ho)
      (by omega)
    omega

/-- C18 (amended): for `N ≥ 1`, any source and every reachable state, when a request is
missing `m < N` blocks of its range, the first eviction loop deletes exactly
`max(0, size + m - N)` entries, so that after it the cache size plus `m`, the number of blocks
that were missing when the loop started, is at most `N`. -/
theorem prefetch_eviction_room {σ : Type} (U : Underlying σ) (B N : Int) (_hN : 1 ≤ N)
    (s : ReaderAt σ) (hs : Reachable U B N s) (ord : Cache → Cache)
    (hord : ∀ l, (ord l).Perm l) (p : List UInt8) (off : Int)
    (hm : countNewBlocks s.cache
      (blockIndices (s.startBlock off p.length) (s.endBlock off p.length)) < N) :
    ((s.makeRoom ord (s.startBlock off p.length) (s.endBlock off p.length)).cache.length : Int)
        + max 0 ((s.cache.length : Int)
          + countNewBlocks s.cache
              (blockIndices (s.startBlock off p.length) (s.endBlock off p.length)) - N)
        = s.cache.length ∧
      ((s.makeRoom ord (s.startBlock off p.length) (s.endBlock off p.length)).cache.length
          : Int)
        + countNewBlocks s.cache
            (blockIndices (s.startBlock off p.length) (s.endBlock off p.length)) ≤ N := by
  obtain ⟨hBe, hNe, hnd, hst⟩ := reachable_inv U B N s hs
  obtain ⟨hdist, hfresh⟩ := reachable_stampInv U B N s hs
  have ho := oneRecent_of_inv hst hdist hfresh
  have hm0 : 0 ≤ countNewBlocks s.cache
      (blockIndices (s.startBlock off p.length) (s.endBlock off p.length)) := by
    unfold countNewBlocks
    exact Int.natCast_nonneg _
  have hlen := evictLoop_length_exact ord hord s.clock
    ((s.cache.length : Int)
      + countNewBlocks s.cache
          (blockIndices (s.startBlock off p.length) (s.endBlock off p.length))
      - s.numBlocks).toNat s.cache hnd ho (by rw [hNe]; omega)
  have hr1 : (s.makeRoom ord (s.startBlock off p.length) (s.endBlock off p.length)).cache
      = evictLoop ord s.clock
          ((s.cache.length : Int)
            + countNewBlocks s.cache
                (blockIndices (s.startBlock off p.length) (s.endBlock off p.length))
            - s.numBlocks).toNat s.cache := rfl
  rw [hr1]
  rw [hNe] at hlen ⊢
  constructor <;> omega

theorem threeBlockState_reachable :
    Reachable (contentSource sampleContent) 2 3 threeBlockState :=
  stateAfter_reachable (contentSource sampleContent) 2 3 9 (New [] 2 3) (Reachable.init []) _
    (plain_perm [(0, 2), (2, 2), (10, 2)])

theorem oneBlockState_reachable :
    Reachable (contentSource sampleContent) 2 1 oneBlockState :=
  stateAfter_reachable (contentSource sampleContent) 2 1 9 (New [] 2 1) (Reachable.init []) _
    (plain_perm [(2, 2)])

/-- Witness of C18 (amended): `B = 2`, `N = 3`, blocks 0, 1 and 5 cached; for a read of 2
bytes at offset 12 (block 6, `m = 1`) the first eviction loop deletes one entry. -/
theorem prefetch_eviction_room_witness :
    (1 : Int) ≤ 3 ∧
    countNewBlocks threeBlockState.cache
      (blockIndices (threeBlockState.startBlock 12 ([0, 0] : List UInt8).length)
        (threeBlockState.endBlock 12 ([0, 0] : List UInt8).length)) < 3 ∧
    ((threeBlockState.makeRoom id (threeBlockState.startBlock 12 ([0, 0] : List UInt8).length)
        (threeBlockState.endBlock 12 ([0, 0] : List UInt8).length)).cache.length : Int)
      + countNewBlocks threeBlockState.cache
          (blockIndices (threeBlockState.startBlock 12 ([0, 0] : List UInt8).length)
            (threeBlockState.endBlock 12 ([0, 0] : List UInt8).length)) ≤ 3 :=
  ⟨by decide, by decide,
    (prefetch_eviction_room (contentSource sampleContent) 2 3 (by decide) threeBlockState
      threeBlockState_reachable id (fun l => List.Perm.refl l) [0, 0] 12 (by decide)).2⟩

/-- C18 as stated fails.  With `B = 2`, `N = 3` and blocks 0, 1 and 5 cached, a read of 6
bytes at offset 0 (blocks 0, 1, 2) is missing `m = 1` block; the first eviction loop deletes
block 0, the least recent, which the request needs: after the loop 2 blocks are cached and 2
blocks of the range are missing, 4 in all.  With `B = 2`, `N = 1` and block 1 cached, whose
stamp is the value of the clock, a read of block 2 is missing `m = 1 = N` block; the victim
search finds no entry older than the clock, the loop deletes nothing, and after it 1 block is
cached and 1 block is missing. -/
theorem prefetch_eviction_no_room :
    (Reachable (contentSource sampleContent) 2 3 threeBlockState ∧
      threeBlockState.startBlock 0 6 = 0 ∧ threeBlockState.endBlock 0 6 = 3 ∧
      countNewBlocks threeBlockState.cache (blockIndices 0 3) = 1 ∧
      (threeBlockState.makeRoom id 0 3).cache.length = 2 ∧
      missingBlocks (threeBlockState.makeRoom id 0 3).cache 0 3 = [0, 2] ∧
      threeBlockState.numBlocks
        < ((threeBlockState.makeRoom id 0 3).cache.length : Int)
          + ((missingBlocks (threeBlockState.makeRoom id 0 3).cache 0 3).length : Int)) ∧
    (Reachable (contentSource sampleContent) 2 1 oneBlockState ∧
      oneBlockState.startBlock 4 2 = 2 ∧ oneBlockState.endBlock 4 2 = 3 ∧
      countNewBlocks oneBlockState.cache (blockIndices 2 3) = 1 ∧
      (oneBlockState.makeRoom id 2 3).cache.length = 1 ∧
      missingBlocks (oneBlockState.makeRoom id 2 3).cache 2 3 = [2] ∧
      oneBlockState.numBlocks
        < ((oneBlockState.makeRoom id 2 3).cache.length : Int)
          + ((missingBlocks (oneBlockState.makeRoom id 2 3).cache 2 3).length : Int)) :=
  ⟨⟨threeBlockState_reachable, rfl, rfl, rfl, rfl, rfl, by decide⟩,
    ⟨oneBlockState_reachable, rfl, rfl, rfl, rfl, rfl, by decide⟩⟩
/-! ## C14, C15: the cache after an aborted request -/

theorem overfullState_reachable : Reachable (flakySource sampleContent 4) 2 3 overfullState :=
  stateAfter_reachable (flakySource sampleContent 4) 2 3 9 (New 0 2 3) (Reachable.init 0) _
    (plain_perm [(0, 2), (2, 2), (6, 2), (0, 10)])

/-- C14 (evaluation of the code where the claim fails): with `B = 2`, `N = 3` and blocks 0, 1
and 3 cached, a read of 10 bytes at offset 0 whose second call to the source fails returns 0
bytes with the error of the source and leaves 4 blocks cached: the blocks 0, 1 and 2 of the
first run were inserted, and the aborted request returns before the second eviction loop. -/
theorem failed_read_overfills_cache :
    Reachable (flakySource sampleContent 4) 2 3
      (stateAfter (flakySource sampleContent 4) 9 (New 0 2 3)
        ([(0, 2), (2, 2), (6, 2)].map (fun x => Request.plain x.1 x.2))) ∧
    (stateAfter (flakySource sampleContent 4) 9 (New 0 2 3)
        ([(0, 2), (2, 2), (6, 2)].map (fun x => Request.plain x.1 x.2))).ReadAt
      (flakySource sampleContent 4) id 9 (List.replicate 10 0) 0
        = .ok ({ n := 0, err := some (GoError.other 1), p := List.replicate 10 0 },
            overfullState) ∧
    overfullState.numBlocks = 3 ∧ overfullState.cache.length = 4 ∧
    overfullState.cache.map Prod.fst = [2, 1, 0, 3] :=
  ⟨stateAfter_reachable (flakySource sampleContent 4) 2 3 9 (New 0 2 3) (Reachable.init 0) _
      (plain_perm [(0, 2), (2, 2), (6, 2)]),
    rfl, rfl, rfl, rfl⟩

/-- C15 (evaluation of the code where the claim fails): in the reachable state
`overfullState` (`N = 3`, blocks 0, 1, 2 and 3 cached after an aborted request) every block of
a read of 2 bytes at offset 4 (block 2) or at offset 6 (block 3) is cached, so that
`canBeServedFromCache` is true; yet the first eviction loop of `processReadRequest` runs
(`numToEvict = 4 + 0 - 3`).  For the read at offset 6 it deletes block 2 from the map.  For
the read at offset 4 it deletes block 2 itself, which is then fetched from the source and
inserted again, and the second eviction loop deletes block 1. -/
theorem full_hit_mutates_cache :
    Reachable (flakySource sampleContent 4) 2 3 overfullState ∧
    (overfullState.canBeServedFromCache { buffer := [0, 0], offset := 6, err := none } = true ∧
      ∃ out s', overfullState.ReadAt (flakySource sampleContent 4) id 9 [0, 0] 6
          = .ok (out, s') ∧
        s'.underlayReqs = overfullState.underlayReqs ∧
        cacheHas overfullState.cache 2 = true ∧ cacheHas s'.cache 2 = false) ∧
    (overfullState.canBeServedFromCache { buffer := [0, 0], offset := 4, err := none } = true ∧
      ∃ out s', overfullState.ReadAt (flakySource sampleContent 4) id 9 [0, 0] 4
          = .ok (out, s') ∧
        s'.underlayReqs = overfullState.underlayReqs + 1 ∧
        s'.underlying = overfullState.underlying + 1 ∧
        cacheHas overfullState.cache 1 = true ∧ cacheHas s'.cache 1 = false) :=
  ⟨overfullState_reachable, ⟨rfl, _, _, rfl, rfl, rfl, rfl⟩,
    ⟨rfl, _, _, rfl, rfl, rfl, rfl, rfl⟩⟩
/-! ## C20: coherence of the cache over static content, for calls at any offset -/

/-- The static source rejects a negative offset. -/
theorem contentSource_neg (content : List UInt8) (calls : List (Int × Nat)) (len : Nat)
    (off : Int) (h : off < 0) :
    (contentSource content).ReadAt calls len off
      = (([], some (GoError.other 0)), calls ++ [(off, len)]) := by
  unfold contentSource
  simp only [h, if_true]

/-- The fetch loop is aborted by a call that fails with an error other than end-of-stream. -/
theorem fetchLoop_cons_fail {σ : Type} (U : Underlying σ) (mr : Int × Int)
    (rest : List (Int × Int)) (r : ReaderAt σ) (d : List UInt8) (code : Nat) (u : σ)
    (hnn : 0 ≤ (mr.2 - mr.1) * r.blockSize)
    (hres : U.ReadAt r.underlying ((mr.2 - mr.1) * r.blockSize).toNat (mr.1 * r.blockSize)
      = ((d, some (GoError.other code)), u)) :
    fetchLoop U (mr :: rest) r
      = .ok ({ r with underlying := u, underlayBytes := r.underlayBytes + d.length,
                      underlayReqs := r.underlayReqs + 1 }, some (GoError.other code)) := by
  have hlen : (r.blockRangeToRangeExact mr.1 mr.2).2 - (r.blockRangeToRangeExact mr.1 mr.2).1
      = (mr.2 - mr.1) * r.blockSize := by
    simp only [ReaderAt.blockRangeToRangeExact]; ring
  have hoff : (r.blockRangeToRangeExact mr.1 mr.2).1 = mr.1 * r.blockSize := rfl
  rw [fetchLoop]
  dsimp only
  rw [hlen, hoff, if_neg (by omega), hres]

/-- Over static content the fetch loop, aborted or not, keeps the cache coherent and its keys
non-negative. -/
theorem fetchLoop_static_any (content : List UInt8) (b : Nat) (hb : 1 ≤ b)
    (runs : List (Int × Int)) (r r' : ReaderAt (List (Int × Nat))) (err : Option GoError)
    (hB : r.blockSize = (b : Int)) (hruns : ∀ mr ∈ runs, mr.1 < mr.2)
    (hn : keysNodup r.cache) (hc : coherent content (b : Int) r.cache)
    (hk : keysNonneg r.cache)
    (h : fetchLoop (contentSource content) runs r = .ok (r', err)) :
    coherent content (b : Int) r'.cache ∧ keysNonneg r'.cache := by
  induction runs generalizing r with
  | nil =>
    simp only [fetchLoop, Outcome.ok.injEq, Prod.mk.injEq] at h
    obtain ⟨rfl, -⟩ := h
    exact ⟨hc, hk⟩
  | cons mr rest ih =>
    have hlt := hruns mr (List.mem_cons_self _ _)
    rcases le_or_lt 0 mr.1 with h0 | h0
    · obtain ⟨r1, f1, -, -, f4⟩ := fetchLoop_content content b hb [mr] r hB
        (fun m hm => by
          simp only [List.mem_singleton] at hm
          subst hm
          exact ⟨h0, hlt⟩)
      have happ := fetchLoop_append (contentSource content) [mr] rest r r1 f1
      rw [List.singleton_append] at happ
      rw [happ] at h
      obtain ⟨k1, -, -, -, -, k6, -⟩ := fetchLoop_frame _ _ _ _ _ f1
      have hn1 := k6 hn
      have hmem : ∀ kv ∈ r1.cache, (mr.1 ≤ kv.1 ∧ kv.2.data = blockData content (b : Int) kv.1)
          ∨ kv ∈ r.cache := by
        intro kv hkv
        have h1 := cacheGet_of_mem hn1 (show (kv.1, kv.2) ∈ r1.cache from hkv)
        rw [f4 kv.1] at h1
        by_cases hin : kv.1 ∈ runBlocks [mr]
        · rw [if_pos hin] at h1
          left
          simp only [runBlocks, List.append_nil, mem_blockIndices] at hin
          exact ⟨hin.1, by rw [← Option.some.inj h1]⟩
        · rw [if_neg hin] at h1
          exact Or.inr (mem_of_cacheGet h1)
      apply ih r1 (by rw [k1]; exact hB) (fun m hm => hruns m (List.mem_cons_of_mem _ hm)) hn1
        _ _ h
      · intro kv hkv
        rcases hmem kv hkv with h1 | h1
        · exact h1.2
        · exact hc kv h1
      · intro kv hkv
        rcases hmem kv hkv with h1 | h1
        · omega
        · exact hk kv h1
    · have hneg : mr.1 * r.blockSize < 0 := by
        rw [hB]
        have : (1 : Int) ≤ (b : Int) := by exact_mod_cast hb
        nlinarith
      have hnn : 0 ≤ (mr.2 - mr.1) * r.blockSize := by
        rw [hB]
        exact Int.mul_nonneg (by omega) (by omega)
      rw [fetchLoop_cons_fail _ mr rest r [] 0 _ hnn (contentSource_neg content _ _ _ hneg)] at h
      simp only [Outcome.ok.injEq, Prod.mk.injEq] at h
      obtain ⟨rfl, -⟩ := h
      exact ⟨hc, hk⟩

theorem keysNonneg_sublist {c d : Cache} (h : d.Sublist c) (hk : keysNonneg c) :
    keysNonneg d :=
  fun kv hkv => hk kv (h.subset hkv)

/-- Over static content every call of `ReadAt` that returns, at any offset, keeps the cache
coherent and its keys non-negative. -/
theorem coherent_step (content : List UInt8) (B N : Int) (hB : 1 ≤ B)
    (s s' : ReaderAt (List (Int × Nat))) (hgen : GenInv B N s)
    (hc : coherent content B s.cache) (hk : keysNonneg s.cache) (ord : Cache → Cache)
    (fuel : Nat) (p : List UInt8) (off : Int) (out : ReadResult)
    (hok : s.ReadAt (contentSource content) ord fuel p off = .ok (out, s')) :
    coherent content B s'.cache ∧ keysNonneg s'.cache := by
  obtain ⟨hBe, hNe, hnd, hst⟩ := hgen
  have hb : B = ((B.toNat : Nat) : Int) := (Int.toNat_of_nonneg (by omega)).symm
  have hsub := makeRoom_sublist ord s (s.startBlock off p.length) (s.endBlock off p.length)
  have hnd1 := keysNodup_sublist hsub hnd
  have hc1 := coherent_sublist hsub hc
  have hk1 := keysNonneg_sublist hsub hk
  have hB1 : (s.makeRoom ord (s.startBlock off p.length) (s.endBlock off p.length)).blockSize
      = ((B.toNat : Nat) : Int) := by
    rw [← hb]; exact hBe
  obtain ⟨-, hruns⟩ := missingRanges_spec
    (s.makeRoom ord (s.startBlock off p.length) (s.endBlock off p.length)).cache
    (s.startBlock off p.length) (s.endBlock off p.length)
  rw [hb] at hc1 ⊢
  rcases ReadAt_ok_inv _ _ _ _ _ _ _ _ hok with ⟨e, h1, -⟩ | ⟨r2, st, c, h1, h2, h3, -, h5⟩
  · exact fetchLoop_static_any content B.toNat (by omega) _ _ _ _ hB1
      (fun mr hmr => (hruns mr hmr).2.1) hnd1 hc1 hk1 h1
  · obtain ⟨hc2, hk2⟩ := fetchLoop_static_any content B.toNat (by omega) _ _ _ _ hB1
      (fun mr hmr => (hruns mr hmr).2.1) hnd1 hc1 hk1 h1
    obtain ⟨-, -, -, -, -, k6, -⟩ := fetchLoop_frame _ _ _ _ _ h1
    rw [blockIndices_eq_toNat] at h2
    obtain ⟨-, c2, -, c4, -, -, -⟩ := copyLoop_spec p _ _ _ (copyStart r2 p) st []
      (by simp [copyStart]) (by simp [copyStart]) (Nat.zero_le _) h2
    dsimp only [copyStart] at c2 c4
    obtain ⟨c4a, -⟩ := c4 (k6 hnd1)
    obtain ⟨t1, -, -⟩ := trimLoop_ok _ _ _ _ _ _ h3
    have hmem : ∀ kv ∈ st.cache, ∃ e0, (kv.1, e0) ∈ r2.cache ∧ kv.2.data = e0.data := by
      intro kv hkv
      have h6 := cacheGet_of_mem c4a (show (kv.1, kv.2) ∈ st.cache from hkv)
      rw [c2 kv.1] at h6
      split_ifs at h6 with hin
      · cases h0 : cacheGet r2.cache kv.1 with
        | none => rw [h0] at h6; simp at h6
        | some e0 =>
          rw [h0] at h6
          simp only [Option.map_some', Option.some.injEq] at h6
          exact ⟨e0, mem_of_cacheGet h0, by rw [← h6]; rfl⟩
      · exact ⟨kv.2, mem_of_cacheGet h6, rfl⟩
    have hcache : s'.cache = c := by rw [h5]; rfl
    rw [hcache]
    constructor
    · intro kv hkv
      obtain ⟨e0, he0, hd⟩ := hmem kv (t1.subset hkv)
      rw [hd]
      exact hc2 (kv.1, e0) he0
    · intro kv hkv
      obtain ⟨e0, he0, -⟩ := hmem kv (t1.subset hkv)
      exact hk2 (kv.1, e0) he0

theorem reachable_coherent (content : List UInt8) (B N : Int) (hB : 1 ≤ B)
    (s : ReaderAt (List (Int × Nat))) (hs : Reachable (contentSource content) B N s) :
    coherent content B s.cache ∧ keysNonneg s.cache := by
  induction hs with
  | init u => exact ⟨fun kv hkv => by simp [New] at hkv, fun kv hkv => by simp [New] at hkv⟩
  | step hprev _ hok ih =>
    exact coherent_step content B N hB _ _ (reachable_inv _ B N _ hprev) ih.1 ih.2 _ _ _ _ _ hok

/-- C20: with `B ≥ 1`, over static content of length `F`, in every state reached by calls of
`ReadAt` at any offsets, every cached key `i` is non-negative and its entry holds exactly the
bytes `content[i*B .. min((i+1)*B, F))`, nothing when `i*B ≥ F`; hence every cached block has
at most `B` bytes, and a block shorter than `B` contains the end of the content or lies past
it (`F < (i+1)*B`). -/
theorem cache_coherence (content : List UInt8) (B N : Int) (hB : 1 ≤ B)
    (s : ReaderAt (List (Int × Nat))) (hs : Reachable (contentSource content) B N s) :
    ∀ kv ∈ s.cache, 0 ≤ kv.1 ∧
      kv.2.data = (content.drop (kv.1 * B).toNat).take B.toNat ∧
      ((kv.2.data.length : Int) = min B (max 0 ((content.length : Int) - kv.1 * B))) ∧
      ((content.length : Int) ≤ kv.1 * B → kv.2.data = []) ∧
      (kv.2.data.length : Int) ≤ B ∧
      ((kv.2.data.length : Int) < B → (content.length : Int) < (kv.1 + 1) * B) := by
  obtain ⟨hc, hk⟩ := reachable_coherent content B N hB s hs
  intro kv hkv
  have h0 := hk kv hkv
  have hd := hc kv hkv
  have hb : B = ((B.toNat : Nat) : Int) := (Int.toNat_of_nonneg (by omega)).symm
  have hn : kv.1 = ((kv.1.toNat : Nat) : Int) := (Int.toNat_of_nonneg h0).symm
  have hlen := blockData_length content B.toNat kv.1.toNat
  rw [← hb, ← hn, ← hd] at hlen
  have hmul : kv.1 * B = ((kv.1.toNat * B.toNat : Nat) : Int) := by
    push_cast
    rw [← hb, ← hn]
  have hlen' : (kv.2.data.length : Int) = min B (max 0 ((content.length : Int) - kv.1 * B)) := by
    rw [hlen, hmul]
    omega
  refine ⟨h0, hd, hlen', fun hF => ?_, by omega, fun hshort => ?_⟩
  · apply List.eq_nil_of_length_eq_zero
    omega
  · rw [add_mul, one_mul]
    omega

/-- Witness of C20: `B = 4`, `N = 2`, the state with blocks 0 and 1 of `sampleContent`. -/
theorem cache_coherence_witness :
    (1 : Int) ≤ 4 ∧
    ∀ kv ∈ twoBlockState.cache, 0 ≤ kv.1 ∧
      kv.2.data = (sampleContent.drop (kv.1 * 4).toNat).take (4 : Int).toNat :=
  ⟨by decide, fun kv hkv =>
    ⟨(cache_coherence sampleContent 4 2 (by decide) twoBlockState twoBlockState_reachable
        kv hkv).1,
      (cache_coherence sampleContent 4 2 (by decide) twoBlockState twoBlockState_reachable
        kv hkv).2.1⟩⟩
/-! ## C13: calls at a negative offset -/

/-- Over static content the fetch loop is aborted only by its first call, made at a negative
offset; nothing was inserted before. -/
theorem fetchLoop_static_abort (content : List UInt8) (b : Nat) (hb : 1 ≤ b)
    (runs : List (Int × Int)) (r r' : ReaderAt (List (Int × Nat))) (e : GoError)
    (hB : r.blockSize = (b : Int)) (hruns : ∀ mr ∈ runs, mr.1 < mr.2)
    (hsep : runs.Pairwise (fun r1 r2 => r1.2 < r2.1))
    (h : fetchLoop (contentSource content) runs r = .ok (r', some e)) :
    ∃ mr rest, runs = mr :: rest ∧ mr.1 * (b : Int) < 0 ∧ e = GoError.other 0 ∧
      r'.cache = r.cache ∧ r'.clock = r.clock ∧
      r'.underlying = r.underlying ++ [(mr.1 * (b : Int), ((mr.2 - mr.1) * (b : Int)).toNat)] ∧
      r'.underlayReqs = r.underlayReqs + 1 ∧ r'.underlayBytes = r.underlayBytes ∧
      r'.overlayReqs = r.overlayReqs ∧ r'.overlayBytes = r.overlayBytes := by
  match runs, hruns, hsep, h with
  | [], _, _, h => simp [fetchLoop] at h
  | mr :: rest, hruns, hsep, h =>
    have hlt := hruns mr (List.mem_cons_self _ _)
    have hb' : (1 : Int) ≤ (b : Int) := by exact_mod_cast hb
    rcases le_or_lt 0 mr.1 with h0 | h0
    · rw [List.pairwise_cons] at hsep
      obtain ⟨r1, f1, -⟩ := fetchLoop_content content b hb (mr :: rest) r hB (fun m hm => by
        rcases List.mem_cons.1 hm with rfl | hm
        · exact ⟨h0, hlt⟩
        · have := hsep.1 m hm
          exact ⟨by omega, hruns m (List.mem_cons_of_mem _ hm)⟩)
      rw [f1] at h
      simp at h
    · have hneg : mr.1 * r.blockSize < 0 := by
        rw [hB]
        nlinarith
      have hnn : 0 ≤ (mr.2 - mr.1) * r.blockSize := by
        rw [hB]
        exact Int.mul_nonneg (by omega) (by omega)
      rw [fetchLoop_cons_fail _ mr rest r [] 0 _ hnn (contentSource_neg content _ _ _ hneg)] at h
      simp only [Outcome.ok.injEq, Prod.mk.injEq, Option.some.injEq] at h
      obtain ⟨rfl, rfl⟩ := h
      rw [hB] at hneg
      refine ⟨mr, rest, rfl, hneg, rfl, rfl, rfl, ?_, rfl, rfl, rfl, rfl⟩
      show r.underlying ++ _ = _
      rw [hB]

/-- C13 (amended): with `B ≥ 1`, over static content (a source that rejects negative
offsets), from every reachable state, a call of `ReadAt` at a negative offset with a buffer
of at least one byte that returns, returns 0 bytes with an error and leaves the clock,
`overlayBytes` and `underlayBytes` unchanged and the cache a sublist of what it was (nothing
is added, no stamp changes, entries may be evicted).  Either the block range of the request
is empty: the error is end-of-stream, the source is not called and `overlayReqs` grows by 1;
or the source is called once, at a negative offset: the error is the one of the source,
`underlayReqs` grows by 1 and `overlayReqs` is unchanged. -/
theorem negative_offset_read (content : List UInt8) (B N : Int) (hB : 1 ≤ B)
    (s : ReaderAt (List (Int × Nat))) (hs : Reachable (contentSource content) B N s)
    (ord : Cache → Cache) (fuel : Nat) (p : List UInt8) (off : Int) (hoff : off < 0)
    (hp : 1 ≤ p.length) (out : ReadResult) (s' : ReaderAt (List (Int × Nat)))
    (hok : s.ReadAt (contentSource content) ord fuel p off = .ok (out, s')) :
    out.n = 0 ∧ s'.clock = s.clock ∧ s'.cache.Sublist s.cache ∧
      s'.overlayBytes = s.overlayBytes ∧ s'.underlayBytes = s.underlayBytes ∧
      ((out.err = some GoError.EOF ∧
          s.endBlock off p.length ≤ s.startBlock off p.length ∧
          s'.underlying = s.underlying ∧ s'.underlayReqs = s.underlayReqs ∧
          s'.overlayReqs = s.overlayReqs + 1) ∨
        (out.err = some (GoError.other 0) ∧
          (∃ o len, o < 0 ∧ s'.underlying = s.underlying ++ [(o, len)]) ∧
          s'.underlayReqs = s.underlayReqs + 1 ∧ s'.overlayReqs = s.overlayReqs)) := by
  obtain ⟨hBe, hNe, hnd, hst⟩ := reachable_inv _ B N s hs
  obtain ⟨hc, hk⟩ := reachable_coherent content B N hB s hs
  have hb : B = ((B.toNat : Nat) : Int) := (Int.toNat_of_nonneg (by omega)).symm
  have hsub := makeRoom_sublist ord s (s.startBlock off p.length) (s.endBlock off p.length)
  have hnd1 := keysNodup_sublist hsub hnd
  have hc1 := coherent_sublist hsub hc
  have hk1 := keysNonneg_sublist hsub hk
  have hB1 : (s.makeRoom ord (s.startBlock off p.length) (s.endBlock off p.length)).blockSize
      = ((B.toNat : Nat) : Int) := by
    rw [← hb]; exact hBe
  obtain ⟨-, hruns⟩ := missingRanges_spec
    (s.makeRoom ord (s.startBlock off p.length) (s.endBlock off p.length)).cache
    (s.startBlock off p.length) (s.endBlock off p.length)
  have hsep := missingRanges_separated
    (s.makeRoom ord (s.startBlock off p.length) (s.endBlock off p.length)).cache
    (s.startBlock off p.length) (s.endBlock off p.length)
  rw [hb] at hc1
  rcases ReadAt_ok_inv _ _ _ _ _ _ _ _ hok with ⟨e, h1, ho⟩ | ⟨r2, st, c, h1, h2, h3, ho, h5⟩
  · obtain ⟨mr, rest, -, a2, a3, a4, a5, a6, a7, a8, a9, a10⟩ :=
      fetchLoop_static_abort content B.toNat (by omega) _ _ _ _ hB1
        (fun mr hmr => (hruns mr hmr).2.1) hsep h1
    rw [ho]
    refine ⟨rfl, a5, by rw [a4]; exact hsub, a10, a8, Or.inr ⟨by rw [a3], ⟨_, _, a2, a6⟩,
      a7, a9⟩⟩
  · obtain ⟨-, hk2⟩ := fetchLoop_static_any content B.toNat (by omega) _ _ _ _ hB1
      (fun mr hmr => (hruns mr hmr).2.1) hnd1 hc1 hk1 h1
    have hempty : s.endBlock off p.length ≤ s.startBlock off p.length := by
      by_contra hcon
      rw [blockIndices_cons (by omega)] at h2
      obtain ⟨e, he, hw, -⟩ := copyLoop_cons_inv _ _ _ _ _ h2
      have h0 := hk2 _ (mem_of_cacheGet he)
      have : 0 ≤ s.startBlock off p.length * s.blockSize :=
        Int.mul_nonneg h0 (by rw [hBe]; omega)
      omega
    rw [missingRanges_of_empty _ _ _ hempty] at h1
    simp only [fetchLoop, Outcome.ok.injEq, Prod.mk.injEq, and_true] at h1
    rw [blockIndices_nil hempty] at h2
    simp only [copyLoop, Outcome.ok.injEq] at h2
    obtain ⟨t1, -, -⟩ := trimLoop_ok _ _ _ _ _ _ h3
    have hres : copyResult p st = { n := 0, err := some GoError.EOF, p := p } := by
      rw [← h2]
      unfold copyResult copyStart
      simp only
      rw [if_pos (by omega)]
      simp
    rw [hres] at ho h5
    rw [ho, h5, ← h2, ← h1]
    refine ⟨rfl, rfl, ?_, rfl, rfl, Or.inl ⟨rfl, hempty, rfl, rfl, rfl⟩⟩
    show c.Sublist s.cache
    rw [← h2, ← h1] at t1
    exact t1.trans hsub

/-- Witness of C13 (amended): `B = 4`, `N = 2`, empty cache, a read of 10 bytes at offset
`-5`, which calls the source at offset `-4`. -/
theorem negative_offset_read_witness :
    (1 : Int) ≤ 4 ∧ (-5 : Int) < 0 ∧
    (New [] 4 2).ReadAt (contentSource sampleContent) id 5
        [0, 0, 0, 0, 0, 0, 0, 0, 0, 0] (-5)
      = .ok ({ n := 0, err := some (GoError.other 0), p := [0, 0, 0, 0, 0, 0, 0, 0, 0, 0] },
          { underlying := [(-4, 12)], blockSize := 4, numBlocks := 2, cache := [],
            clock := 0, overlayBytes := 0, underlayBytes := 0, overlayReqs := 0,
            underlayReqs := 1 }) ∧
    (({ underlying := [(-4, 12)], blockSize := 4, numBlocks := 2, cache := [],
        clock := 0, overlayBytes := 0, underlayBytes := 0, overlayReqs := 0,
        underlayReqs := 1 } : ReaderAt (List (Int × Nat))).cache).Sublist
      (New ([] : List (Int × Nat)) 4 2).cache :=
  ⟨by decide, by decide, rfl,
    (negative_offset_read sampleContent 4 2 (by decide) (New [] 4 2) (Reachable.init [])
      id 5 [0, 0, 0, 0, 0, 0, 0, 0, 0, 0] (-5) (by decide) (by decide)
      { n := 0, err := some (GoError.other 0), p := [0, 0, 0, 0, 0, 0, 0, 0, 0, 0] }
      { underlying := [(-4, 12)], blockSize := 4, numBlocks := 2, cache := [],
        clock := 0, overlayBytes := 0, underlayBytes := 0, overlayReqs := 0,
        underlayReqs := 1 } (by rfl)).2.2.1⟩

/-- C13 as stated fails: no call is rejected.  With `B = 4`, `N = 2` and an empty cache, a
read of 10 bytes at offset `-5` calls the source at offset `-4` (`underlayReqs` becomes 1)
and returns the error of the source; a read of 1 byte at offset `-1` has an empty block
range and returns 0 bytes with end-of-stream, counted in `overlayReqs`; a read of 2 bytes at
offset `-1` fetches block 0 and panics in the copy loop, where `waste = -1`. -/
theorem negative_offset_not_rejected :
    (New [] 4 2).ReadAt (contentSource sampleContent) id 5 [0, 0, 0, 0, 0, 0, 0, 0, 0, 0] (-5)
        = .ok ({ n := 0, err := some (GoError.other 0), p := [0, 0, 0, 0, 0, 0, 0, 0, 0, 0] },
            { underlying := [(-4, 12)], blockSize := 4, numBlocks := 2, cache := [],
              clock := 0, overlayBytes := 0, underlayBytes := 0, overlayReqs := 0,
              underlayReqs := 1 }) ∧
      (New [] 4 2).ReadAt (contentSource sampleContent) id 5 [0] (-1)
        = .ok ({ n := 0, err := some GoError.EOF, p := [0] },
            { underlying := [], blockSize := 4, numBlocks := 2, cache := [],
              clock := 0, overlayBytes := 0, underlayBytes := 0, overlayReqs := 1,
              underlayReqs := 0 }) ∧
      (New [] 4 2).ReadAt (contentSource sampleContent) id 5 [0, 0] (-1) = Outcome.panic := by
  refine ⟨rfl, rfl, rfl⟩
/-! ## C21: termination -/

/-- The fetch loop has no unbounded loop: it returns or panics. -/
theorem fetchLoop_ne_outOfFuel {σ : Type} (U : Underlying σ) (runs : List (Int × Int))
    (r : ReaderAt σ) : fetchLoop U runs r ≠ .outOfFuel := by
  induction runs generalizing r with
  | nil => simp [fetchLoop]
  | cons mr rest ih =>
    rw [fetchLoop]
    dsimp only
    split_ifs <;> (try split) <;> first | exact ih _ | simp

/-- The copy loop has no unbounded loop: it returns or panics. -/
theorem copyLoop_ne_outOfFuel (blocks : List Int) (waste : Int) (st : CopyState) :
    copyLoop blocks waste st ≠ .outOfFuel := by
  induction blocks generalizing waste st with
  | nil => simp [copyLoop]
  | cons i rest ih =>
    rw [copyLoop]
    split
    · simp
    · dsimp only
      split_ifs <;> first | exact ih _ _ | simp

theorem ReadAt_of_fetch_panic {σ : Type} (U : Underlying σ) (ord : Cache → Cache) (fuel : Nat)
    (s : ReaderAt σ) (p : List UInt8) (off : Int)
    (hfl : fetchLoop U
          (missingRanges
            (s.makeRoom ord (s.startBlock off p.length) (s.endBlock off p.length)).cache
            (s.startBlock off p.length) (s.endBlock off p.length))
          (s.makeRoom ord (s.startBlock off p.length) (s.endBlock off p.length)) = .panic) :
    s.ReadAt U ord fuel p off = .panic := by
  unfold ReaderAt.startBlock ReaderAt.endBlock at hfl
  unfold ReaderAt.ReadAt
  simp only [ite_self]
  unfold ReaderAt.processReadRequest
  dsimp only
  rw [hfl]

theorem ReadAt_of_copy_panic {σ : Type} (U : Underlying σ) (ord : Cache → Cache) (fuel : Nat)
    (s : ReaderAt σ) (p : List UInt8) (off : Int) (r2 : ReaderAt σ)
    (hfl : fetchLoop U
          (missingRanges
            (s.makeRoom ord (s.startBlock off p.length) (s.endBlock off p.length)).cache
            (s.startBlock off p.length) (s.endBlock off p.length))
          (s.makeRoom ord (s.startBlock off p.length) (s.endBlock off p.length))
            = .ok (r2, none))
    (hcl : copyLoop (blockIndices (s.startBlock off p.length) (s.endBlock off p.length))
          (off - (s.startBlock off p.length) * s.blockSize) (copyStart r2 p) = .panic) :
    s.ReadAt U ord fuel p off = .panic := by
  unfold ReaderAt.startBlock ReaderAt.endBlock at hfl hcl
  unfold ReaderAt.ReadAt
  simp only [ite_self]
  unfold ReaderAt.processReadRequest
  dsimp only
  rw [hfl]
  dsimp only
  unfold copyStart at hcl
  simp only [ReaderAt.blockRangeToRangeExact]
  rw [hcl]

/-- With at most one entry stamped with the clock, every round of the second eviction loop
finds a victim older than the clock and deletes it, so the loop makes exactly
`max(0, len - N)` rounds. -/
theorem trimRounds_facts (ord : Cache → Cache) (hord : ∀ l, (ord l).Perm l) (clock : Nat)
    (numBlocks : Int) (hN : 1 ≤ numBlocks) (fuel : Nat) (c : Cache) (hn : keysNodup c)
    (ho : oneRecent c clock) (hfuel : c.length < fuel) :
    ((trimRounds ord clock numBlocks fuel c).length : Int)
        = max 0 ((c.length : Int) - numBlocks) ∧
      ∀ rd ∈ trimRounds ord clock numBlocks fuel c,
        ∃ kv ∈ rd.1, kv.1 = (oldestScan clock (ord rd.1)).1 ∧ kv.2.lastAccessed < clock ∧
          rd.2 = cacheDelete rd.1 kv.1 ∧ kv ∉ rd.2 ∧ rd.2.length + 1 = rd.1.length := by
  induction fuel generalizing c with
  | zero => omega
  | succ fuel ih =>
    rw [trimRounds]
    by_cases hlt : numBlocks < (c.length : Int)
    · rw [if_pos hlt]
      have hsub := evictOne_sublist ord clock c
      have hold := exists_old_of_oneRecent hn ho (by omega)
      have hlen := evictOne_length_of_old ord clock c (hord c) hn hold
      obtain ⟨i1, i2⟩ := ih (evictOne ord clock c) (keysNodup_sublist hsub hn)
        (oneRecent_sublist hsub ho) (by omega)
      constructor
      · rw [List.length_cons]
        push_cast
        rw [i1]
        omega
      · intro rd hrd
        rcases List.mem_cons.1 hrd with rfl | hrd
        · rcases oldestScan_spec ord clock c (hord c) with ⟨e, he1, he2, -⟩ | ⟨-, hall⟩
          · refine ⟨((oldestScan clock (ord c)).1, e), he1, rfl, he2, rfl, ?_, hlen⟩
            intro hmem
            exact ((mem_delete_iff _ _ _).1 hmem).2 rfl
          · obtain ⟨kv, hkv, hlt2⟩ := hold
            have := hall kv hkv
            omega
        · exact i2 rd hrd
    · rw [if_neg hlt]
      exact ⟨by simp only [List.length_nil]; omega, fun rd hrd => by simp at hrd⟩

/-- The cache that the copy loop of a request hands to the second eviction loop has at most
one entry stamped with the clock, and at most as many entries as the cache had before the
request plus the blocks of the range. -/
theorem copy_cache_facts {σ : Type} (U : Underlying σ) (B N : Int) (s : ReaderAt σ)
    (hs : Reachable U B N s) (ord : Cache → Cache) (p : List UInt8) (off : Int)
    (r2 : ReaderAt σ) (st : CopyState)
    (h1 : fetchLoop U
          (missingRanges
            (s.makeRoom ord (s.startBlock off p.length) (s.endBlock off p.length)).cache
            (s.startBlock off p.length) (s.endBlock off p.length))
          (s.makeRoom ord (s.startBlock off p.length) (s.endBlock off p.length))
            = .ok (r2, none))
    (h2 : copyLoop (blockIndices (s.startBlock off p.length) (s.endBlock off p.length))
          (off - (s.startBlock off p.length) * s.blockSize) (copyStart r2 p) = .ok st) :
    keysNodup st.cache ∧ oneRecent st.cache st.clock ∧
      st.cache.length ≤ s.cache.length
        + (s.endBlock off p.length - s.startBlock off p.length).toNat := by
  obtain ⟨hBe, hNe, hnd, hst⟩ := reachable_inv U B N s hs
  obtain ⟨hdist, hfresh⟩ := reachable_stampInv U B N s hs
  have ho := oneRecent_of_inv hst hdist hfresh
  have hsub := makeRoom_sublist ord s (s.startBlock off p.length) (s.endBlock off p.length)
  have hnd1 := keysNodup_sublist hsub hnd
  have hst1 := stampsLe_sublist hsub hst
  obtain ⟨hr1, hr2⟩ := missingRanges_spec
    (s.makeRoom ord (s.startBlock off p.length) (s.endBlock off p.length)).cache
    (s.startBlock off p.length) (s.endBlock off p.length)
  obtain ⟨-, -, k3, -, -, k6, k7, k8, -⟩ := fetchLoop_frame _ _ _ _ _ h1
  obtain ⟨d1, d2, -⟩ := fetchLoop_done _ _ _ _ h1
  have hk3 : r2.clock = s.clock := k3
  have h2' := h2
  rw [blockIndices_eq_toNat] at h2
  obtain ⟨c1, c2, -, c4, -, -, -⟩ := copyLoop_spec p _ _ _ (copyStart r2 p) st []
    (by simp [copyStart]) (by simp [copyStart]) (Nat.zero_le _) h2
  dsimp only [copyStart] at c1 c2 c4
  obtain ⟨c4a, c4b⟩ := c4 (k6 hnd1)
  have hlen2 : r2.cache.length
      = (s.makeRoom ord (s.startBlock off p.length) (s.endBlock off p.length)).cache.length
        + (missingBlocks
            (s.makeRoom ord (s.startBlock off p.length) (s.endBlock off p.length)).cache
            (s.startBlock off p.length) (s.endBlock off p.length)).length := by
    apply length_of_added_keys hnd1 (k6 hnd1) (missingBlocks_nodup _ _ _)
    · intro i hi
      exact (mem_missingBlocks.1 hi).2
    · intro i
      rw [← hr1]
      constructor
      · intro hi
        by_cases hin : i ∈ runBlocks (missingRanges
            (s.makeRoom ord (s.startBlock off p.length) (s.endBlock off p.length)).cache
            (s.startBlock off p.length) (s.endBlock off p.length))
        · exact Or.inl hin
        · right
          rw [cacheHas_eq_isSome, ← d2 i hin, ← cacheHas_eq_isSome]
          exact hi
      · rintro (hi | hi)
        · exact d1 i hi
        · exact k8 i hi
  have hm := missingBlocks_length_le
    (s.makeRoom ord (s.startBlock off p.length) (s.endBlock off p.length)).cache
    (s.startBlock off p.length) (s.endBlock off p.length)
  have hl1 := hsub.length_le
  refine ⟨c4a, ?_, by omega⟩
  rcases Nat.eq_zero_or_pos (s.endBlock off p.length - s.startBlock off p.length).toNat
    with hm0 | hm0
  · have hempty : s.endBlock off p.length ≤ s.startBlock off p.length := by omega
    rw [missingRanges_of_empty _ _ _ hempty] at h1
    simp only [fetchLoop, Outcome.ok.injEq, Prod.mk.injEq, and_true] at h1
    rw [blockIndices_nil hempty] at h2'
    simp only [copyLoop, Outcome.ok.injEq] at h2'
    rw [← h2', ← h1]
    exact oneRecent_sublist hsub ho
  · have := oneRecent_after_copy r2.cache st.cache r2.clock _ _ hm0 c4a
      (k7 _ (by rw [hk3]; exact hst1)) c2
    rw [c1]
    exact this

/-- C21: with `B ≥ 1` and `N ≥ 1`, for any source and from every reachable state, a call of
`ReadAt` run with fuel for `len(cache) + (be - bs) + 1` rounds of the second eviction loop
terminates: it returns or panics, and never runs out of fuel.  The first eviction loop makes
`numToEvict` rounds; every round of the second eviction loop finds a cached block whose stamp
is strictly below the clock and deletes it, so that this loop makes exactly
`max(0, len(cache) - N)` rounds, `len(cache)` being the size when it starts. -/
theorem eviction_terminates {σ : Type} (U : Underlying σ) (B N : Int) (_hB : 1 ≤ B)
    (hN : 1 ≤ N) (s : ReaderAt σ) (hs : Reachable U B N s) (ord : Cache → Cache)
    (hord : ∀ l, (ord l).Perm l) (p : List UInt8) (off : Int) (fuel : Nat)
    (hfuel : s.cache.length
      + (s.endBlock off p.length - s.startBlock off p.length).toNat + 1 ≤ fuel) :
    ((∃ res, s.ReadAt U ord fuel p off = .ok res) ∨ s.ReadAt U ord fuel p off = .panic) ∧
      (evictRounds ord s.clock
        ((s.cache.length : Int)
          + countNewBlocks s.cache
              (blockIndices (s.startBlock off p.length) (s.endBlock off p.length))
          - s.numBlocks).toNat s.cache).length
        = ((s.cache.length : Int)
          + countNewBlocks s.cache
              (blockIndices (s.startBlock off p.length) (s.endBlock off p.length))
          - s.numBlocks).toNat ∧
      ∀ r2 st,
        fetchLoop U
          (missingRanges
            (s.makeRoom ord (s.startBlock off p.length) (s.endBlock off p.length)).cache
            (s.startBlock off p.length) (s.endBlock off p.length))
          (s.makeRoom ord (s.startBlock off p.length) (s.endBlock off p.length))
            = .ok (r2, none) →
        copyLoop (blockIndices (s.startBlock off p.length) (s.endBlock off p.length))
          (off - (s.startBlock off p.length) * s.blockSize) (copyStart r2 p) = .ok st →
        (∃ c, trimLoop ord st.clock s.numBlocks fuel st.cache = .ok c) ∧
          ((trimRounds ord st.clock s.numBlocks fuel st.cache).length : Int)
            = max 0 ((st.cache.length : Int) - N) ∧
          ∀ rd ∈ trimRounds ord st.clock s.numBlocks fuel st.cache,
            ∃ kv ∈ rd.1, kv.1 = (oldestScan st.clock (ord rd.1)).1 ∧
              kv.2.lastAccessed < st.clock ∧ rd.2 = cacheDelete rd.1 kv.1 ∧ kv ∉ rd.2 ∧
              rd.2.length + 1 = rd.1.length := by
  obtain ⟨hBe, hNe, hnd, hst⟩ := reachable_inv U B N s hs
  have hstage : ∀ r2 st,
      fetchLoop U
        (missingRanges
          (s.makeRoom ord (s.startBlock off p.length) (s.endBlock off p.length)).cache
          (s.startBlock off p.length) (s.endBlock off p.length))
        (s.makeRoom ord (s.startBlock off p.length) (s.endBlock off p.length))
          = .ok (r2, none) →
      copyLoop (blockIndices (s.startBlock off p.length) (s.endBlock off p.length))
        (off - (s.startBlock off p.length) * s.blockSize) (copyStart r2 p) = .ok st →
      (∃ c, trimLoop ord st.clock s.numBlocks fuel st.cache = .ok c) ∧
        ((trimRounds ord st.clock s.numBlocks fuel st.cache).length : Int)
          = max 0 ((st.cache.length : Int) - N) ∧
        ∀ rd ∈ trimRounds ord st.clock s.numBlocks fuel st.cache,
          ∃ kv ∈ rd.1, kv.1 = (oldestScan st.clock (ord rd.1)).1 ∧
            kv.2.lastAccessed < st.clock ∧ rd.2 = cacheDelete rd.1 kv.1 ∧ kv ∉ rd.2 ∧
            rd.2.length + 1 = rd.1.length := by
    intro r2 st h1 h2
    obtain ⟨f1, f2, f3⟩ := copy_cache_facts U B N s hs ord p off r2 st h1 h2
    have hN' : 1 ≤ s.numBlocks := by rw [hNe]; exact hN
    obtain ⟨t1, t2⟩ := trimRounds_facts ord hord st.clock s.numBlocks hN' fuel st.cache f1 f2
      (by omega)
    exact ⟨trimLoop_terminates ord st.clock s.numBlocks fuel st.cache hord f1 f2 hN'
      (by omega), by rw [t1, hNe], t2⟩
  refine ⟨?_, (evictLoop_rounds ord s.clock _ s.cache).1, hstage⟩
  cases hf : fetchLoop U
      (missingRanges
        (s.makeRoom ord (s.startBlock off p.length) (s.endBlock off p.length)).cache
        (s.startBlock off p.length) (s.endBlock off p.length))
      (s.makeRoom ord (s.startBlock off p.length) (s.endBlock off p.length)) with
  | panic => exact Or.inr (ReadAt_of_fetch_panic U ord fuel s p off hf)
  | outOfFuel => exact absurd hf (fetchLoop_ne_outOfFuel U _ _)
  | ok res =>
    obtain ⟨r2, e⟩ := res
    cases e with
    | some e => exact Or.inl ⟨_, ReadAt_of_failure U ord fuel s p off r2 e hf⟩
    | none =>
      cases hc : copyLoop (blockIndices (s.startBlock off p.length) (s.endBlock off p.length))
          (off - (s.startBlock off p.length) * s.blockSize) (copyStart r2 p) with
      | panic => exact Or.inr (ReadAt_of_copy_panic U ord fuel s p off r2 hf hc)
      | outOfFuel => exact absurd hc (copyLoop_ne_outOfFuel _ _ _)
      | ok st =>
        obtain ⟨⟨c, hc3⟩, -⟩ := hstage r2 st hf hc
        exact Or.inl ⟨_, ReadAt_of_stages U ord fuel s p off r2 st c hf hc hc3⟩

/-- Witness of C21: `B = 4`, `N = 2`, blocks 0 and 1 cached; a read of 12 bytes at offset 0
(blocks 0, 1, 2) with fuel 6 returns after one round of each eviction loop. -/
theorem eviction_terminates_witness :
    (1 : Int) ≤ 4 ∧ (1 : Int) ≤ 2 ∧
    twoBlockState.cache.length
      + (twoBlockState.endBlock 0 (List.replicate 12 (0 : UInt8)).length
        - twoBlockState.startBlock 0 (List.replicate 12 (0 : UInt8)).length).toNat + 1 ≤ 6 ∧
    ((∃ res, twoBlockState.ReadAt (contentSource sampleContent) id 6
        (List.replicate 12 0) 0 = .ok res) ∨
      twoBlockState.ReadAt (contentSource sampleContent) id 6 (List.replicate 12 0) 0
        = .panic) :=
  ⟨by decide, by decide, by decide,
    (eviction_terminates (contentSource sampleContent) 4 2 (by decide) (by decide)
      twoBlockState twoBlockState_reachable id (fun l => List.Perm.refl l)
      (List.replicate 12 0) 0 6 (by decide)).1⟩
end Bufreadat
